import Mathlib

/-!
# payer-status-io: configuration, task heap, scheduler, prober and hub

A shallow embedding of the Go sources

* `internal/config/models.go`  (`Endpoint`, `Payer`, `Config`, `ProbeResult`, `GetSchedule`,
  `GetURL`, `GetMethod`),
* `internal/config/loader.go`  (`Loader.validate`),
* `internal/scheduler/task.go` (`Task`, `TaskHeap` on top of `container/heap`),
* `internal/scheduler/scheduler.go` (`LoadConfig`, `processNextTasks`, `addJitter`),
* `internal/prober/prober.go`  (`ProbeTask`, `createRequest`, `resolveURL`, `CheckRedirect`),
* `internal/hub/hub.go`        (`createPredicate`, `handleSubscriptionUpdate`, the loop of
  `Run` with `broadcastToClients` and `closeAllClients`).

Conventions of the embedding.

* A `time.Duration` (int64 nanoseconds) is an integer (`Int`), and the one sum of durations in
  the code, in `addJitter`, is reduced modulo 2^64 to the int64 range (`wrapInt64`). A
  `time.Time` instant is the integer number of its nanoseconds on the clock; `Time.Add` keeps
  seconds and nanoseconds apart, so the sum of an instant of this era and a duration is exact.
* A `float64` value (`jitterPct`, the sample of `rand.Float64()`) is the rational it stands for,
  and every float64 operation rounds its exact result to the nearest value with a significand
  of 53 bits, a tie going to the even one (`roundFloat64`). The exponent has no bound in the
  embedding: with the jitter fraction 0.1 and a sample of `rand.Float64()`, which is zero or at
  least 2^-63, the float64 values of `addJitter` are zero or between 2^-63 and 2^63 in
  magnitude, far from the overflow and underflow of float64.
* A Go slice is a `List`; a Go `map[string]V` is a list of key/value pairs with unique keys.
* A pointer to a client is a number, and the hub carries the client that each pointer points
  to; a panic of the hub goroutine is an error value. A pointer to a task in the task channel
  is given by the fields of the task that are never written.
* Values that the Go code obtains from its environment (`time.Now()`, `rand.Float64()`,
  `rate.Limiter.Allow()`, the receives of the workers on the task channel, the results of
  `net/http`) are explicit arguments, and what the other goroutines do to the hub are events.
* A Go loop without a bound of its own is a recursion on a number of rounds; for the loops of
  the heap a lemma shows that the number given is enough, and for the loop of
  `processNextTasks` the number of rounds is an argument: one round more than there are tasks
  is enough when `addJitter` does not wrap, and no number is when it wraps in every round.
-/

namespace PayerStatus

/-! ## `internal/config/models.go` -/

/-- The constant `time.Second`, in nanoseconds. -/
def Second : Int := 1000000000

/-- The constant `time.Minute`, in nanoseconds. -/
def Minute : Int := 60 * Second

/-- The struct `config.Endpoint`; the field `Type` is spelled `Type_`. -/
structure Endpoint where
  Type_ : String
  URL : String
  Path : String
  URLContains : String
  Method : String
  Schedule : Int
  Description : String
  deriving DecidableEq, Repr

/-- The struct `config.Payer`. -/
structure Payer where
  Name : String
  Endpoints : List Endpoint
  deriving DecidableEq, Repr

/-- The struct `config.Config`. -/
structure Config where
  Payers : List Payer
  deriving DecidableEq, Repr

/-- The struct `config.ProbeResult`. -/
structure ProbeResult where
  Timestamp : Int
  Payer : String
  Type_ : String
  URL : String
  LatencyMS : Int
  StatusCode : Int
  Err : String
  deriving DecidableEq, Repr

/-- The method `Endpoint.GetSchedule`: 15 minutes for a zero schedule, one minute for any other
schedule below one minute, the schedule itself otherwise. -/
def Endpoint.GetSchedule (e : Endpoint) : Int :=
  if e.Schedule = 0 then 15 * Minute
  else if e.Schedule < Minute then Minute
  else e.Schedule

/-! ## `internal/config/loader.go` -/

/-- The errors that `Loader.validate` builds with `fmt.Errorf`, one constructor per message,
carrying the values the message is formatted with. -/
inductive ValidationError where
  | noPayers
  | emptyPayerName (index : Nat)
  | noEndpoints (payer : String)
  | emptyType (payer : String) (index : Nat)
  | noTarget (payer : String) (endpointType : String)
  | scheduleTooShort (payer : String) (endpointType : String)
  deriving DecidableEq, Repr

/-- The inner loop of `Loader.validate` over `payer.Endpoints`, from index `j` on. -/
def validateEndpoints (payerName : String) : Nat → List Endpoint → Except ValidationError Unit
  | _, [] => .ok ()
  | j, endpoint :: rest =>
    if endpoint.Type_ = "" then
      .error (.emptyType payerName j)
    else if endpoint.URL = "" ∧ endpoint.Path = "" ∧ endpoint.URLContains = "" then
      .error (.noTarget payerName endpoint.Type_)
    else if endpoint.Schedule ≠ 0 ∧ endpoint.Schedule < Minute then
      .error (.scheduleTooShort payerName endpoint.Type_)
    else
      validateEndpoints payerName (j + 1) rest

/-- The outer loop of `Loader.validate` over `config.Payers`, from index `i` on. -/
def validatePayers : Nat → List Payer → Except ValidationError Unit
  | _, [] => .ok ()
  | i, payer :: rest =>
    if payer.Name = "" then
      .error (.emptyPayerName i)
    else if payer.Endpoints.length = 0 then
      .error (.noEndpoints payer.Name)
    else
      match validateEndpoints payer.Name 0 payer.Endpoints with
      | .error err => .error err
      | .ok _ => validatePayers (i + 1) rest

/-- The method `Loader.validate`; `.ok ()` is the `nil` error. -/
def validate (config : Config) : Except ValidationError Unit :=
  if config.Payers.length = 0 then
    .error .noPayers
  else
    validatePayers 0 config.Payers

/-! ## `internal/hub/hub.go`: the subscription filter -/

/-- The loop `for _, x := range xs { if value == x { match = true; break } }`. -/
def matchAny (value : String) : List String → Bool
  | [] => false
  | x :: rest => if value = x then true else matchAny value rest

/-- The closure returned by `Client.createPredicate(payers, types)`, applied to a result. -/
def createPredicate (payers types : List String) (result : ProbeResult) : Bool :=
  if payers.length = 0 ∧ types.length = 0 then
    true
  else if payers.length > 0 ∧ matchAny result.Payer payers = false then
    false
  else if types.length > 0 ∧ matchAny result.Type_ types = false then
    false
  else
    true

/-! ## Specification-side predicates -/

/-- An endpoint that validation objects to. -/
def Endpoint.Invalid (e : Endpoint) : Prop :=
  e.Type_ = "" ∨ (e.URL = "" ∧ e.Path = "" ∧ e.URLContains = "") ∨
    (e.Schedule ≠ 0 ∧ e.Schedule < Minute)

/-- A configuration that validation objects to. -/
def Config.Invalid (c : Config) : Prop :=
  c.Payers = [] ∨
    ∃ p ∈ c.Payers, p.Name = "" ∨ p.Endpoints = [] ∨ ∃ e ∈ p.Endpoints, e.Invalid

/-- The configuration with the single payer `name` owning the single endpoint `e`. -/
def Config.single (name : String) (e : Endpoint) : Config :=
  ⟨[⟨name, [e]⟩]⟩

/-! ## `internal/scheduler/task.go` and the `container/heap` functions it calls -/

/-- The struct `scheduler.Task`; `NextRun` is an instant, `Interval` a duration. -/
structure Task where
  Payer : String
  Endpoint : Endpoint
  NextRun : Int
  Interval : Int
  deriving DecidableEq, Repr

/-- The type `TaskHeap`, a slice of tasks. -/
abbrev TaskHeap := List Task

/-- The method `TaskHeap.Len`. -/
def TaskHeap.Len (h : TaskHeap) : Nat := h.length

/-- The method `TaskHeap.Less`: `h[i].NextRun.Before(h[j].NextRun)`. An index out of range,
where Go panics, gives `false`. -/
def TaskHeap.Less (h : TaskHeap) (i j : Nat) : Bool :=
  match h[i]?, h[j]? with
  | some a, some b => decide (a.NextRun < b.NextRun)
  | _, _ => false

/-- The method `TaskHeap.Swap`: `h[i], h[j] = h[j], h[i]`. An index out of range, where Go
panics, leaves the slice as it is. -/
def TaskHeap.Swap (h : TaskHeap) (i j : Nat) : TaskHeap :=
  match h[i]?, h[j]? with
  | some a, some b => (h.set i b).set j a
  | _, _ => h

/-- The method `TaskHeap.Push`: `append(*h, x)`. -/
def TaskHeap.Push (h : TaskHeap) (x : Task) : TaskHeap := h ++ [x]

/-- The method `TaskHeap.Pop`: the last element `old[n-1]` and the rest `old[0 : n-1]`. -/
def TaskHeap.Pop (h : TaskHeap) : Option Task × TaskHeap := (h.getLast?, h.dropLast)

/-- The method `TaskHeap.Peek`: `nil` on an empty heap, `h[0]` otherwise. -/
def TaskHeap.Peek (h : TaskHeap) : Option Task :=
  if h.length = 0 then none else h[0]?

/-- The loop of `heap.up(h, j)` of `container/heap`, with a bound on the number of rounds:
`i := (j - 1) / 2` is the parent; stop when `i == j` or `!h.Less(j, i)`, else swap and go on
from `i`. -/
def upLoop : Nat → TaskHeap → Nat → TaskHeap
  | 0, h, _ => h
  | fuel + 1, h, j =>
    let i := (j - 1) / 2
    if i = j ∨ TaskHeap.Less h j i = false then h
    else upLoop fuel (TaskHeap.Swap h i j) i

/-- The function `heap.up(h, j)`: `j` rounds are enough, the index halving in each one
(`upLoop_fuel`). -/
def up (h : TaskHeap) (j : Nat) : TaskHeap := upLoop j h j

/-- The loop of `heap.down(h, i, n)` of `container/heap`, with a bound on the number of rounds:
`j1 := 2*i + 1` is the left child; stop when `j1 >= n`; `j` is the smaller of the children
below `n`; stop when `!h.Less(j, i)`, else swap and go on from `j`. -/
def downLoop : Nat → TaskHeap → Nat → Nat → TaskHeap
  | 0, h, _, _ => h
  | fuel + 1, h, i, n =>
    let j1 := 2 * i + 1
    if j1 ≥ n then h
    else
      let j := if j1 + 1 < n ∧ TaskHeap.Less h (j1 + 1) j1 = true then j1 + 1 else j1
      if TaskHeap.Less h j i = false then h
      else downLoop fuel (TaskHeap.Swap h i j) j n

/-- The function `heap.down(h, i, n)`: `n - i` rounds are enough, the index growing in each
one (`downLoop_fuel`). -/
def down (h : TaskHeap) (i n : Nat) : TaskHeap := downLoop (n - i) h i n

/-- The function `heap.Init(h)`: `down(h, i, n)` for `i = n/2 - 1` down to `0`. -/
def heapInit (h : TaskHeap) : TaskHeap :=
  (List.range (TaskHeap.Len h / 2)).reverse.foldl (fun acc i => down acc i (TaskHeap.Len h)) h

/-- The function `heap.Push(h, x)`: `h.Push(x)` then `up(h, h.Len() - 1)`. -/
def heapPush (h : TaskHeap) (x : Task) : TaskHeap :=
  let h1 := TaskHeap.Push h x
  up h1 (TaskHeap.Len h1 - 1)

/-- The function `heap.Pop(h)`: `n := h.Len() - 1`, `h.Swap(0, n)`, `down(h, 0, n)`, then
`h.Pop()`. -/
def heapPop (h : TaskHeap) : Option Task × TaskHeap :=
  let n := TaskHeap.Len h - 1
  TaskHeap.Pop (down (TaskHeap.Swap h 0 n) 0 n)

/-- The function `NewTaskHeap`: an empty slice passed through `heap.Init`. -/
def NewTaskHeap : TaskHeap := heapInit []

/-- The method `TaskHeap.PushTask`. -/
def TaskHeap.PushTask (h : TaskHeap) (task : Task) : TaskHeap := heapPush h task

/-- The method `TaskHeap.PopTask`: `nil` and the unchanged heap when `h.Len() == 0`, else
`heap.Pop(h)`. -/
def TaskHeap.PopTask (h : TaskHeap) : Option Task × TaskHeap :=
  if TaskHeap.Len h = 0 then (none, h) else heapPop h

/-- The method `TaskHeap.PeekTask`. -/
def TaskHeap.PeekTask (h : TaskHeap) : Option Task := TaskHeap.Peek h

/-- The heaps that the exported operations build: `NewTaskHeap()` followed by any sequence of
`PushTask` and `PopTask`. -/
inductive TaskHeap.Reachable : TaskHeap → Prop where
  | new : TaskHeap.Reachable NewTaskHeap
  | push (h : TaskHeap) (task : Task) :
      TaskHeap.Reachable h → TaskHeap.Reachable (TaskHeap.PushTask h task)
  | pop (h : TaskHeap) :
      TaskHeap.Reachable h → TaskHeap.Reachable (TaskHeap.PopTask h).2

/-- The `NextRun` of the task at index `k` (`0` past the end). -/
def keyAt (h : TaskHeap) (k : Nat) : Int :=
  match h[k]? with
  | some t => t.NextRun
  | none => 0

/-- The heap order: no task runs before its parent, the parent of index `k` being
`(k - 1) / 2`. -/
def IsHeap (h : TaskHeap) : Prop :=
  ∀ k, 0 < k → k < h.length → keyAt h ((k - 1) / 2) ≤ keyAt h k

/-! ## `internal/scheduler/scheduler.go` -/

/-- The value `rate.NewLimiter(rate.Every(interval), 1)` of `golang.org/x/time/rate`: a token
bucket refilled with one token every `every` nanoseconds, holding at most `burst` tokens. -/
structure Limiter where
  every : Int
  burst : Nat
  deriving DecidableEq, Repr

/-- The read `m[key]` of a Go map, with its `exists` flag as the option. -/
def mapGet : List (String × Limiter) → String → Option Limiter
  | [], _ => none
  | (k, v) :: rest, key => if k = key then some v else mapGet rest key

/-- The write `m[key] = value` of a Go map: the entry of `key` is replaced when there is one
and added otherwise. -/
def mapSet : List (String × Limiter) → String → Limiter → List (String × Limiter)
  | [], key, value => [(key, value)]
  | (k, v) :: rest, key, value =>
    if k = key then (k, value) :: rest else (k, v) :: mapSet rest key value

/-- What a task keeps for its whole life: payer, endpoint and interval. -/
def Task.identity (t : Task) : String × PayerStatus.Endpoint × Int :=
  (t.Payer, t.Endpoint, t.Interval)

/-- The struct `scheduler.Scheduler` without its logger and mutex. `taskChan` is the content
of the buffered channel `chan *Task`, oldest first, and `taskChanCap` its capacity. The channel
holds pointers to tasks of the heap, and the scheduler writes the `NextRun` of a task after it
has sent the pointer; a task in the channel is therefore given by the fields that are never
written: payer, endpoint and interval. -/
structure Scheduler where
  heap : TaskHeap
  limiters : List (String × Limiter)
  taskChan : List (String × Endpoint × Int)
  taskChanCap : Nat
  jitterPct : ℚ

/-- The nearest integer of a rational, a tie going to the even integer. -/
def roundHalfEven (x : ℚ) : Int :=
  if x - ⌊x⌋ < 1 / 2 then ⌊x⌋
  else if 1 / 2 < x - ⌊x⌋ then ⌊x⌋ + 1
  else if ⌊x⌋ % 2 = 0 then ⌊x⌋ else ⌊x⌋ + 1

/-- The rounding of every float64 operation: the nearest rational `m * 2^(e - 52)` with an
integer `m`, where `2^e ≤ |x| < 2^(e + 1)`, a tie going to the even `m`. It is applied to the
exact result of a conversion, a product or a difference. -/
def roundFloat64 (x : ℚ) : ℚ :=
  if x = 0 then 0
  else (roundHalfEven (x / 2 ^ (Int.log 2 |x| - 52)) : ℚ) * 2 ^ (Int.log 2 |x| - 52)

/-- The int64 that the sum of two int64 leaves: the integer of the same class modulo 2^64
between -2^63 and 2^63 - 1. -/
def wrapInt64 (x : Int) : Int :=
  (x + 2 ^ 63) % 2 ^ 64 - 2 ^ 63

/-- The function `scheduler.New`; the constant `0.1` is the float64 nearest to one tenth. -/
def New (taskChanSize : Nat) : Scheduler :=
  { heap := NewTaskHeap, limiters := [], taskChan := [], taskChanCap := taskChanSize,
    jitterPct := roundFloat64 (1 / 10) }

/-- The conversion `time.Duration(x)` of a float to an integer: the fraction is discarded,
rounding towards zero. With a duration that is not negative and a jitter fraction of at most
one, the values converted in `addJitter` are inside the int64 range. -/
def truncToInt (x : ℚ) : Int :=
  if 0 ≤ x then ⌊x⌋ else ⌈x⌉

/-- The method `Scheduler.addJitter`; `u` is the value of `rand.Float64()`, drawn only when
`jitterPct` is positive. The expression `float64(duration) * s.jitterPct * (2*u - 1)` is
evaluated from the left in float64, each operation rounding its result, and the sum
`duration + time.Duration(jitter)` is an int64 sum. -/
def Scheduler.addJitter (s : Scheduler) (u : ℚ) (duration : Int) : Int :=
  if s.jitterPct ≤ 0 then duration
  else
    let jitter : ℚ :=
      roundFloat64 (roundFloat64 (roundFloat64 (duration : ℚ) * s.jitterPct)
        * roundFloat64 (roundFloat64 (2 * u) - 1))
    wrapInt64 (duration + truncToInt jitter)

/-- The method `Scheduler.getLimiterKey`. -/
def getLimiterKey (payer endpointType : String) : String :=
  payer ++ ":" ++ endpointType

/-- The state of the loops of `LoadConfig`: the scheduler, and the number of calls of
`addJitter` made so far, which selects the random sample of the next call. -/
structure LoadState where
  sched : Scheduler
  calls : Nat

/-- The body of the inner loop of `LoadConfig`, for one endpoint of the payer `payerName`:
push the task, then create the rate limiter of the endpoint. -/
def loadEndpoint (now : Int) (sample : Nat → ℚ) (payerName : String) (st : LoadState)
    (endpoint : Endpoint) : LoadState :=
  let s := st.sched
  let task : Task :=
    { Payer := payerName
      Endpoint := endpoint
      NextRun := now + s.addJitter (sample st.calls) endpoint.GetSchedule
      Interval := endpoint.GetSchedule }
  let heap := TaskHeap.PushTask s.heap task
  let limiterKey := getLimiterKey payerName endpoint.Type_
  let interval := endpoint.GetSchedule
  let interval := if interval < Minute then Minute else interval
  { sched := { s with heap := heap, limiters := mapSet s.limiters limiterKey ⟨interval, 1⟩ }
    calls := st.calls + 1 }

/-- The body of the outer loop of `LoadConfig`, for one payer. -/
def loadPayer (now : Int) (sample : Nat → ℚ) (st : LoadState) (payer : Payer) : LoadState :=
  payer.Endpoints.foldl (loadEndpoint now sample payer.Name) st

/-- The method `Scheduler.LoadConfig`; `now` is the value of `time.Now()` and `sample k` the
value of `rand.Float64()` in the `k`-th call of `addJitter`. -/
def Scheduler.LoadConfig (s : Scheduler) (cfg : Config) (now : Int) (sample : Nat → ℚ) :
    Scheduler :=
  let s0 : Scheduler := { s with heap := NewTaskHeap, limiters := [] }
  (cfg.Payers.foldl (loadPayer now sample) ⟨s0, 0⟩).sched

/-- What became of a task that `processNextTasks` took from the heap: sent on the task
channel, dropped because the channel was full, held back by its rate limiter, or skipped for
want of a rate limiter. -/
inductive Outcome where
  | sent
  | channelFull
  | rateLimited
  | noLimiter
  deriving DecidableEq, Repr

/-- What one call of `processNextTasks` takes from its environment: `now` is the value of
`time.Now()`; in round `k` of the loop, `sample k` is the value of `rand.Float64()`, `allow k`
the result of `limiter.Allow()` and `received k` the number of tasks that the workers took from
the channel since the round before. -/
structure TickEnv where
  now : Int
  sample : Nat → ℚ
  allow : Nat → Bool
  received : Nat → Nat

/-- The record of one round of the loop of `processNextTasks`: the task as it was popped, the
limiter found for it, the result of `Allow()`, the number of tasks in the channel at the send,
the outcome, and the `NextRun` given to the task. -/
structure TickEvent where
  task : Task
  limiter : Option Limiter
  allowed : Bool
  chanLen : Nat
  outcome : Outcome
  nextRun : Int
  deriving DecidableEq, Repr

/-- The dispatch of a popped task: `if exists && limiter.Allow()` a non-blocking send on the
channel, `else if !exists` an error in the log. The result is the channel and the outcome. -/
def dispatch (limiter : Option Limiter) (allowed : Bool)
    (chan : List (String × Endpoint × Int)) (cap : Nat) (task : Task) :
    List (String × Endpoint × Int) × Outcome :=
  match limiter with
  | some _ =>
    if allowed then
      if chan.length < cap then (chan ++ [task.identity], Outcome.sent)
      else (chan, Outcome.channelFull)
    else (chan, Outcome.rateLimited)
  | none => (chan, Outcome.noLimiter)

/-- The task with its `NextRun` replaced: `task.NextRun = nextRun`. -/
def Task.withNextRun (task : Task) (nextRun : Int) : Task :=
  { task with NextRun := nextRun }

/-- The loop of `processNextTasks`, from round `k` on, with a bound on the number of rounds;
`none` when the bound is reached before the loop ends. The log gets one event per round. -/
def processLoop (env : TickEnv) :
    Nat → Nat → Scheduler → List TickEvent → Option (Scheduler × List TickEvent)
  | 0, _, _, _ => none
  | fuel + 1, k, s, log =>
    match TaskHeap.PeekTask s.heap with
    | none => some (s, log)
    | some top =>
      if top.NextRun > env.now then some (s, log)
      else
        match TaskHeap.PopTask s.heap with
        | (none, _) => none
        | (some task, heap1) =>
          let limiterKey := getLimiterKey task.Payer task.Endpoint.Type_
          let limiter := mapGet s.limiters limiterKey
          let chan := s.taskChan.drop (env.received k)
          let sending := dispatch limiter (env.allow k) chan s.taskChanCap task
          let nextRun := env.now + s.addJitter (env.sample k) task.Interval
          let heap2 := TaskHeap.PushTask heap1 (task.withNextRun nextRun)
          processLoop env fuel (k + 1) { s with heap := heap2, taskChan := sending.1 }
            (log ++ [{ task := task, limiter := limiter, allowed := env.allow k,
                       chanLen := chan.length, outcome := sending.2, nextRun := nextRun }])

/-- The method `Scheduler.processNextTasks`, with a bound `fuel` on the number of rounds of its
loop: the scheduler and the events of the call when the loop ends within `fuel` rounds, and
`none` when it does not. -/
def Scheduler.processNextTasks (s : Scheduler) (env : TickEnv) (fuel : Nat) :
    Option (Scheduler × List TickEvent) :=
  processLoop env fuel 0 s []

/-- The payer, endpoint and interval of the tasks that a configuration asks for, one per
configured endpoint, in the order of the configuration. -/
def Config.taskIdentities (cfg : Config) : List (String × Endpoint × Int) :=
  cfg.Payers.flatMap fun p => p.Endpoints.map fun e => (p.Name, e, e.GetSchedule)

/-- The total number of endpoints of a configuration (`Loader.countEndpoints`). -/
def Config.countEndpoints (cfg : Config) : Nat :=
  (cfg.Payers.map fun p => p.Endpoints.length).sum

/-- The limiter keys of the endpoints of a configuration, one per configured endpoint. -/
def Config.limiterKeys (cfg : Config) : List String :=
  cfg.Payers.flatMap fun p => p.Endpoints.map fun e => getLimiterKey p.Name e.Type_

/-- The task of an event as it went back into the heap. -/
def TickEvent.rescheduled (e : TickEvent) : Task :=
  e.task.withNextRun e.nextRun

/-- What round `idx` of the loop of `processNextTasks` does, read off its event: the task was
due; its new `NextRun` is `now` plus the jittered interval; the limiter is the one registered
under the key of the task; and the outcome follows the branches of the dispatch. -/
def EventOK (env : TickEnv) (s : Scheduler) (idx : Nat) (e : TickEvent) : Prop :=
  e.task.NextRun ≤ env.now ∧
    e.nextRun = env.now + s.addJitter (env.sample idx) e.task.Interval ∧
    e.limiter = mapGet s.limiters (getLimiterKey e.task.Payer e.task.Endpoint.Type_) ∧
    e.allowed = env.allow idx ∧
    (e.outcome = Outcome.sent ↔
      e.limiter.isSome = true ∧ e.allowed = true ∧ e.chanLen < s.taskChanCap) ∧
    (e.outcome = Outcome.channelFull ↔
      e.limiter.isSome = true ∧ e.allowed = true ∧ ¬ e.chanLen < s.taskChanCap) ∧
    (e.outcome = Outcome.rateLimited ↔ e.limiter.isSome = true ∧ e.allowed = false) ∧
    (e.outcome = Outcome.noLimiter ↔ e.limiter = none)

/-- The tasks of a heap that are due at `now`. -/
def dueTasks (now : Int) (h : TaskHeap) : List Task :=
  h.filter fun t => decide (t.NextRun ≤ now)

/-- The tasks that a list of events reports as sent, in the order of the events. -/
def sentTasks (evs : List TickEvent) : List Task :=
  (evs.filter fun e => decide (e.outcome = Outcome.sent)).map TickEvent.task

/-- A bound on durations, 2^50 ns or about 13 days, up to which the float64 arithmetic of
`addJitter` with the jitter fraction 0.1 moves a duration by at most a tenth of it. -/
def safeDuration : Int := 2 ^ 50

/-- Every schedule of the configuration, after the default and the floor of `GetSchedule`, is
at most `bound`. -/
def Config.SchedulesAtMost (cfg : Config) (bound : Int) : Prop :=
  ∀ p ∈ cfg.Payers, ∀ e ∈ p.Endpoints, e.GetSchedule ≤ bound

/-- The scheduler states on which the jitter stays within a tenth of the interval: the heap is
in heap order, every interval is positive and at most `safeDuration`, and the jitter fraction
is the one of `New`. `New`, `LoadConfig` with schedules of at most `safeDuration` and
`processNextTasks` produce such states. -/
def Scheduler.WellFormed (s : Scheduler) : Prop :=
  IsHeap s.heap ∧ (∀ t ∈ s.heap, 0 < t.Interval ∧ t.Interval ≤ safeDuration) ∧
    s.jitterPct = roundFloat64 (1 / 10)

/-- The samples of `rand.Float64()` lie in the half-open interval from 0 to 1. -/
def TickEnv.SamplesInRange (env : TickEnv) : Prop :=
  ∀ i, 0 ≤ env.sample i ∧ env.sample i < 1
/-! ## `internal/hub/hub.go`: messages, clients and the hub loop -/

/-- A decoded JSON value, as `wsjson.Read` stores it in an `interface{}`. -/
inductive JsonValue where
  | null
  | bool (b : Bool)
  | number (x : ℚ)
  | string (s : String)
  | array (items : List JsonValue)
  | object (fields : List (String × JsonValue))

/-- An inbound message, a `map[string]interface{}`. -/
abbrev Message := List (String × JsonValue)

/-- The read `msg[key]` of the message, with its `ok` flag as the option. -/
def msgGet : Message → String → Option JsonValue
  | [], _ => none
  | (k, v) :: rest, key => if k = key then some v else msgGet rest key

/-- The loop `for _, p := range slice { if s, ok := p.(string); ok { out = append(out, s) } }`
of `handleSubscriptionUpdate`. -/
def stringElements : List JsonValue → List String
  | [] => []
  | JsonValue.string s :: rest => s :: stringElements rest
  | _ :: rest => stringElements rest

/-- The list that `handleSubscriptionUpdate` reads under `key`: the string elements of the
value when the key is there with a `[]interface{}` value, the nil slice otherwise. -/
def readStringList (msg : Message) (key : String) : List String :=
  match msgGet msg key with
  | some (JsonValue.array items) => stringElements items
  | _ => []

/-- The channel `chan *config.ProbeResult` of a client: `enqueued` are the results sent on it
so far, oldest first, `taken` is how many of them the write loop has received, `cap` is the
capacity of the buffer, and `closed` tells that `close` was called. -/
structure SendChan where
  enqueued : List ProbeResult
  taken : Nat
  cap : Nat
  closed : Bool

/-- The number of results in the buffer, `len(ch)`. -/
def SendChan.len (ch : SendChan) : Nat :=
  ch.enqueued.length - ch.taken

/-- The results that the write loop has received, oldest first. -/
def SendChan.received (ch : SendChan) : List ProbeResult :=
  ch.enqueued.take ch.taken

/-- A run-time panic of the hub goroutine. -/
inductive HubPanic where
  | sendOnClosedChannel
  | closeOfClosedChannel
  deriving DecidableEq, Repr

/-- The statement `close(ch)`: it panics on a closed channel. -/
def SendChan.close (ch : SendChan) : Except HubPanic SendChan :=
  if ch.closed then .error .closeOfClosedChannel else .ok { ch with closed := true }

/-- The statement `select { case ch <- r: ... default: ... }`: it panics on a closed channel,
puts `r` at the tail of the buffer when there is room, and takes the `default` branch, the
result `none`, when the buffer is full. -/
def SendChan.trySend (ch : SendChan) (r : ProbeResult) : Except HubPanic (Option SendChan) :=
  if ch.closed then .error .sendOnClosedChannel
  else if ch.len < ch.cap then .ok (some { ch with enqueued := ch.enqueued ++ [r] })
  else .ok none

/-- The receive `<-c.send` of the write loop, when the buffer holds a result. -/
def SendChan.take (ch : SendChan) : SendChan :=
  if ch.taken < ch.enqueued.length then { ch with taken := ch.taken + 1 } else ch

/-- The struct `hub.Client` without its connection, logger and hub. -/
structure Client where
  id : String
  send : SendChan
  predicate : ProbeResult → Bool

/-- The client that `HandleWebSocket` makes: a send queue of 256 slots and a predicate that
accepts every result. -/
def newClient (id : String) : Client :=
  { id := id
    send := { enqueued := [], taken := 0, cap := 256, closed := false }
    predicate := fun _ => true }

/-- The method `Client.handleSubscriptionUpdate`: nothing happens unless `msg["action"]` is the
string `subscribe`; then the predicate is replaced by the one of the string elements under
`payers` and `types`. -/
def Client.handleSubscriptionUpdate (c : Client) (msg : Message) : Client :=
  match msgGet msg "action" with
  | some (JsonValue.string action) =>
    if action ≠ "subscribe" then c
    else
      let payers := readStringList msg "payers"
      let types := readStringList msg "types"
      { c with predicate := createPredicate payers types }
  | _ => c

/-- The struct `hub.Hub`: `clients` are the keys of the map `h.clients`, pointers to clients;
`mem` gives the client a pointer points to; `next` is the pointer that the next client gets;
`running` tells that the loop of `Run` has not returned. -/
structure Hub where
  clients : List Nat
  mem : Nat → Client
  next : Nat
  running : Bool

/-- The function `hub.New`, with the loop of `Run` started. -/
def Hub.New : Hub :=
  { clients := [], mem := fun _ => newClient "", next := 0, running := true }

/-- The assignment `*p = c` to the client that `p` points to. -/
def Hub.setClient (h : Hub) (p : Nat) (c : Client) : Hub :=
  { h with mem := Function.update h.mem p c }

/-- The body of the loop of `broadcastToClients` for the client `p`: when the predicate
accepts the result, a non-blocking send on `client.send`, and on a full queue
`close(client.send)` and `delete(h.clients, client)`. -/
def Hub.broadcastOne (result : ProbeResult) (h : Hub) (p : Nat) : Except HubPanic Hub :=
  let client := h.mem p
  if client.predicate result = true then
    match client.send.trySend result with
    | .error e => .error e
    | .ok (some ch) => .ok (h.setClient p { client with send := ch })
    | .ok none =>
      match client.send.close with
      | .error e => .error e
      | .ok ch =>
        .ok { h.setClient p { client with send := ch } with clients := h.clients.erase p }
  else .ok h

/-- The loop `for client := range h.clients` of `broadcastToClients`, over the keys that the
map had when the loop began. -/
def Hub.broadcastLoop (result : ProbeResult) : List Nat → Hub → Except HubPanic Hub
  | [], h => .ok h
  | p :: rest, h =>
    match h.broadcastOne result p with
    | .error e => .error e
    | .ok h2 => Hub.broadcastLoop result rest h2

/-- The method `Hub.broadcastToClients`. -/
def Hub.broadcastToClients (h : Hub) (result : ProbeResult) : Except HubPanic Hub :=
  Hub.broadcastLoop result h.clients h

/-- The loop of `closeAllClients`: `close(client.send)` for every client of the map. -/
def Hub.closeLoop : List Nat → Hub → Except HubPanic Hub
  | [], h => .ok h
  | p :: rest, h =>
    match (h.mem p).send.close with
    | .error e => .error e
    | .ok ch => Hub.closeLoop rest (h.setClient p { h.mem p with send := ch })

/-- The method `Hub.closeAllClients`: the loop, then `h.clients = make(map[*Client]bool)`. -/
def Hub.closeAllClients (h : Hub) : Except HubPanic Hub :=
  match Hub.closeLoop h.clients h with
  | .error e => .error e
  | .ok h2 => .ok { h2 with clients := [] }

/-- What the goroutines of the hub do, one event at a time: the loop of `Run` receives a new
client from `register`, a client from `unregister`, a result from `broadcast`, or the
cancellation; the write loop of a client receives a result from its send queue; the read loop
of a client handles a message. -/
inductive HubEvent where
  | register (id : String)
  | unregister (p : Nat)
  | broadcast (result : ProbeResult)
  | shutdown
  | writerTook (p : Nat)
  | subscribe (p : Nat) (msg : Message)

/-- One event on the hub. The cases of the `select` of `Run` happen only while the loop runs:
`register` makes the client of `HandleWebSocket` under a fresh pointer and sets
`h.clients[client] = true`; `unregister` deletes the client and closes its send queue if it is
in the map; `broadcast` calls `broadcastToClients`; `shutdown` calls `closeAllClients` and
leaves the loop. -/
def Hub.step (h : Hub) : HubEvent → Except HubPanic Hub
  | .register id =>
    if h.running then
      .ok { h with
            clients := if h.next ∈ h.clients then h.clients else h.next :: h.clients
            mem := Function.update h.mem h.next (newClient id)
            next := h.next + 1 }
    else .ok h
  | .unregister p =>
    if h.running then
      if p ∈ h.clients then
        match (h.mem p).send.close with
        | .error e => .error e
        | .ok ch =>
          .ok { h.setClient p { h.mem p with send := ch } with clients := h.clients.erase p }
      else .ok h
    else .ok h
  | .broadcast result =>
    if h.running then h.broadcastToClients result else .ok h
  | .shutdown =>
    if h.running then
      match h.closeAllClients with
      | .error e => .error e
      | .ok h2 => .ok { h2 with running := false }
    else .ok h
  | .writerTook p => .ok (h.setClient p { h.mem p with send := (h.mem p).send.take })
  | .subscribe p msg => .ok (h.setClient p ((h.mem p).handleSubscriptionUpdate msg))

/-- A sequence of events on the hub, stopping at the first panic. -/
def Hub.run : Hub → List HubEvent → Except HubPanic Hub
  | h, [] => .ok h
  | h, ev :: rest =>
    match h.step ev with
    | .error e => .error e
    | .ok h2 => Hub.run h2 rest

/-! ## `internal/config/models.go` and `internal/prober/prober.go`: the probe -/

/-- The method `Endpoint.GetURL`: the URL when there is one, the path otherwise. -/
def Endpoint.GetURL (e : Endpoint) : String :=
  if e.URL ≠ "" then e.URL else e.Path

/-- The method `Endpoint.GetMethod`: `GET` by default. -/
def Endpoint.GetMethod (e : Endpoint) : String :=
  if e.Method = "" then "GET" else e.Method

/-- The function `strings.Contains`. -/
def stringsContains (s substr : String) : Bool :=
  decide (substr.data <:+: s.data)

/-- An `http.Request` as `createRequest` builds it: method, URL and headers. -/
structure Request where
  Method : String
  URL : String
  Header : List (String × String)
  deriving DecidableEq, Repr

/-- What one probe takes from its environment: `start` is the value of `time.Now()`,
`sinceMS` the value of `time.Since(start).Milliseconds()`, `expandEnv` the function
`os.ExpandEnv`, `newRequest method url` the error of `http.NewRequestWithContext`, if any, and
`clientDo req` the result of `client.Do(req)`, an error or the status code of the response. -/
structure ProbeEnv where
  start : Int
  sinceMS : Int
  expandEnv : String → String
  newRequest : String → String → Option String
  clientDo : Request → Except String Int

/-- The method `Prober.resolveURL`. -/
def resolveURL (env : ProbeEnv) (endpoint : Endpoint) : String :=
  let url := endpoint.GetURL
  if stringsContains url "$\x7b" = true then env.expandEnv url else url

/-- The method `Prober.createRequest`. -/
def createRequest (env : ProbeEnv) (endpoint : Endpoint) : Except String Request :=
  let url := resolveURL env endpoint
  let method := endpoint.GetMethod
  match env.newRequest method url with
  | some err => .error err
  | none =>
    .ok { Method := method, URL := url,
          Header := [("User-Agent", "Payer-Status-Monitor/1.0"),
                     ("Accept", "text/html,application/json,*/*"),
                     ("Cache-Control", "no-cache")] }

/-- The method `Prober.ProbeTask`. -/
def ProbeTask (env : ProbeEnv) (task : Task) : ProbeResult :=
  let result : ProbeResult :=
    { Timestamp := env.start, Payer := task.Payer, Type_ := task.Endpoint.Type_,
      URL := resolveURL env task.Endpoint, LatencyMS := 0, StatusCode := 0, Err := "" }
  match createRequest env task.Endpoint with
  | .error err =>
    { result with Err := "failed to create request: " ++ err, LatencyMS := env.sinceMS }
  | .ok req =>
    match env.clientDo req with
    | .error err => { result with Err := "request failed: " ++ err, LatencyMS := env.sinceMS }
    | .ok statusCode => { result with StatusCode := statusCode, LatencyMS := env.sinceMS }

/-- The function `CheckRedirect` of the clients that `getClient` makes; `via` are the requests
made already, oldest first, and the result is the error, if any. -/
def CheckRedirect (via : List Request) : Option String :=
  if via.length ≥ 5 then some "too many redirects" else none

/-- The client after a broadcast of `r` has reached it: unchanged when its predicate rejects
`r`; with `r` at the tail of its queue when the predicate accepts `r` and the queue has room;
with its queue closed when the predicate accepts `r` and the queue is full. -/
def Client.afterBroadcast (c : Client) (r : ProbeResult) : Client :=
  if c.predicate r = true then
    if c.send.len < c.send.cap then
      { c with send := { c.send with enqueued := c.send.enqueued ++ [r] } }
    else { c with send := { c.send with closed := true } }
  else c

/-- The client with its send queue closed. -/
def Client.closedQueue (c : Client) : Client :=
  { c with send := { c.send with closed := true } }

/-- The client is a slow consumer for `r`: its predicate accepts `r` and its queue is full. -/
def Client.evictedBy (c : Client) (r : ProbeResult) : Bool :=
  c.predicate r && !decide (c.send.len < c.send.cap)

/-- The invariant of the hub: the keys of the map are distinct pointers to clients made
before, with open send queues of 256 slots; the map is empty once the loop has returned; and
no result was ever sent to a client not made yet. -/
def Hub.Valid (h : Hub) : Prop :=
  h.clients.Nodup ∧
    (∀ p ∈ h.clients, p < h.next ∧ (h.mem p).send.closed = false ∧ (h.mem p).send.cap = 256) ∧
    (h.running = false → h.clients = []) ∧
    (∀ p, h.next ≤ p → (h.mem p).send.enqueued = [])

/-- The results of the broadcast events of a sequence of events, in order. -/
def broadcastsOf : List HubEvent → List ProbeResult
  | [] => []
  | HubEvent.broadcast r :: rest => r :: broadcastsOf rest
  | _ :: rest => broadcastsOf rest

/-- The sequence of events has a message with the action `subscribe` handled by the read loop
of the client `p`. -/
def subscribesTo (p : Nat) : List HubEvent → Prop
  | [] => False
  | HubEvent.subscribe q msg :: rest =>
    (q = p ∧ msgGet msg "action" = some (JsonValue.string "subscribe")) ∨ subscribesTo p rest
  | _ :: rest => subscribesTo p rest

/-- What one event does to a valid hub `h`, giving `h2`: the hub stays valid and pointers are
not reused; a send queue that the event closes belongs to a client that the event takes out
of the map; a client that was made and is not in the map does not come back; the results
sent to a client grow by a part `d` of the results broadcast by the event, and for a client
that is in the map before and after and whose read loop handled no `subscribe` message, `d`
is what the predicate of the client accepts and the predicate stays. -/
def StepFacts (h : Hub) (ev : HubEvent) (h2 : Hub) : Prop :=
  h2.Valid ∧ h.next ≤ h2.next ∧
    (∀ p, (h.mem p).send.closed = false → (h2.mem p).send.closed = true →
      p ∈ h.clients ∧ p ∉ h2.clients) ∧
    (∀ p, p < h.next → p ∉ h.clients → p ∉ h2.clients) ∧
    (∀ p, ∃ d, (h2.mem p).send.enqueued = (h.mem p).send.enqueued ++ d ∧
      d.Sublist (broadcastsOf [ev]) ∧
      (p ∈ h.clients → p ∈ h2.clients → ¬ subscribesTo p [ev] →
        d = (broadcastsOf [ev]).filter (h.mem p).predicate ∧
          (h2.mem p).predicate = (h.mem p).predicate))

/-- The string of a JSON value that is a string, the result of the assertion `v.(string)`. -/
def JsonValue.asString : JsonValue → Option String
  | JsonValue.string s => some s
  | _ => none

/-! ## Example values -/

/-- An endpoint `login` with the URL `https://example.test` and no schedule. -/
def exampleEndpoint : Endpoint :=
  { Type_ := "login", URL := "https://example.test", Path := "", URLContains := "",
    Method := "", Schedule := 0, Description := "" }

/-- The endpoint `login` probed every minute. -/
def minuteEndpoint : Endpoint :=
  { exampleEndpoint with Schedule := Minute }

/-- A task on `minuteEndpoint` due at the instant `nextRun`. -/
def exampleTask (nextRun : Int) : Task :=
  { Payer := "acme", Endpoint := minuteEndpoint, NextRun := nextRun, Interval := Minute }

/-- A heap built by three pushes and one pop. -/
def exampleHeap : TaskHeap :=
  (TaskHeap.PopTask (TaskHeap.PushTask (TaskHeap.PushTask (TaskHeap.PushTask NewTaskHeap
    (exampleTask 30)) (exampleTask 10)) (exampleTask 20))).2

/-- A probe result of payer `acme`. -/
def exampleResult : ProbeResult :=
  { Timestamp := 0, Payer := "acme", Type_ := "login", URL := "https://example.test",
    LatencyMS := 42, StatusCode := 200, Err := "" }

/-- The configuration of payer `acme` with the endpoints `login`, probed every 15 minutes by
default, and `api`, probed every two minutes. -/
def exampleConfig : Config :=
  ⟨[⟨"acme", [exampleEndpoint,
    { exampleEndpoint with Type_ := "api", URL := "https://example.test/api",
                           Schedule := 2 * Minute }]⟩]⟩

/-- A configuration that validation accepts, with two endpoints of the same payer and type. -/
def duplicateTypeConfig : Config :=
  ⟨[⟨"acme", [exampleEndpoint,
    { exampleEndpoint with URL := "https://example.test/v2" }]⟩]⟩

/-- A tick one hour after the instant zero: every sample is one half, every limiter allows,
and the workers take nothing from the channel. -/
def exampleEnv : TickEnv :=
  { now := 60 * Minute, sample := fun _ => 1 / 2, allow := fun _ => true,
    received := fun _ => 0 }

/-- A scheduler whose only task, probed every minute, is due at the instant zero. -/
def lateTickState : Scheduler :=
  { heap := [exampleTask 0], limiters := [("acme:login", ⟨Minute, 1⟩)], taskChan := [],
    taskChanCap := 1000, jitterPct := roundFloat64 (1 / 10) }

/-- A tick 50 ms after the instant zero, with the sample 1023/1024. -/
def lateTickEnv : TickEnv :=
  { now := 50000000, sample := fun _ => 1023 / 1024, allow := fun _ => true,
    received := fun _ => 0 }

/-- The event of the tick `lateTickEnv` on `lateTickState`: the task is sent and gets the
`NextRun` 66.03828125 s. -/
def lateTickEvent : TickEvent :=
  { task := exampleTask 0, limiter := some ⟨Minute, 1⟩, allowed := true, chanLen := 0,
    outcome := Outcome.sent, nextRun := 66038281250 }

/-- The scheduler after the tick `lateTickEnv` on `lateTickState`. -/
def lateTickStateAfter : Scheduler :=
  { heap := [exampleTask 66038281250], limiters := [("acme:login", ⟨Minute, 1⟩)],
    taskChan := [("acme", minuteEndpoint, Minute)], taskChanCap := 1000,
    jitterPct := roundFloat64 (1 / 10) }

/-- The endpoint `login` with the longest schedule that a `time.Duration` holds, 2^63 - 1 ns or
about 292 years. -/
def hugeEndpoint : Endpoint :=
  { exampleEndpoint with Schedule := 9223372036854775807 }

/-- A task on `hugeEndpoint` due at the instant `nextRun`. -/
def hugeTask (nextRun : Int) : Task :=
  { Payer := "acme", Endpoint := hugeEndpoint, NextRun := nextRun,
    Interval := 9223372036854775807 }

/-- A scheduler with the jitter fraction of `New` whose only task is on `hugeEndpoint` and due
at `nextRun`, with `chan` in the task channel. -/
def hugeState (nextRun : Int) (chan : List (String × Endpoint × Int)) : Scheduler :=
  { heap := [hugeTask nextRun], limiters := [("acme:login", ⟨9223372036854775807, 1⟩)],
    taskChan := chan, taskChanCap := 1000, jitterPct := roundFloat64 (1 / 10) }

/-- A tick 100 ms after the instant zero: the samples are 3/4 in the first round and 1/4
from then on, and the limiter, which holds one token, allows in the first round only. -/
def overflowEnv : TickEnv :=
  { now := 100000000, sample := fun k => if k = 0 then 3 / 4 else 1 / 4,
    allow := fun k => decide (k = 0), received := fun _ => 0 }

/-- The first event of the tick `overflowEnv` on `hugeState (-8762203435012036993) []`: the
task is sent and gets a `NextRun` about 277 years before the tick. -/
def overflowEvent0 : TickEvent :=
  { task := hugeTask (-8762203435012036993), limiter := some ⟨9223372036854775807, 1⟩,
    allowed := true, chanLen := 0, outcome := Outcome.sent, nextRun := -8762203434912036993 }

/-- The second event of the same tick: the task is taken again, held back by its limiter, and
gets a `NextRun` about 277 years after the tick. -/
def overflowEvent1 : TickEvent :=
  { task := hugeTask (-8762203434912036993), limiter := some ⟨9223372036854775807, 1⟩,
    allowed := false, chanLen := 1, outcome := Outcome.rateLimited,
    nextRun := 8762203435112036991 }

/-- A tick 100 ms after the instant zero in which every sample is 3/4. -/
def stuckEnv : TickEnv :=
  { now := 100000000, sample := fun _ => 3 / 4, allow := fun k => decide (k = 0),
    received := fun _ => 0 }

/-- A hub with one client, made with the identifier `c0` under the pointer 0. -/
def exampleHub : Hub :=
  { clients := [0], mem := Function.update Hub.New.mem 0 (newClient "c0"), next := 1,
    running := true }

/-- A configuration that validation accepts, with two payers of the same name. -/
def duplicatePayerConfig : Config :=
  ⟨[⟨"acme", [exampleEndpoint]⟩, ⟨"acme", [minuteEndpoint]⟩]⟩

/-- The message `{"action":"subscribe","payer":["beta"]}`. -/
def payerKeyMessage : Message :=
  [("action", JsonValue.string "subscribe"),
   ("payer", JsonValue.array [JsonValue.string "beta"])]

/-- The message `{"action":"subscribe","payers":["beta"]}`. -/
def payersKeyMessage : Message :=
  [("action", JsonValue.string "subscribe"),
   ("payers", JsonValue.array [JsonValue.string "beta"])]

/-- An endpoint with `url_contains` as its only target. -/
def urlContainsEndpoint : Endpoint :=
  { Type_ := "login", URL := "", Path := "", URLContains := "login.example.test",
    Method := "", Schedule := 0, Description := "" }

/-- A task on `urlContainsEndpoint`. -/
def urlContainsTask : Task :=
  { Payer := "acme", Endpoint := urlContainsEndpoint, NextRun := 0, Interval := 15 * Minute }

/-- An environment of a probe: requests are built without error, a request without a URL
fails in the transport, and every other request gets the status 200 after 42 ms. -/
def exampleProbeEnv : ProbeEnv :=
  { start := 0, sinceMS := 42, expandEnv := fun s => s, newRequest := fun _ _ => none,
    clientDo := fun req =>
      if req.URL = "" then .error "unsupported protocol scheme" else .ok 200 }

/-- A request to `https://example.test`. -/
def exampleRequest : Request :=
  { Method := "GET", URL := "https://example.test", Header := [] }

/-- The message `{"action":"subscribe","payers":[42]}`. -/
def numberPayersMessage : Message :=
  [("action", JsonValue.string "subscribe"),
   ("payers", JsonValue.array [JsonValue.number 42])]

/-! ## Lemmas on validation -/

theorem validateEndpoints_error_iff (name : String) (es : List Endpoint) (j : Nat) :
    (∃ err, validateEndpoints name j es = .error err) ↔ ∃ e ∈ es, e.Invalid := by
  induction es generalizing j with
  | nil => simp [validateEndpoints]
  | cons e rest ih =>
    unfold validateEndpoints
    by_cases h1 : e.Type_ = ""
    · simp [h1, Endpoint.Invalid]
    · by_cases h2 : e.URL = "" ∧ e.Path = "" ∧ e.URLContains = ""
      · simp [h1, h2, Endpoint.Invalid]
      · by_cases h3 : e.Schedule ≠ 0 ∧ e.Schedule < Minute
        · rw [if_neg h1, if_neg h2, if_pos h3]
          constructor
          · intro _
            exact ⟨e, List.mem_cons_self _ _, Or.inr (Or.inr h3)⟩
          · intro _
            exact ⟨_, rfl⟩
        · rw [if_neg h1, if_neg h2, if_neg h3, ih (j + 1)]
          constructor
          · rintro ⟨x, hx, hinv⟩
            exact ⟨x, List.mem_cons_of_mem _ hx, hinv⟩
          · rintro ⟨x, hx, hinv⟩
            rcases List.mem_cons.mp hx with rfl | hx
            · rcases hinv with h | h | h
              · exact absurd h h1
              · exact absurd h h2
              · exact absurd h h3
            · exact ⟨x, hx, hinv⟩

theorem validatePayers_error_iff (ps : List Payer) (i : Nat) :
    (∃ err, validatePayers i ps = .error err) ↔
      ∃ p ∈ ps, p.Name = "" ∨ p.Endpoints = [] ∨ ∃ e ∈ p.Endpoints, e.Invalid := by
  induction ps generalizing i with
  | nil => simp [validatePayers]
  | cons p rest ih =>
    unfold validatePayers
    by_cases h1 : p.Name = ""
    · simp [h1]
    · by_cases h2 : p.Endpoints.length = 0
      · have h2' : p.Endpoints = [] := List.length_eq_zero.mp h2
        simp [h1, h2']
      · have h2' : p.Endpoints ≠ [] := fun h => h2 (by simp [h])
        rw [if_neg h1, if_neg h2]
        cases hv : validateEndpoints p.Name 0 p.Endpoints with
        | error err =>
          have hbad : ∃ e ∈ p.Endpoints, e.Invalid :=
            (validateEndpoints_error_iff p.Name p.Endpoints 0).mp ⟨err, hv⟩
          simp only []
          constructor
          · intro _
            exact ⟨p, List.mem_cons_self _ _, Or.inr (Or.inr hbad)⟩
          · intro _
            exact ⟨_, rfl⟩
        | ok u =>
          have hgood : ¬ ∃ e ∈ p.Endpoints, e.Invalid := by
            intro hbad
            obtain ⟨err, herr⟩ := (validateEndpoints_error_iff p.Name p.Endpoints 0).mpr hbad
            rw [hv] at herr
            cases herr
          simp only []
          rw [ih (i + 1)]
          constructor
          · rintro ⟨x, hx, hinv⟩
            exact ⟨x, List.mem_cons_of_mem _ hx, hinv⟩
          · rintro ⟨x, hx, hinv⟩
            rcases List.mem_cons.mp hx with rfl | hx
            · rcases hinv with h | h | h
              · exact absurd h h1
              · exact absurd h h2'
              · exact absurd h hgood
            · exact ⟨x, hx, hinv⟩

theorem validate_error_iff (c : Config) :
    (∃ err, validate c = .error err) ↔ c.Invalid := by
  unfold validate Config.Invalid
  by_cases h : c.Payers.length = 0
  · have h' : c.Payers = [] := List.length_eq_zero.mp h
    simp [h']
  · have h' : c.Payers ≠ [] := fun h0 => h (by simp [h0])
    simp only [h, if_false]
    rw [validatePayers_error_iff]
    simp [h']

theorem validate_ok_iff (c : Config) : validate c = .ok () ↔ ¬ c.Invalid := by
  rw [← validate_error_iff]
  cases h : validate c with
  | error err => simp
  | ok u => simp

theorem matchAny_eq_true_iff (value : String) (xs : List String) :
    matchAny value xs = true ↔ value ∈ xs := by
  induction xs with
  | nil => simp [matchAny]
  | cons x rest ih =>
    unfold matchAny
    by_cases h : value = x
    · simp [h]
    · simp [h, ih]

/-! ## Lemmas on the task heap -/

theorem Swap_perm (h : TaskHeap) (i j : Nat) : (TaskHeap.Swap h i j).Perm h := by
  unfold TaskHeap.Swap
  cases hi : h[i]? with
  | none => simp
  | some a =>
    cases hj : h[j]? with
    | none => simp
    | some b =>
      simp only []
      rw [List.perm_iff_count]
      intro x
      obtain ⟨hi', hia⟩ := List.getElem?_eq_some.mp hi
      obtain ⟨hj', hjb⟩ := List.getElem?_eq_some.mp hj
      have hjs : j < (List.set h i b).length := by simpa using hj'
      have hset : (List.set h i b)[j] = b := by
        rw [List.getElem_set]
        split
        · rfl
        · exact hjb
      rw [List.count_set a x (List.set h i b) j hjs, List.count_set b x h i hi', hset, hia]
      have hpos : (a == x) = true → 0 < List.count x h := by
        intro hax
        have hax2 : a = x := by simpa using hax
        rw [← hax2, ← hia]
        exact List.count_pos_iff.mpr (List.getElem_mem hi')
      cases hax : (a == x) <;> cases hbx : (b == x) <;> simp
      · have := hpos hax
        omega
      · have := hpos hax
        omega

theorem Swap_length (h : TaskHeap) (i j : Nat) : (TaskHeap.Swap h i j).length = h.length :=
  (Swap_perm h i j).length_eq

theorem Less_iff (h : TaskHeap) {i j : Nat} (hi : i < h.length) (hj : j < h.length) :
    TaskHeap.Less h i j = true ↔ keyAt h i < keyAt h j := by
  unfold TaskHeap.Less keyAt
  rw [List.getElem?_eq_getElem hi, List.getElem?_eq_getElem hj]
  simp

theorem Swap_getElem? (h : TaskHeap) {i j : Nat} (hi : i < h.length) (hj : j < h.length)
    (k : Nat) :
    (TaskHeap.Swap h i j)[k]? = if k = j then h[i]? else if k = i then h[j]? else h[k]? := by
  unfold TaskHeap.Swap
  rw [List.getElem?_eq_getElem hi, List.getElem?_eq_getElem hj]
  simp only []
  rw [List.getElem?_set, List.getElem?_set]
  by_cases hkj : k = j
  · subst hkj
    simp [hi, hj]
  · by_cases hki : k = i
    · subst hki
      simp [hkj, hi, Ne.symm hkj]
    · simp [hkj, hki, Ne.symm hkj, Ne.symm hki]

theorem keyAt_Swap (h : TaskHeap) {i j : Nat} (hi : i < h.length) (hj : j < h.length)
    (k : Nat) :
    keyAt (TaskHeap.Swap h i j) k =
      if k = j then keyAt h i else if k = i then keyAt h j else keyAt h k := by
  unfold keyAt
  rw [Swap_getElem? h hi hj k]
  split_ifs <;> rfl

theorem upLoop_perm (fuel : Nat) (h : TaskHeap) (j : Nat) : (upLoop fuel h j).Perm h := by
  induction fuel generalizing h j with
  | zero => exact List.Perm.refl _
  | succ fuel ih =>
    unfold upLoop
    simp only []
    split
    · exact List.Perm.refl _
    · exact (ih _ _).trans (Swap_perm _ _ _)

theorem downLoop_perm (fuel : Nat) (h : TaskHeap) (i n : Nat) :
    (downLoop fuel h i n).Perm h := by
  induction fuel generalizing h i with
  | zero => exact List.Perm.refl _
  | succ fuel ih =>
    unfold downLoop
    simp only []
    split_ifs <;> first | exact List.Perm.refl _ | exact (ih _ _).trans (Swap_perm _ _ _)

theorem upLoop_isHeap (fuel : Nat) (h : TaskHeap) (j : Nat) (hfuel : j ≤ fuel)
    (hj : j < h.length)
    (hA : ∀ k, 0 < k → k < h.length → k ≠ j → keyAt h ((k - 1) / 2) ≤ keyAt h k)
    (hB : ∀ k, 0 < k → k < h.length → (k - 1) / 2 = j → 0 < j →
      keyAt h ((j - 1) / 2) ≤ keyAt h k) :
    IsHeap (upLoop fuel h j) := by
  induction fuel generalizing h j with
  | zero =>
    have hj0 : j = 0 := by omega
    intro k hk hlt
    exact hA k hk hlt (by omega)
  | succ fuel ih =>
    unfold upLoop
    simp only []
    by_cases hij : (j - 1) / 2 = j
    · rw [if_pos (Or.inl hij)]
      intro k hk hlt
      exact hA k hk hlt (by omega)
    · have hi : (j - 1) / 2 < h.length := by omega
      by_cases hless : TaskHeap.Less h j ((j - 1) / 2) = true
      · rw [if_neg (by simp [hij, hless])]
        have hlt : keyAt h j < keyAt h ((j - 1) / 2) := (Less_iff h hj hi).mp hless
        have hlen := Swap_length h ((j - 1) / 2) j
        apply ih
        · omega
        · rw [hlen]; exact hi
        · intro k hk hklt hki
          rw [hlen] at hklt
          rw [keyAt_Swap h hi hj, keyAt_Swap h hi hj]
          by_cases hkj : k = j
          · subst hkj
            simp only [if_true]
            omega
          · rw [if_neg hkj, if_neg hki]
            by_cases hpj : (k - 1) / 2 = j
            · rw [if_pos hpj]
              exact hB k hk hklt hpj (by omega)
            · rw [if_neg hpj]
              by_cases hpi : (k - 1) / 2 = (j - 1) / 2
              · rw [if_pos hpi]
                have := hA k hk hklt hkj
                rw [hpi] at this
                omega
              · rw [if_neg hpi]
                exact hA k hk hklt hkj
        · intro k hk hklt hpk hi0
          rw [hlen] at hklt
          rw [keyAt_Swap h hi hj, keyAt_Swap h hi hj]
          rw [if_neg (by omega), if_neg (by omega)]
          have h1 := hA ((j - 1) / 2) hi0 hi (by omega)
          by_cases hkj : k = j
          · rw [if_pos hkj]
            exact h1
          · rw [if_neg hkj, if_neg (by omega)]
            have h2 := hA k hk hklt hkj
            rw [hpk] at h2
            omega
      · rw [if_pos (Or.inr (by simpa using hless))]
        intro k hk hklt
        by_cases hkj : k = j
        · subst hkj
          have : ¬ keyAt h k < keyAt h ((k - 1) / 2) := fun hc => hless ((Less_iff h hj hi).mpr hc)
          omega
        · exact hA k hk hklt hkj

theorem downLoop_spec (fuel : Nat) (h : TaskHeap) (i n : Nat) (hfuel : n - i ≤ fuel)
    (hn : n ≤ h.length)
    (hA : ∀ k, 0 < k → k < n → (k - 1) / 2 ≠ i → keyAt h ((k - 1) / 2) ≤ keyAt h k)
    (hB : ∀ k, 0 < k → k < n → (k - 1) / 2 = i → 0 < i →
      keyAt h ((i - 1) / 2) ≤ keyAt h k) :
    (∀ k, 0 < k → k < n →
        keyAt (downLoop fuel h i n) ((k - 1) / 2) ≤ keyAt (downLoop fuel h i n) k) ∧
      (∀ k, n ≤ k → (downLoop fuel h i n)[k]? = h[k]?) := by
  induction fuel generalizing h i with
  | zero =>
    refine ⟨?_, fun _ _ => rfl⟩
    intro k hk hlt
    exact hA k hk hlt (by omega)
  | succ fuel ih =>
    unfold downLoop
    simp only []
    by_cases hleaf : 2 * i + 1 ≥ n
    · rw [if_pos hleaf]
      refine ⟨?_, fun _ _ => rfl⟩
      intro k hk hlt
      exact hA k hk hlt (by omega)
    · rw [if_neg hleaf]
      generalize hjdef :
        (if 2 * i + 1 + 1 < n ∧ TaskHeap.Less h (2 * i + 1 + 1) (2 * i + 1) = true
          then 2 * i + 1 + 1 else 2 * i + 1) = j
      have hjn : j < n := by
        rw [← hjdef]; split_ifs with hc
        · exact hc.1
        · omega
      have hjc : j = 2 * i + 1 ∨ j = 2 * i + 2 := by
        rw [← hjdef]; split_ifs <;> omega
      have hmin : ∀ k, k < n → (k = 2 * i + 1 ∨ k = 2 * i + 2) → keyAt h j ≤ keyAt h k := by
        intro k hkn hk
        rw [← hjdef]
        split_ifs with hc
        · have := (Less_iff h (show 2 * i + 1 + 1 < h.length by omega)
            (show 2 * i + 1 < h.length by omega)).mp hc.2
          rcases hk with rfl | rfl
          · omega
          · exact le_refl _
        · rcases hk with rfl | rfl
          · exact le_refl _
          · have hlt2 : 2 * i + 1 + 1 < n := hkn
            have hnl : ¬ TaskHeap.Less h (2 * i + 1 + 1) (2 * i + 1) = true :=
              fun hl => hc ⟨hlt2, hl⟩
            have h3 : ¬ keyAt h (2 * i + 1 + 1) < keyAt h (2 * i + 1) :=
              fun hl => hnl ((Less_iff h (show 2 * i + 1 + 1 < h.length by omega)
              (show 2 * i + 1 < h.length by omega)).mpr hl)
            show keyAt h (2 * i + 1) ≤ keyAt h (2 * i + 1 + 1)
            omega
      have hi : i < h.length := by omega
      have hj : j < h.length := by omega
      by_cases hless : TaskHeap.Less h j i = true
      · rw [if_neg (by simp [hless])]
        have hlt : keyAt h j < keyAt h i := (Less_iff h hj hi).mp hless
        have hlen := Swap_length h i j
        have hrec := ih (TaskHeap.Swap h i j) j (by omega) (by rw [hlen]; exact hn)
          (by
            intro k hk hkn hpk
            rw [keyAt_Swap h hi hj, keyAt_Swap h hi hj]
            by_cases hkj : k = j
            · rw [if_pos hkj, if_neg (by omega), if_pos (by omega)]
              omega
            · rw [if_neg hkj, if_neg hpk]
              by_cases hki : k = i
              · rw [if_pos hki, if_neg (by omega)]
                subst hki
                exact hB j (by omega) hjn (by omega) hk
              · rw [if_neg hki]
                by_cases hpi : (k - 1) / 2 = i
                · rw [if_pos hpi]
                  exact hmin k hkn (by omega)
                · rw [if_neg hpi]
                  exact hA k hk hkn hpi)
          (by
            intro k hk hkn hpk _
            rw [keyAt_Swap h hi hj, keyAt_Swap h hi hj]
            rw [if_neg (by omega), if_pos (by omega), if_neg (by omega), if_neg (by omega)]
            have := hA k hk hkn (by omega)
            rw [hpk] at this
            exact this)
        refine ⟨hrec.1, ?_⟩
        intro k hnk
        rw [hrec.2 k hnk, Swap_getElem? h hi hj, if_neg (by omega), if_neg (by omega)]
      · rw [if_pos (by simpa using hless)]
        refine ⟨?_, fun _ _ => rfl⟩
        intro k hk hkn
        by_cases hpi : (k - 1) / 2 = i
        · have h1 := hmin k hkn (by omega)
          have h2 : ¬ keyAt h j < keyAt h i := fun hc => hless ((Less_iff h hj hi).mpr hc)
          rw [hpi]
          omega
        · exact hA k hk hkn hpi

theorem keyAt_append_left (h : TaskHeap) (x : Task) {k : Nat} (hk : k < h.length) :
    keyAt (h ++ [x]) k = keyAt h k := by
  unfold keyAt
  rw [List.getElem?_append_left hk]

theorem PushTask_perm (h : TaskHeap) (x : Task) : (TaskHeap.PushTask h x).Perm (x :: h) := by
  unfold TaskHeap.PushTask heapPush up
  exact (upLoop_perm _ _ _).trans (List.perm_append_singleton x h)

theorem PushTask_isHeap (h : TaskHeap) (x : Task) (hh : IsHeap h) :
    IsHeap (TaskHeap.PushTask h x) := by
  unfold TaskHeap.PushTask heapPush up TaskHeap.Push TaskHeap.Len
  have hlen : (h ++ [x]).length = h.length + 1 := by simp
  simp only [hlen, Nat.add_sub_cancel]
  apply upLoop_isHeap _ _ _ (le_refl _) (by omega)
  · intro k hk hklt hkne
    have hk' : k < h.length := by omega
    rw [keyAt_append_left h x hk', keyAt_append_left h x (by omega)]
    exact hh k hk hk'
  · intro k hk hklt hpk hpos
    omega

theorem isHeap_root_le (h : TaskHeap) (hh : IsHeap h) (k : Nat) (hk : k < h.length) :
    keyAt h 0 ≤ keyAt h k := by
  induction k using Nat.strong_induction_on with
  | _ k ih =>
    by_cases h0 : k = 0
    · subst h0; exact le_refl _
    · have h1 := hh k (by omega) hk
      have h2 := ih ((k - 1) / 2) (by omega) (by omega)
      omega

theorem downLoop_frame (fuel : Nat) (h : TaskHeap) (i n : Nat) (hn : n ≤ h.length)
    (k : Nat) (hk : n ≤ k) : (downLoop fuel h i n)[k]? = h[k]? := by
  induction fuel generalizing h i with
  | zero => rfl
  | succ fuel ih =>
    unfold downLoop
    simp only []
    by_cases hleaf : 2 * i + 1 ≥ n
    · rw [if_pos hleaf]
    · rw [if_neg hleaf]
      generalize hjdef :
        (if 2 * i + 1 + 1 < n ∧ TaskHeap.Less h (2 * i + 1 + 1) (2 * i + 1) = true
          then 2 * i + 1 + 1 else 2 * i + 1) = j
      have hjn : j < n := by
        rw [← hjdef]; split_ifs with hc
        · exact hc.1
        · omega
      split_ifs
      · rfl
      · rw [ih _ _ (by rw [Swap_length]; exact hn),
          Swap_getElem? h (show i < h.length by omega) (show j < h.length by omega),
          if_neg (by omega), if_neg (by omega)]

theorem heapPop_fst (h : TaskHeap) (hne : h ≠ []) : (heapPop h).1 = h[0]? := by
  have hpos : 0 < h.length := List.length_pos.mpr hne
  unfold heapPop TaskHeap.Pop down TaskHeap.Len
  simp only []
  have hlen1 := Swap_length h 0 (h.length - 1)
  have hlen2 := (downLoop_perm (h.length - 1 - 0) (TaskHeap.Swap h 0 (h.length - 1)) 0
    (h.length - 1)).length_eq
  rw [List.getLast?_eq_getElem?, hlen2, hlen1,
    downLoop_frame _ _ _ _ (by omega) _ (le_refl _),
    Swap_getElem? h hpos (by omega), if_pos rfl]

theorem heapPop_perm (h : TaskHeap) (t : Task) (ht : (heapPop h).1 = some t) :
    (t :: (heapPop h).2).Perm h := by
  unfold heapPop TaskHeap.Pop at ht ⊢
  simp only [] at ht ⊢
  have happ := List.dropLast_append_getLast? t ht
  have hdown : (down (TaskHeap.Swap h 0 (TaskHeap.Len h - 1)) 0 (TaskHeap.Len h - 1)).Perm h :=
    (downLoop_perm _ _ _ _).trans (Swap_perm h 0 (TaskHeap.Len h - 1))
  refine List.Perm.trans ?_ hdown
  rw [← happ]
  simp only [List.dropLast_concat]
  exact (List.perm_append_singleton t _).symm

theorem heapPop_isHeap (h : TaskHeap) (hh : IsHeap h) : IsHeap (heapPop h).2 := by
  by_cases hne : h = []
  · subst hne
    intro k hk hlt
    simp [heapPop, TaskHeap.Pop, down, TaskHeap.Len, TaskHeap.Swap, downLoop] at hlt
  have hpos : 0 < h.length := List.length_pos.mpr hne
  unfold heapPop TaskHeap.Pop down TaskHeap.Len
  simp only []
  have hlen1 := Swap_length h 0 (h.length - 1)
  have hlen2 := (downLoop_perm (h.length - 1 - 0) (TaskHeap.Swap h 0 (h.length - 1)) 0
    (h.length - 1)).length_eq
  have hspec := downLoop_spec (h.length - 1 - 0) (TaskHeap.Swap h 0 (h.length - 1)) 0
    (h.length - 1) (le_refl _) (by omega) (fun k hk hkn hpk => by
      rw [keyAt_Swap h hpos (by omega), keyAt_Swap h hpos (by omega),
        if_neg (by omega), if_neg (by omega), if_neg (by omega), if_neg (by omega)]
      exact hh k hk (by omega)) (fun k hk hkn hpk h0 => absurd h0 (lt_irrefl 0))
  intro k hk hlt
  rw [List.length_dropLast, hlen2, hlen1] at hlt
  have e : ∀ m, m < h.length - 1 →
      keyAt (downLoop (h.length - 1 - 0) (TaskHeap.Swap h 0 (h.length - 1)) 0
        (h.length - 1)).dropLast m =
      keyAt (downLoop (h.length - 1 - 0) (TaskHeap.Swap h 0 (h.length - 1)) 0
        (h.length - 1)) m := by
    intro m hm
    unfold keyAt
    rw [List.getElem?_dropLast, if_pos (by rw [hlen2, hlen1]; exact hm)]
  rw [e _ hlt, e _ (by omega)]
  exact hspec.1 k hk hlt

theorem upLoop_fuel_irrel (f1 f2 : Nat) (h : TaskHeap) (j : Nat) (h1 : j ≤ f1) (h2 : j ≤ f2) :
    upLoop f1 h j = upLoop f2 h j := by
  induction f1 generalizing f2 h j with
  | zero =>
    have hj : j = 0 := by omega
    subst hj
    cases f2 with
    | zero => rfl
    | succ f2 => simp [upLoop]
  | succ f1 ih =>
    cases f2 with
    | zero =>
      have hj : j = 0 := by omega
      subst hj
      simp [upLoop]
    | succ f2 =>
      unfold upLoop
      simp only []
      split_ifs with hc
      · rfl
      · have hne : (j - 1) / 2 ≠ j := fun he => hc (Or.inl he)
        exact ih f2 _ _ (by omega) (by omega)

/-- More rounds than `j` do not change the result of `heap.up(h, j)`. -/
theorem upLoop_fuel (fuel : Nat) (h : TaskHeap) (j : Nat) (hf : j ≤ fuel) :
    upLoop fuel h j = up h j :=
  upLoop_fuel_irrel fuel j h j hf (le_refl _)

theorem downLoop_fuel_irrel (f1 f2 : Nat) (h : TaskHeap) (i n : Nat) (h1 : n - i ≤ f1)
    (h2 : n - i ≤ f2) : downLoop f1 h i n = downLoop f2 h i n := by
  induction f1 generalizing f2 h i with
  | zero =>
    cases f2 with
    | zero => rfl
    | succ f2 =>
      unfold downLoop
      simp only []
      rw [if_pos (by omega)]
  | succ f1 ih =>
    cases f2 with
    | zero =>
      unfold downLoop
      simp only []
      rw [if_pos (by omega)]
    | succ f2 =>
      unfold downLoop
      simp only []
      by_cases hleaf : 2 * i + 1 ≥ n
      · rw [if_pos hleaf, if_pos hleaf]
      · rw [if_neg hleaf, if_neg hleaf]
        generalize hjdef :
          (if 2 * i + 1 + 1 < n ∧ TaskHeap.Less h (2 * i + 1 + 1) (2 * i + 1) = true
            then 2 * i + 1 + 1 else 2 * i + 1) = j
        have hji : i < j := by
          rw [← hjdef]; split_ifs <;> omega
        split_ifs
        · rfl
        · exact ih f2 _ _ (by omega) (by omega)

/-- More rounds than `n - i` do not change the result of `heap.down(h, i, n)`. -/
theorem downLoop_fuel (fuel : Nat) (h : TaskHeap) (i n : Nat) (hf : n - i ≤ fuel) :
    downLoop fuel h i n = down h i n :=
  downLoop_fuel_irrel fuel (n - i) h i n hf (le_refl _)

theorem NewTaskHeap_eq : NewTaskHeap = [] := rfl

theorem PopTask_isHeap (h : TaskHeap) (hh : IsHeap h) : IsHeap (TaskHeap.PopTask h).2 := by
  unfold TaskHeap.PopTask
  split_ifs
  · exact hh
  · exact heapPop_isHeap h hh

theorem Reachable_isHeap (h : TaskHeap) (hr : TaskHeap.Reachable h) : IsHeap h := by
  induction hr with
  | new =>
    intro k _ hlt
    simp [NewTaskHeap_eq] at hlt
  | push h task _ ih => exact PushTask_isHeap h task ih
  | pop h _ ih => exact PopTask_isHeap h ih

theorem PeekTask_eq (h : TaskHeap) : TaskHeap.PeekTask h = h[0]? := by
  unfold TaskHeap.PeekTask TaskHeap.Peek
  split_ifs with h0
  · rw [List.length_eq_zero.mp h0]; rfl
  · rfl

theorem PopTask_fst (h : TaskHeap) : (TaskHeap.PopTask h).1 = TaskHeap.PeekTask h := by
  rw [PeekTask_eq]
  unfold TaskHeap.PopTask TaskHeap.Len
  split_ifs with h0
  · rw [List.length_eq_zero.mp h0]; rfl
  · exact heapPop_fst h (fun he => h0 (by rw [he]; rfl))

theorem PopTask_perm (h : TaskHeap) (t : Task) (ht : (TaskHeap.PopTask h).1 = some t) :
    (t :: (TaskHeap.PopTask h).2).Perm h := by
  unfold TaskHeap.PopTask at ht ⊢
  by_cases h0 : TaskHeap.Len h = 0
  · rw [if_pos h0] at ht
    cases ht
  · rw [if_neg h0] at ht ⊢
    exact heapPop_perm h t ht

theorem isHeap_peek_le (h : TaskHeap) (hh : IsHeap h) (t : Task)
    (ht : TaskHeap.PeekTask h = some t) : ∀ u ∈ h, t.NextRun ≤ u.NextRun := by
  intro u hu
  obtain ⟨k, hk, hku⟩ := List.getElem_of_mem hu
  rw [PeekTask_eq] at ht
  have h1 := isHeap_root_le h hh k hk
  unfold keyAt at h1
  rw [ht, List.getElem?_eq_getElem hk, hku] at h1
  exact h1

/-! ## Lemmas on the float64 rounding -/

theorem roundHalfEven_sub_abs_le (x : ℚ) : |((roundHalfEven x : Int) : ℚ) - x| ≤ 1 / 2 := by
  have h1 := Int.floor_le x
  have h2 := Int.lt_floor_add_one x
  unfold roundHalfEven
  rw [abs_le]
  split_ifs with ha hb hc
  · constructor <;> linarith
  · push_cast; constructor <;> linarith
  · constructor <;> linarith
  · push_cast; constructor <;> linarith

theorem roundHalfEven_le_of_le (x : ℚ) (n : Int) (h : x ≤ n) : roundHalfEven x ≤ n := by
  have h1 := Int.floor_le x
  have hf : ⌊x⌋ ≤ n := by
    have : ((⌊x⌋ : Int) : ℚ) ≤ n := le_trans h1 h
    exact_mod_cast this
  rcases lt_or_eq_of_le hf with hlt | heq
  · unfold roundHalfEven
    split_ifs <;> omega
  · have hx : x = n := le_antisymm h (by rw [← heq]; exact h1)
    unfold roundHalfEven
    have h0 : x - ⌊x⌋ < 1 / 2 := by
      rw [heq, hx]; norm_num
    rw [if_pos h0]
    exact hf

theorem le_roundHalfEven_of_le (x : ℚ) (n : Int) (h : (n : ℚ) ≤ x) : n ≤ roundHalfEven x := by
  have hf : n ≤ ⌊x⌋ := Int.le_floor.mpr h
  unfold roundHalfEven
  split_ifs <;> omega

theorem roundHalfEven_eq_of_abs_lt (x : ℚ) (m : Int) (h : |x - m| < 1 / 2) :
    roundHalfEven x = m := by
  have h3 := roundHalfEven_sub_abs_le x
  have h4 : |((roundHalfEven x : Int) : ℚ) - m| < 1 := by
    have e : ((roundHalfEven x : Int) : ℚ) - m
        = (((roundHalfEven x : Int) : ℚ) - x) + (x - m) := by
      ring
    rw [e]
    calc |(((roundHalfEven x : Int) : ℚ) - x) + (x - m)|
        ≤ |((roundHalfEven x : Int) : ℚ) - x| + |x - m| := abs_add _ _
      _ < 1 / 2 + 1 / 2 := by linarith
      _ = 1 := by norm_num
  have h5 : |roundHalfEven x - m| < 1 := by
    have : ((|roundHalfEven x - m| : Int) : ℚ) < 1 := by
      push_cast
      exact h4
    exact_mod_cast this
  have := abs_lt.mp h5
  omega

theorem two_zpow_pos (k : ℤ) : (0 : ℚ) < 2 ^ k := zpow_pos (by norm_num) k

theorem roundFloat64_zero : roundFloat64 0 = 0 := by
  unfold roundFloat64
  rw [if_pos rfl]

theorem binade_le (x : ℚ) (hx : x ≠ 0) : (2 : ℚ) ^ Int.log 2 |x| ≤ |x| := by
  have := Int.zpow_log_le_self (b := 2) (r := |x|) (by norm_num) (abs_pos.mpr hx)
  simpa using this

theorem binade_eq (x : ℚ) (e : ℤ) (h1 : (2 : ℚ) ^ e ≤ |x|) (h2 : |x| < (2 : ℚ) ^ (e + 1)) :
    Int.log 2 |x| = e := by
  have hpos : 0 < |x| := lt_of_lt_of_le (two_zpow_pos e) h1
  have a : e ≤ Int.log 2 |x| := by
    rw [← Int.zpow_le_iff_le_log (by norm_num) hpos]
    simpa using h1
  have b : Int.log 2 |x| < e + 1 := by
    rw [← Int.lt_zpow_iff_log_lt (by norm_num) hpos]
    simpa using h2
  omega

/-- The relative error of the float64 rounding is at most 2^-53. -/
theorem roundFloat64_sub_abs_le (x : ℚ) : |roundFloat64 x - x| ≤ |x| / 2 ^ 53 := by
  by_cases hx : x = 0
  · subst hx
    simp [roundFloat64_zero]
  · unfold roundFloat64
    rw [if_neg hx]
    set q : ℚ := 2 ^ (Int.log 2 |x| - 52) with hq
    have hqpos : 0 < q := two_zpow_pos _
    have h1 := roundHalfEven_sub_abs_le (x / q)
    have e1 : ((roundHalfEven (x / q) : Int) : ℚ) * q - x
        = (((roundHalfEven (x / q) : Int) : ℚ) - x / q) * q := by
      field_simp
    rw [e1, abs_mul, abs_of_pos hqpos]
    have h2 : |((roundHalfEven (x / q) : Int) : ℚ) - x / q| * q ≤ 1 / 2 * q :=
      mul_le_mul_of_nonneg_right h1 (le_of_lt hqpos)
    have h3 : 1 / 2 * q = (2 : ℚ) ^ Int.log 2 |x| / 2 ^ 53 := by
      rw [hq, zpow_sub₀ (by norm_num : (2 : ℚ) ≠ 0)]
      norm_num
      ring
    have h4 : (2 : ℚ) ^ Int.log 2 |x| / 2 ^ 53 ≤ |x| / 2 ^ 53 :=
      div_le_div_of_nonneg_right (binade_le x hx) (by positivity)
    linarith

theorem roundFloat64_abs_le (x : ℚ) : |roundFloat64 x| ≤ |x| * (1 + 1 / 2 ^ 53) := by
  have h := roundFloat64_sub_abs_le x
  have e : roundFloat64 x = (roundFloat64 x - x) + x := by ring
  calc |roundFloat64 x| = |(roundFloat64 x - x) + x| := by rw [← e]
    _ ≤ |roundFloat64 x - x| + |x| := abs_add _ _
    _ ≤ |x| / 2 ^ 53 + |x| := by linarith
    _ = |x| * (1 + 1 / 2 ^ 53) := by ring

theorem roundFloat64_nonneg (x : ℚ) (h : 0 ≤ x) : 0 ≤ roundFloat64 x := by
  by_cases hx : x = 0
  · subst hx
    simp [roundFloat64_zero]
  · unfold roundFloat64
    rw [if_neg hx]
    have hqpos : (0 : ℚ) < 2 ^ (Int.log 2 |x| - 52) := two_zpow_pos _
    have h0 : ((0 : Int) : ℚ) ≤ x / 2 ^ (Int.log 2 |x| - 52) := by
      simpa using div_nonneg h (le_of_lt hqpos)
    have := le_roundHalfEven_of_le _ 0 h0
    have hq : (0 : ℚ) ≤ ((roundHalfEven (x / 2 ^ (Int.log 2 |x| - 52)) : Int) : ℚ) := by
      exact_mod_cast this
    exact mul_nonneg hq (le_of_lt hqpos)

/-- The float64 rounding does not cross a power of two. -/
theorem roundFloat64_abs_le_pow (x : ℚ) (k : ℤ) (h : |x| ≤ 2 ^ k) :
    |roundFloat64 x| ≤ 2 ^ k := by
  by_cases hx : x = 0
  · subst hx
    rw [roundFloat64_zero, abs_zero]
    exact le_of_lt (two_zpow_pos k)
  · unfold roundFloat64
    rw [if_neg hx]
    set e := Int.log 2 |x| with he
    have hqpos : (0 : ℚ) < 2 ^ (e - 52) := two_zpow_pos _
    have hek : e ≤ k := by
      have hlt : (2 : ℚ) ^ e < 2 ^ (k + 1) :=
        lt_of_le_of_lt (le_trans (binade_le x hx) h)
          (zpow_lt_zpow_right₀ (by norm_num) (by omega))
      have := (zpow_lt_zpow_iff_right₀ (by norm_num : (1 : ℚ) < 2)).mp hlt
      omega
    obtain ⟨n, hn⟩ : ∃ n : ℕ, k - e + 52 = n := ⟨(k - e + 52).toNat, by omega⟩
    have hM : (2 : ℚ) ^ k = (((2 : Int) ^ n : Int) : ℚ) * 2 ^ (e - 52) := by
      push_cast
      rw [← zpow_natCast, ← hn, ← zpow_add₀ (by norm_num : (2 : ℚ) ≠ 0)]
      congr 1
      omega
    have hdiv : |x / 2 ^ (e - 52)| ≤ (((2 : Int) ^ n : Int) : ℚ) := by
      rw [abs_div, abs_of_pos hqpos, div_le_iff₀ hqpos, ← hM]
      exact h
    obtain ⟨hlo, hhi⟩ := abs_le.mp hdiv
    have h1 := roundHalfEven_le_of_le _ _ hhi
    have h2 := le_roundHalfEven_of_le (x / 2 ^ (e - 52)) (-(2 : Int) ^ n)
      (by push_cast; push_cast at hlo; exact hlo)
    have h3 : |((roundHalfEven (x / 2 ^ (e - 52)) : Int) : ℚ)|
        ≤ (((2 : Int) ^ n : Int) : ℚ) := by
      rw [abs_le]
      constructor
      · have : ((-(2 : Int) ^ n : Int) : ℚ)
            ≤ ((roundHalfEven (x / 2 ^ (e - 52)) : Int) : ℚ) := by
          exact_mod_cast h2
        simpa using this
      · exact_mod_cast h1
    rw [abs_mul, abs_of_pos hqpos, hM]
    exact mul_le_mul_of_nonneg_right h3 (le_of_lt hqpos)

/-- The value of the float64 rounding of `x`, from the power of two below `|x|` and the
integer nearest to the scaled `x`. -/
theorem roundFloat64_eq (x : ℚ) (e m : ℤ) (h1 : (2 : ℚ) ^ e ≤ |x|)
    (h2 : |x| < (2 : ℚ) ^ (e + 1)) (h3 : |x / 2 ^ (e - 52) - m| < 1 / 2) :
    roundFloat64 x = m * 2 ^ (e - 52) := by
  have hx : x ≠ 0 := by
    intro h
    rw [h, abs_zero] at h1
    exact absurd h1 (not_le.mpr (two_zpow_pos e))
  unfold roundFloat64
  rw [if_neg hx, binade_eq x e h1 h2, roundHalfEven_eq_of_abs_lt _ m h3]

/-- The float64 nearest to one tenth. -/
theorem roundFloat64_tenth :
    roundFloat64 (1 / 10) = 3602879701896397 / 36028797018963968 := by
  rw [roundFloat64_eq (1 / 10) (-4) 7205759403792794 (by norm_num [abs_of_pos])
    (by norm_num [abs_of_pos]) (by norm_num [abs_lt])]
  norm_num

theorem roundFloat64_tenth_pos : ¬ roundFloat64 (1 / 10) ≤ 0 := by
  rw [roundFloat64_tenth]
  norm_num

/-! ## Lemmas on the jitter -/

theorem truncToInt_nonneg {x : ℚ} (hx : 0 ≤ x) :
    0 ≤ truncToInt x ∧ ((truncToInt x : Int) : ℚ) ≤ x := by
  unfold truncToInt
  rw [if_pos hx]
  exact ⟨Int.floor_nonneg.mpr hx, Int.floor_le x⟩

theorem truncToInt_nonpos {x : ℚ} (hx : x ≤ 0) :
    truncToInt x ≤ 0 ∧ x ≤ ((truncToInt x : Int) : ℚ) := by
  unfold truncToInt
  by_cases h0 : 0 ≤ x
  · have hx0 : x = 0 := le_antisymm hx h0
    subst hx0
    simp
  · rw [if_neg h0]
    refine ⟨?_, Int.le_ceil x⟩
    rw [Int.ceil_le]
    exact_mod_cast hx

theorem truncToInt_abs_le (x : ℚ) : |((truncToInt x : Int) : ℚ)| ≤ |x| := by
  rcases le_total 0 x with hx | hx
  · obtain ⟨h1, h2⟩ := truncToInt_nonneg hx
    have h1q : (0 : ℚ) ≤ ((truncToInt x : Int) : ℚ) := by exact_mod_cast h1
    rw [abs_of_nonneg h1q, abs_of_nonneg hx]
    exact h2
  · obtain ⟨h1, h2⟩ := truncToInt_nonpos hx
    have h1q : ((truncToInt x : Int) : ℚ) ≤ 0 := by exact_mod_cast h1
    rw [abs_of_nonpos h1q, abs_of_nonpos hx]
    linarith

theorem truncToInt_intCast (n : Int) : truncToInt (n : ℚ) = n := by
  unfold truncToInt
  split_ifs <;> simp

theorem wrapInt64_eq (x : Int) (h1 : -9223372036854775808 ≤ x) (h2 : x < 9223372036854775808) :
    wrapInt64 x = x := by
  unfold wrapInt64
  norm_num
  omega

/-- The factor `2*u - 1` of the jitter, computed in float64, lies between -1 and 1. -/
theorem jitterFactor_abs_le (u : ℚ) (hu0 : 0 ≤ u) (hu1 : u < 1) :
    |roundFloat64 (roundFloat64 (2 * u) - 1)| ≤ 1 := by
  have ht0 := roundFloat64_nonneg (2 * u) (by linarith)
  have ht2 := roundFloat64_abs_le_pow (2 * u) 1
    (by rw [abs_of_nonneg (by linarith)]; norm_num; linarith)
  rw [abs_of_nonneg ht0] at ht2
  have h := roundFloat64_abs_le_pow (roundFloat64 (2 * u) - 1) 0
    (by
      rw [abs_le]
      norm_num at ht2 ⊢
      constructor <;> linarith)
  simpa using h

/-- The jitter computed in float64 with the jitter fraction 0.1 is in magnitude at most a tenth
of the duration times `(1 + 2^-53)^4`. -/
theorem jitter_abs_le (u : ℚ) (d : Int) (hd : 0 ≤ d) (hu0 : 0 ≤ u) (hu1 : u < 1) :
    |roundFloat64 (roundFloat64 (roundFloat64 (d : ℚ) * roundFloat64 (1 / 10))
        * roundFloat64 (roundFloat64 (2 * u) - 1))|
      ≤ (d : ℚ) / 10 * (1 + 1 / 2 ^ 53) ^ 4 := by
  have hdq : (0 : ℚ) ≤ (d : ℚ) := by exact_mod_cast hd
  have hc : (0 : ℚ) ≤ 1 + 1 / 2 ^ 53 := by norm_num
  have h1 := roundFloat64_abs_le (d : ℚ)
  rw [abs_of_nonneg hdq] at h1
  have hp := roundFloat64_abs_le (1 / 10)
  rw [abs_of_nonneg (by norm_num : (0 : ℚ) ≤ 1 / 10)] at hp
  have h2 := roundFloat64_abs_le (roundFloat64 (d : ℚ) * roundFloat64 (1 / 10))
  rw [abs_mul] at h2
  have hw := jitterFactor_abs_le u hu0 hu1
  have h3 := roundFloat64_abs_le (roundFloat64 (roundFloat64 (d : ℚ) * roundFloat64 (1 / 10))
    * roundFloat64 (roundFloat64 (2 * u) - 1))
  rw [abs_mul] at h3
  have hprod : |roundFloat64 (d : ℚ)| * |roundFloat64 (1 / 10)|
      ≤ ((d : ℚ) * (1 + 1 / 2 ^ 53)) * (1 / 10 * (1 + 1 / 2 ^ 53)) :=
    mul_le_mul h1 hp (abs_nonneg _) (mul_nonneg hdq hc)
  have h2b : |roundFloat64 (roundFloat64 (d : ℚ) * roundFloat64 (1 / 10))|
      ≤ ((d : ℚ) * (1 + 1 / 2 ^ 53)) * (1 / 10 * (1 + 1 / 2 ^ 53)) * (1 + 1 / 2 ^ 53) :=
    le_trans h2 (mul_le_mul_of_nonneg_right hprod hc)
  have h3a : |roundFloat64 (roundFloat64 (d : ℚ) * roundFloat64 (1 / 10))|
      * |roundFloat64 (roundFloat64 (2 * u) - 1)|
      ≤ ((d : ℚ) * (1 + 1 / 2 ^ 53)) * (1 / 10 * (1 + 1 / 2 ^ 53)) * (1 + 1 / 2 ^ 53) * 1 :=
    mul_le_mul h2b hw (abs_nonneg _)
      (mul_nonneg (mul_nonneg (mul_nonneg hdq hc) (mul_nonneg (by norm_num) hc)) hc)
  have h3b := le_trans h3 (mul_le_mul_of_nonneg_right h3a hc)
  calc _ ≤ ((d : ℚ) * (1 + 1 / 2 ^ 53)) * (1 / 10 * (1 + 1 / 2 ^ 53)) * (1 + 1 / 2 ^ 53) * 1
        * (1 + 1 / 2 ^ 53) := h3b
    _ = (d : ℚ) / 10 * (1 + 1 / 2 ^ 53) ^ 4 := by ring

/-- With the jitter fraction of `New` and a duration between zero and `safeDuration`, the jitter
that `addJitter` adds is in magnitude at most a tenth of the duration. -/
theorem truncJitter_le (u : ℚ) (d : Int) (hd : 0 ≤ d) (hds : d ≤ safeDuration) (hu0 : 0 ≤ u)
    (hu1 : u < 1) :
    10 * |truncToInt (roundFloat64 (roundFloat64 (roundFloat64 (d : ℚ) * roundFloat64 (1 / 10))
        * roundFloat64 (roundFloat64 (2 * u) - 1)))| ≤ d := by
  have hj := jitter_abs_le u d hd hu0 hu1
  generalize roundFloat64 (roundFloat64 (roundFloat64 (d : ℚ) * roundFloat64 (1 / 10))
        * roundFloat64 (roundFloat64 (2 * u) - 1)) = j at hj ⊢
  have ht := truncToInt_abs_le j
  have hdq : (0 : ℚ) ≤ (d : ℚ) := by exact_mod_cast hd
  have hdsq : (d : ℚ) ≤ 2 ^ 50 := by
    have : (d : ℚ) ≤ ((safeDuration : Int) : ℚ) := by exact_mod_cast hds
    simpa [safeDuration] using this
  have hexc : (d : ℚ) * ((1 + 1 / 2 ^ 53) ^ 4 - 1) < 1 := by
    have hpos : (0 : ℚ) ≤ (1 + 1 / 2 ^ 53) ^ 4 - 1 := by norm_num
    calc (d : ℚ) * ((1 + 1 / 2 ^ 53) ^ 4 - 1) ≤ 2 ^ 50 * ((1 + 1 / 2 ^ 53) ^ 4 - 1) :=
          mul_le_mul_of_nonneg_right hdsq hpos
      _ < 1 := by norm_num
  have hq : (((10 * |truncToInt j| : Int)) : ℚ) < ((d + 1 : Int) : ℚ) := by
    push_cast
    have e : (d : ℚ) / 10 * (1 + 1 / 2 ^ 53) ^ 4
        = ((d : ℚ) + (d : ℚ) * ((1 + 1 / 2 ^ 53) ^ 4 - 1)) / 10 := by ring
    rw [e] at hj
    linarith
  have := Int.cast_lt.mp hq
  omega

/-- With the jitter fraction of `New`, `addJitter` moves a duration between zero and
`safeDuration` by at most a tenth of it. -/
theorem addJitter_bounds (s : Scheduler) (u : ℚ) (d : Int)
    (hj : s.jitterPct = roundFloat64 (1 / 10)) (hd : 0 ≤ d) (hds : d ≤ safeDuration)
    (hu0 : 0 ≤ u) (hu1 : u < 1) :
    9 * d ≤ 10 * s.addJitter u d ∧ 10 * s.addJitter u d ≤ 11 * d := by
  have ht := truncJitter_le u d hd hds hu0 hu1
  unfold Scheduler.addJitter
  rw [hj, if_neg roundFloat64_tenth_pos]
  simp only []
  generalize truncToInt (roundFloat64 (roundFloat64 (roundFloat64 (d : ℚ) * roundFloat64 (1 / 10))
        * roundFloat64 (roundFloat64 (2 * u) - 1))) = t at ht ⊢
  have hs : d ≤ 1125899906842624 := by
    have : safeDuration = 1125899906842624 := by norm_num [safeDuration]
    omega
  have habs := abs_le.mp (show |t| ≤ |t| from le_refl _)
  have ht1 : t ≤ |t| := le_abs_self t
  have ht2 : -|t| ≤ t := neg_abs_le t
  rw [wrapInt64_eq (d + t) (by omega) (by omega)]
  constructor <;> omega

/-- With the jitter fraction of `New`, the jittered value of a positive duration of at most
`safeDuration` is positive. -/
theorem addJitter_pos (s : Scheduler) (u : ℚ) (d : Int)
    (hj : s.jitterPct = roundFloat64 (1 / 10)) (hd : 0 < d) (hds : d ≤ safeDuration)
    (hu0 : 0 ≤ u) (hu1 : u < 1) : 0 < s.addJitter u d := by
  have h := (addJitter_bounds s u d hj (le_of_lt hd) hds hu0 hu1).1
  omega

theorem addJitter_congr (s1 s2 : Scheduler) (hj : s1.jitterPct = s2.jitterPct) (u : ℚ)
    (d : Int) : s1.addJitter u d = s2.addJitter u d := by
  unfold Scheduler.addJitter
  rw [hj]

/-- With a jitter fraction of zero or less, `addJitter` returns the duration. -/
theorem addJitter_of_nonpos (s : Scheduler) (u : ℚ) (d : Int) (hp : s.jitterPct ≤ 0) :
    s.addJitter u d = d := by
  unfold Scheduler.addJitter
  rw [if_pos hp]

/-! ## Values of `addJitter` -/

theorem roundFloat64_maxDuration :
    roundFloat64 ((9223372036854775807 : Int) : ℚ) = 9223372036854775808 := by
  rw [roundFloat64_eq _ 62 9007199254740992 (by norm_num [abs_of_pos])
    (by norm_num [abs_of_pos]) (by norm_num [abs_lt])]
  norm_num

theorem roundFloat64_maxDuration_tenth :
    roundFloat64 (9223372036854775808 * (3602879701896397 / 36028797018963968))
      = 922337203685477632 := by
  rw [roundFloat64_eq _ 59 7205759403792794 (by norm_num [abs_of_pos])
    (by norm_num [abs_of_pos]) (by norm_num [abs_lt])]
  norm_num

theorem roundFloat64_one : roundFloat64 1 = 1 := by
  rw [roundFloat64_eq 1 0 4503599627370496 (by norm_num) (by norm_num) (by norm_num [abs_lt])]
  norm_num

theorem roundFloat64_half : roundFloat64 (1 / 2) = 1 / 2 := by
  rw [roundFloat64_eq (1 / 2) (-1) 4503599627370496 (by norm_num [abs_of_pos])
    (by norm_num [abs_of_pos]) (by norm_num [abs_lt])]
  norm_num

theorem roundFloat64_neg_half : roundFloat64 (-1 / 2) = -1 / 2 := by
  rw [roundFloat64_eq (-1 / 2) (-1) (-4503599627370496) (by norm_num [abs_of_neg])
    (by norm_num [abs_of_neg]) (by norm_num [abs_lt])]
  norm_num

theorem roundFloat64_three_halves : roundFloat64 (3 / 2) = 3 / 2 := by
  rw [roundFloat64_eq (3 / 2) 0 6755399441055744 (by norm_num [abs_of_pos])
    (by norm_num [abs_of_pos]) (by norm_num [abs_lt])]
  norm_num

/-- The factor `2*u - 1` in float64 for the sample 3/4. -/
theorem jitterFactor_three_quarters : roundFloat64 (roundFloat64 (2 * (3 / 4)) - 1) = 1 / 2 := by
  have e1 : (2 : ℚ) * (3 / 4) = 3 / 2 := by norm_num
  have e2 : (3 / 2 : ℚ) - 1 = 1 / 2 := by norm_num
  rw [e1, roundFloat64_three_halves, e2, roundFloat64_half]

/-- The factor `2*u - 1` in float64 for the sample 1/4. -/
theorem jitterFactor_one_quarter : roundFloat64 (roundFloat64 (2 * (1 / 4)) - 1) = -1 / 2 := by
  have e1 : (2 : ℚ) * (1 / 4) = 1 / 2 := by norm_num
  have e2 : (1 / 2 : ℚ) - 1 = -1 / 2 := by norm_num
  rw [e1, roundFloat64_half, e2, roundFloat64_neg_half]

/-- The factor `2*u - 1` in float64 for the sample 1/2. -/
theorem jitterFactor_half : roundFloat64 (roundFloat64 (2 * (1 / 2)) - 1) = 0 := by
  have e1 : (2 : ℚ) * (1 / 2) = 1 := by norm_num
  rw [e1, roundFloat64_one, sub_self, roundFloat64_zero]

/-- The longest duration, 2^63 - 1 ns, with the sample 3/4: the float64 jitter is
461168601842738816 ns, the int64 sum wraps, and the result is negative. -/
theorem addJitter_maxDuration_late (s : Scheduler) (hj : s.jitterPct = roundFloat64 (1 / 10)) :
    s.addJitter (3 / 4) 9223372036854775807 = -8762203435012036993 := by
  have h5 : roundFloat64 (922337203685477632 * (1 / 2)) = 461168601842738816 := by
    rw [roundFloat64_eq _ 58 7205759403792794 (by norm_num [abs_of_pos])
      (by norm_num [abs_of_pos]) (by norm_num [abs_lt])]
    norm_num
  have ht : truncToInt 461168601842738816 = 461168601842738816 :=
    truncToInt_intCast 461168601842738816
  unfold Scheduler.addJitter
  rw [hj, if_neg roundFloat64_tenth_pos]
  simp only []
  rw [roundFloat64_maxDuration, roundFloat64_tenth, roundFloat64_maxDuration_tenth,
    jitterFactor_three_quarters, h5, ht]
  decide

/-- The longest duration with the sample 1/4: the jitter is negative and the sum does not
wrap. -/
theorem addJitter_maxDuration_early (s : Scheduler) (hj : s.jitterPct = roundFloat64 (1 / 10)) :
    s.addJitter (1 / 4) 9223372036854775807 = 8762203435012036991 := by
  have h5 : roundFloat64 (922337203685477632 * (-1 / 2)) = -461168601842738816 := by
    rw [roundFloat64_eq _ 58 (-7205759403792794) (by norm_num [abs_of_neg])
      (by norm_num [abs_of_neg]) (by norm_num [abs_lt])]
    norm_num
  have ht : truncToInt (-461168601842738816) = -461168601842738816 := by
    have := truncToInt_intCast (-461168601842738816)
    simpa using this
  unfold Scheduler.addJitter
  rw [hj, if_neg roundFloat64_tenth_pos]
  simp only []
  rw [roundFloat64_maxDuration, roundFloat64_tenth, roundFloat64_maxDuration_tenth,
    jitterFactor_one_quarter, h5, ht]
  decide

theorem roundFloat64_minute : roundFloat64 ((Minute : Int) : ℚ) = 60000000000 := by
  have hm : ((Minute : Int) : ℚ) = 60000000000 := by norm_num [Minute, Second]
  rw [hm, roundFloat64_eq _ 35 7864320000000000 (by norm_num [abs_of_pos])
    (by norm_num [abs_of_pos]) (by norm_num [abs_lt])]
  norm_num

theorem roundFloat64_minute_tenth :
    roundFloat64 (60000000000 * (3602879701896397 / 36028797018963968)) = 6000000000 := by
  rw [roundFloat64_eq _ 32 6291456000000000 (by norm_num [abs_of_pos])
    (by norm_num [abs_of_pos]) (by norm_num [abs_lt])]
  norm_num

/-- One minute with the sample 1/2: the jitter is zero. -/
theorem addJitter_minute_half (s : Scheduler) (hj : s.jitterPct = roundFloat64 (1 / 10)) :
    s.addJitter (1 / 2) Minute = Minute := by
  unfold Scheduler.addJitter
  rw [hj, if_neg roundFloat64_tenth_pos]
  simp only []
  rw [jitterFactor_half, mul_zero, roundFloat64_zero]
  decide

/-- One minute with the sample 1023/1024: the result is 65.98828125 s. -/
theorem addJitter_minute_late (s : Scheduler) (hj : s.jitterPct = roundFloat64 (1 / 10)) :
    s.addJitter (1023 / 1024) Minute = 65988281250 := by
  have e1 : (2 : ℚ) * (1023 / 1024) = 1023 / 512 := by norm_num
  have h3 : roundFloat64 (1023 / 512) = 1023 / 512 := by
    rw [roundFloat64_eq _ 0 8998403161718784 (by norm_num [abs_of_pos])
      (by norm_num [abs_of_pos]) (by norm_num [abs_lt])]
    norm_num
  have e2 : (1023 / 512 : ℚ) - 1 = 511 / 512 := by norm_num
  have h4 : roundFloat64 (511 / 512) = 511 / 512 := by
    rw [roundFloat64_eq _ (-1) 8989607068696576 (by norm_num [abs_of_pos])
      (by norm_num [abs_of_pos]) (by norm_num [abs_lt])]
    norm_num
  have h5 : roundFloat64 (6000000000 * (511 / 512)) = 5988281250 := by
    rw [roundFloat64_eq _ 32 6279168000000000 (by norm_num [abs_of_pos])
      (by norm_num [abs_of_pos]) (by norm_num [abs_lt])]
    norm_num
  have ht : truncToInt 5988281250 = 5988281250 := truncToInt_intCast 5988281250
  unfold Scheduler.addJitter
  rw [hj, if_neg roundFloat64_tenth_pos]
  simp only []
  rw [roundFloat64_minute, roundFloat64_tenth, roundFloat64_minute_tenth, e1, h3, e2, h4, h5, ht]
  decide

/-- A duration of about 18.8 years with the sample 0: no sum wraps, and the float64 roundings
leave the result 8 ns below nine tenths of the duration. -/
theorem addJitter_rounding_example (s : Scheduler)
    (hj : s.jitterPct = roundFloat64 (1 / 10)) :
    s.addJitter 0 592057716445789124 = 532851944801210204 ∧
      10 * (532851944801210204 : Int) < 9 * 592057716445789124 := by
  have h1 : roundFloat64 ((592057716445789124 : Int) : ℚ) = 592057716445789184 := by
    rw [roundFloat64_eq _ 59 4625450909732728 (by norm_num [abs_of_pos])
      (by norm_num [abs_of_pos]) (by norm_num [abs_lt])]
    norm_num
  have h2 : roundFloat64 (592057716445789184 * (3602879701896397 / 36028797018963968))
      = 59205771644578920 := by
    rw [roundFloat64_eq _ 55 7400721455572365 (by norm_num [abs_of_pos])
      (by norm_num [abs_of_pos]) (by norm_num [abs_lt])]
    norm_num
  have h3 : roundFloat64 (roundFloat64 (2 * 0) - 1) = -1 := by
    rw [mul_zero, roundFloat64_zero, zero_sub,
      roundFloat64_eq (-1) 0 (-4503599627370496) (by norm_num) (by norm_num)
        (by norm_num [abs_lt])]
    norm_num
  have h5 : roundFloat64 (59205771644578920 * -1) = -59205771644578920 := by
    rw [roundFloat64_eq _ 55 (-7400721455572365) (by norm_num [abs_of_pos])
      (by norm_num [abs_of_pos]) (by norm_num [abs_lt])]
    norm_num
  have ht : truncToInt (-59205771644578920) = -59205771644578920 := by
    have := truncToInt_intCast (-59205771644578920)
    simpa using this
  refine ⟨?_, by decide⟩
  unfold Scheduler.addJitter
  rw [hj, if_neg roundFloat64_tenth_pos]
  simp only []
  rw [h1, roundFloat64_tenth, h2, h3, h5, ht]
  decide
/-! ## Lemmas on `LoadConfig` -/

theorem mem_PushTask (h : TaskHeap) (x t : Task) :
    t ∈ TaskHeap.PushTask h x ↔ t = x ∨ t ∈ h := by
  rw [(PushTask_perm h x).mem_iff, List.mem_cons]

theorem loadEndpoint_identities (now : Int) (sample : Nat → ℚ) (name : String) (st : LoadState)
    (e : Endpoint) :
    ((loadEndpoint now sample name st e).sched.heap.map Task.identity).Perm
      (st.sched.heap.map Task.identity ++ [(name, e, e.GetSchedule)]) := by
  unfold loadEndpoint
  simp only []
  refine ((PushTask_perm _ _).map Task.identity).trans ?_
  rw [List.map_cons]
  exact (List.perm_append_singleton _ _).symm

theorem loadPayer_identities (now : Int) (sample : Nat → ℚ) (name : String)
    (es : List Endpoint) (st : LoadState) :
    ((es.foldl (loadEndpoint now sample name) st).sched.heap.map Task.identity).Perm
      (st.sched.heap.map Task.identity ++ es.map fun e => (name, e, e.GetSchedule)) := by
  induction es generalizing st with
  | nil => simp
  | cons e rest ih =>
    rw [List.foldl_cons, List.map_cons]
    refine (ih _).trans ?_
    refine ((loadEndpoint_identities now sample name st e).append_right _).trans ?_
    rw [List.append_assoc, List.singleton_append]

theorem loadPayers_identities (now : Int) (sample : Nat → ℚ) (ps : List Payer)
    (st : LoadState) :
    ((ps.foldl (loadPayer now sample) st).sched.heap.map Task.identity).Perm
      (st.sched.heap.map Task.identity ++ (Config.mk ps).taskIdentities) := by
  induction ps generalizing st with
  | nil => simp [Config.taskIdentities]
  | cons p rest ih =>
    rw [List.foldl_cons]
    refine (ih _).trans ?_
    unfold loadPayer
    refine ((loadPayer_identities now sample p.Name p.Endpoints st).append_right _).trans ?_
    simp [Config.taskIdentities, List.append_assoc]

theorem LoadConfig_identities (s : Scheduler) (cfg : Config) (now : Int) (sample : Nat → ℚ) :
    ((s.LoadConfig cfg now sample).heap.map Task.identity).Perm cfg.taskIdentities := by
  unfold Scheduler.LoadConfig
  simp only []
  have h := loadPayers_identities now sample cfg.Payers
    ⟨{ s with heap := NewTaskHeap, limiters := [] }, 0⟩
  simpa [NewTaskHeap_eq] using h

theorem taskIdentities_length (cfg : Config) :
    cfg.taskIdentities.length = cfg.countEndpoints := by
  unfold Config.taskIdentities Config.countEndpoints
  induction cfg.Payers with
  | nil => rfl
  | cons p rest ih => simp [ih]

/-- Induction over the rounds of the two loops of `LoadConfig`. -/
theorem LoadConfig_induction (s : Scheduler) (cfg : Config) (now : Int) (sample : Nat → ℚ)
    (I : LoadState → Prop)
    (h0 : I ⟨{ s with heap := NewTaskHeap, limiters := [] }, 0⟩)
    (hstep : ∀ st p e, p ∈ cfg.Payers → e ∈ p.Endpoints → I st →
      I (loadEndpoint now sample p.Name st e)) :
    ∃ st, I st ∧ s.LoadConfig cfg now sample = st.sched := by
  unfold Scheduler.LoadConfig
  simp only []
  refine ⟨_, ?_, rfl⟩
  have inner : ∀ (name : String) (es : List Endpoint) (st : LoadState),
      (∀ st e, e ∈ es → I st → I (loadEndpoint now sample name st e)) → I st →
      I (es.foldl (loadEndpoint now sample name) st) := by
    intro name es
    induction es with
    | nil => intro st _ hst; exact hst
    | cons e rest ih =>
      intro st hs hst
      rw [List.foldl_cons]
      exact ih _ (fun st2 e2 he2 => hs st2 e2 (List.mem_cons_of_mem _ he2))
        (hs st e (List.mem_cons_self _ _) hst)
  have outer : ∀ (ps : List Payer) (st : LoadState), (∀ p ∈ ps, p ∈ cfg.Payers) → I st →
      I (ps.foldl (loadPayer now sample) st) := by
    intro ps
    induction ps with
    | nil => intro st _ hst; exact hst
    | cons p rest ih =>
      intro st hsub hst
      rw [List.foldl_cons]
      refine ih _ (fun q hq => hsub q (List.mem_cons_of_mem _ hq)) ?_
      unfold loadPayer
      exact inner p.Name p.Endpoints st
        (fun st2 e he => hstep st2 p e (hsub p (List.mem_cons_self _ _)) he) hst
  exact outer cfg.Payers _ (fun p hp => hp) h0

/-! ## Lemmas on the limiter registry -/

theorem mapSet_mem_keys (m : List (String × Limiter)) (key : String) (value : Limiter)
    (k : String) :
    k ∈ (mapSet m key value).map Prod.fst ↔ k = key ∨ k ∈ m.map Prod.fst := by
  induction m with
  | nil => simp [mapSet]
  | cons kv rest ih =>
    obtain ⟨k0, v0⟩ := kv
    unfold mapSet
    by_cases h : k0 = key
    · rw [if_pos h]
      subst h
      simp
    · rw [if_neg h]
      simp only [List.map_cons, List.mem_cons, ih]
      tauto

theorem mapSet_nodup_keys (m : List (String × Limiter)) (key : String) (value : Limiter)
    (hm : (m.map Prod.fst).Nodup) : ((mapSet m key value).map Prod.fst).Nodup := by
  induction m with
  | nil => simp [mapSet]
  | cons kv rest ih =>
    obtain ⟨k0, v0⟩ := kv
    unfold mapSet
    rw [List.map_cons, List.nodup_cons] at hm
    by_cases h : k0 = key
    · rw [if_pos h, List.map_cons, List.nodup_cons]
      exact hm
    · rw [if_neg h, List.map_cons, List.nodup_cons]
      refine ⟨?_, ih hm.2⟩
      rw [mapSet_mem_keys]
      rintro (hk | hk)
      · exact h hk
      · exact hm.1 hk

theorem mapGet_mapSet_self (m : List (String × Limiter)) (key : String) (value : Limiter) :
    mapGet (mapSet m key value) key = some value := by
  induction m with
  | nil => simp [mapSet, mapGet]
  | cons kv rest ih =>
    obtain ⟨k0, v0⟩ := kv
    unfold mapSet
    by_cases h : k0 = key
    · rw [if_pos h]
      simp [mapGet, h]
    · rw [if_neg h]
      simp [mapGet, h, ih]

theorem loadEndpoints_keys (now : Int) (sample : Nat → ℚ) (name : String)
    (es : List Endpoint) (st : LoadState) (k : String) :
    k ∈ (es.foldl (loadEndpoint now sample name) st).sched.limiters.map Prod.fst ↔
      k ∈ st.sched.limiters.map Prod.fst ∨
        k ∈ es.map fun e => getLimiterKey name e.Type_ := by
  induction es generalizing st with
  | nil => simp
  | cons e rest ih =>
    rw [List.foldl_cons, ih]
    have hstep : k ∈ (loadEndpoint now sample name st e).sched.limiters.map Prod.fst ↔
        k = getLimiterKey name e.Type_ ∨ k ∈ st.sched.limiters.map Prod.fst := by
      unfold loadEndpoint
      simp only []
      exact mapSet_mem_keys _ _ _ _
    rw [hstep, List.map_cons, List.mem_cons]
    tauto

theorem loadPayers_keys (now : Int) (sample : Nat → ℚ) (ps : List Payer) (st : LoadState)
    (k : String) :
    k ∈ (ps.foldl (loadPayer now sample) st).sched.limiters.map Prod.fst ↔
      k ∈ st.sched.limiters.map Prod.fst ∨ k ∈ (Config.mk ps).limiterKeys := by
  induction ps generalizing st with
  | nil => simp [Config.limiterKeys]
  | cons p rest ih =>
    rw [List.foldl_cons, ih]
    unfold loadPayer
    rw [loadEndpoints_keys]
    simp only [Config.limiterKeys, List.flatMap_cons, List.mem_append]
    tauto

theorem LoadConfig_keys (s : Scheduler) (cfg : Config) (now : Int) (sample : Nat → ℚ)
    (k : String) :
    k ∈ (s.LoadConfig cfg now sample).limiters.map Prod.fst ↔ k ∈ cfg.limiterKeys := by
  unfold Scheduler.LoadConfig
  simp only []
  rw [loadPayers_keys]
  simp

theorem LoadConfig_nodup_keys (s : Scheduler) (cfg : Config) (now : Int) (sample : Nat → ℚ) :
    ((s.LoadConfig cfg now sample).limiters.map Prod.fst).Nodup := by
  obtain ⟨st, hst, heq⟩ := LoadConfig_induction s cfg now sample
    (fun st => (st.sched.limiters.map Prod.fst).Nodup) (by simp)
    (fun st p e _ _ hI => by
      unfold loadEndpoint
      simp only []
      exact mapSet_nodup_keys _ _ _ hI)
  rw [heq]
  exact hst

theorem limiterKeys_length (cfg : Config) : cfg.limiterKeys.length = cfg.countEndpoints := by
  unfold Config.limiterKeys Config.countEndpoints
  induction cfg.Payers with
  | nil => rfl
  | cons p rest ih => simp [ih]

theorem LoadConfig_limiters_length (s : Scheduler) (cfg : Config) (now : Int)
    (sample : Nat → ℚ) :
    (s.LoadConfig cfg now sample).limiters.length = cfg.limiterKeys.toFinset.card := by
  have hnd := LoadConfig_nodup_keys s cfg now sample
  have hset : ((s.LoadConfig cfg now sample).limiters.map Prod.fst).toFinset
      = cfg.limiterKeys.toFinset := by
    ext k
    simp only [List.mem_toFinset]
    exact LoadConfig_keys s cfg now sample k
  rw [← hset, List.toFinset_card_of_nodup hnd, List.length_map]

/-! ## Lemmas on `processNextTasks` -/

theorem dispatch_outcome (limiter : Option Limiter) (allowed : Bool)
    (chan : List (String × Endpoint × Int)) (cap : Nat) (task : Task) :
    ((dispatch limiter allowed chan cap task).2 = Outcome.sent ↔
        limiter.isSome = true ∧ allowed = true ∧ chan.length < cap) ∧
      ((dispatch limiter allowed chan cap task).2 = Outcome.channelFull ↔
        limiter.isSome = true ∧ allowed = true ∧ ¬ chan.length < cap) ∧
      ((dispatch limiter allowed chan cap task).2 = Outcome.rateLimited ↔
        limiter.isSome = true ∧ allowed = false) ∧
      ((dispatch limiter allowed chan cap task).2 = Outcome.noLimiter ↔ limiter = none) := by
  unfold dispatch
  cases limiter with
  | none => simp
  | some l =>
    cases allowed with
    | false => simp
    | true =>
      by_cases hc : chan.length < cap
      · simp [hc]
      · simp [hc]

theorem dispatch_chan (limiter : Option Limiter) (allowed : Bool)
    (chan : List (String × Endpoint × Int)) (cap : Nat) (task : Task) :
    (dispatch limiter allowed chan cap task).1 =
      if (dispatch limiter allowed chan cap task).2 = Outcome.sent then chan ++ [task.identity]
      else chan := by
  unfold dispatch
  cases limiter with
  | none => simp
  | some l =>
    cases allowed with
    | false => simp
    | true =>
      by_cases hc : chan.length < cap
      · simp [hc]
      · simp [hc]

theorem EventOK_congr (env : TickEnv) (s1 s2 : Scheduler) (idx : Nat) (e : TickEvent)
    (hl : s2.limiters = s1.limiters) (hj : s2.jitterPct = s1.jitterPct)
    (hc : s2.taskChanCap = s1.taskChanCap) (h : EventOK env s2 idx e) : EventOK env s1 idx e := by
  unfold EventOK at h ⊢
  unfold Scheduler.addJitter at h ⊢
  rw [hl, hj, hc] at h
  exact h

theorem dueTasks_length_of_perm (now : Int) {h1 h2 : TaskHeap} (hp : h1.Perm h2) :
    (dueTasks now h1).length = (dueTasks now h2).length :=
  (hp.filter _).length_eq

theorem PeekTask_none_iff (h : TaskHeap) : TaskHeap.PeekTask h = none ↔ h = [] := by
  rw [PeekTask_eq]
  cases h with
  | nil => simp
  | cons a l => simp

theorem drop_append_drop {α : Type} (r R : Nat) (c y : List α) :
    ∃ R2, (c.drop r ++ y).drop R = (c ++ y).drop R2 := by
  by_cases h : r ≤ c.length
  · refine ⟨r + R, ?_⟩
    rw [← List.drop_append_of_le_length h, List.drop_drop]
  · refine ⟨c.length + R, ?_⟩
    have e1 : c.drop r = [] := List.drop_eq_nil_of_le (by omega)
    rw [e1, List.nil_append, List.drop_append]

theorem sentTasks_cons (e : TickEvent) (evs : List TickEvent) :
    sentTasks (e :: evs) =
      if e.outcome = Outcome.sent then e.task :: sentTasks evs else sentTasks evs := by
  unfold sentTasks
  by_cases h : e.outcome = Outcome.sent
  · rw [if_pos h, List.filter_cons_of_pos (by simpa using h), List.map_cons]
  · rw [if_neg h, List.filter_cons_of_neg (by simpa using h)]


/-- The loop of `processNextTasks` on a heap in heap order whose tasks all get a positive
jittered interval: with more rounds than there are due tasks the loop ends, and every task
taken is taken once. -/
theorem processLoop_spec (env : TickEnv) (fuel k : Nat) (s : Scheduler) (log : List TickEvent)
    (hheap : IsHeap s.heap)
    (hpos : ∀ t ∈ s.heap, ∀ i, 0 < s.addJitter (env.sample i) t.Interval)
    (hfuel : (dueTasks env.now s.heap).length < fuel) :
    ∃ s2 evs, processLoop env fuel k s log = some (s2, log ++ evs) ∧
      s2.limiters = s.limiters ∧ s2.jitterPct = s.jitterPct ∧
      s2.taskChanCap = s.taskChanCap ∧ IsHeap s2.heap ∧
      (∃ rest, s.heap.Perm (evs.map TickEvent.task ++ rest) ∧
        s2.heap.Perm (evs.map TickEvent.rescheduled ++ rest) ∧
        ∀ t ∈ rest, env.now < t.NextRun) ∧
      (∀ i e, evs[i]? = some e → EventOK env s (k + i) e ∧ env.now < e.nextRun) ∧
      (∃ R, s2.taskChan = (s.taskChan ++ (sentTasks evs).map Task.identity).drop R) := by
  induction fuel generalizing k s log with
  | zero => exact absurd hfuel (Nat.not_lt_zero _)
  | succ fuel ih =>
    unfold processLoop
    cases hpeek : TaskHeap.PeekTask s.heap with
    | none =>
      have hnil : s.heap = [] := (PeekTask_none_iff _).mp hpeek
      refine ⟨s, [], by simp, rfl, rfl, rfl, hheap, ⟨[], by simp [hnil], by simp [hnil], ?_⟩, ?_,
        ⟨0, by simp [sentTasks]⟩⟩
      · intro t ht
        cases ht
      · intro i e he
        simp at he
    | some top =>
      simp only []
      by_cases hdue : top.NextRun > env.now
      · rw [if_pos hdue]
        refine ⟨s, [], by simp, rfl, rfl, rfl, hheap,
          ⟨s.heap, by simp, by simp, ?_⟩, ?_, ⟨0, by simp [sentTasks]⟩⟩
        · intro t ht
          have := isHeap_peek_le s.heap hheap top hpeek t ht
          omega
        · intro i e he
          simp at he
      · rw [if_neg hdue]
        have hfst : (TaskHeap.PopTask s.heap).1 = some top := by
          rw [PopTask_fst]; exact hpeek
        have hperm1 := PopTask_perm s.heap top hfst
        have hheap1 := PopTask_isHeap s.heap hheap
        rcases hpop : TaskHeap.PopTask s.heap with ⟨o, heap1⟩
        rw [hpop] at hfst hperm1 hheap1
        simp only [] at hfst hperm1 hheap1
        subst hfst
        simp only []
        have htop_mem : top ∈ s.heap := hperm1.subset (List.mem_cons_self _ _)
        have hposk := hpos top htop_mem k
        generalize hnr : env.now + s.addJitter (env.sample k) top.Interval = nextRun
        have hnr_gt : env.now < nextRun := by omega
        generalize hlim :
          mapGet s.limiters (getLimiterKey top.Payer top.Endpoint.Type_) = lim
        generalize hchan : List.drop (env.received k) s.taskChan = chan
        have hd := dispatch_outcome lim (env.allow k) chan s.taskChanCap top
        have hdc := dispatch_chan lim (env.allow k) chan s.taskChanCap top
        generalize dispatch lim (env.allow k) chan s.taskChanCap top = sending at hd hdc ⊢
        generalize hev :
          (⟨top, lim, env.allow k, chan.length, sending.2, nextRun⟩ : TickEvent) = ev
        have hperm2 := PushTask_perm heap1 (top.withNextRun nextRun)
        have hheap2 := PushTask_isHeap heap1 (top.withNextRun nextRun) hheap1
        have hpos2 : ∀ t ∈ TaskHeap.PushTask heap1 (top.withNextRun nextRun),
            ∀ i, 0 < s.addJitter (env.sample i) t.Interval := by
          intro t ht
          rcases (mem_PushTask _ _ _).mp ht with rfl | ht
          · exact hpos top htop_mem
          · exact hpos t (hperm1.subset (List.mem_cons_of_mem _ ht))
        have hdue2 : (dueTasks env.now (TaskHeap.PushTask heap1 (top.withNextRun nextRun))).length
            < fuel := by
          have e1 := dueTasks_length_of_perm env.now hperm2
          have e2 := dueTasks_length_of_perm env.now hperm1
          have hnot : ¬ (top.withNextRun nextRun).NextRun ≤ env.now := by
            show ¬ nextRun ≤ env.now
            omega
          have htopdue : top.NextRun ≤ env.now := by omega
          unfold dueTasks at e1 e2 hfuel ⊢
          rw [List.filter_cons_of_neg (by simpa using hnot)] at e1
          rw [List.filter_cons_of_pos (by simpa using htopdue), List.length_cons] at e2
          omega
        obtain ⟨s2, evs2, hrun, hl, hj, hc, hheapf, ⟨rest2, hpa, hpb, hrest⟩, hevs, ⟨R2, hR2⟩⟩ :=
          ih (k + 1) { s with heap := TaskHeap.PushTask heap1 (top.withNextRun nextRun),
                              taskChan := sending.1 }
            (log ++ [ev]) hheap2 hpos2 hdue2
        simp only [] at hpa hpb hl hj hc hR2
        have hmem_rest : top.withNextRun nextRun ∈ rest2 := by
          have hin : top.withNextRun nextRun ∈ evs2.map TickEvent.task ++ rest2 :=
            hpa.subset ((mem_PushTask _ _ _).mpr (Or.inl rfl))
          rcases List.mem_append.mp hin with hin | hin
          · obtain ⟨e2, he2, hte⟩ := List.mem_map.mp hin
            obtain ⟨i, hi, hie⟩ := List.getElem_of_mem he2
            have hok := (hevs i e2 (by rw [List.getElem?_eq_getElem hi, hie])).1.1
            rw [hte] at hok
            have : nextRun ≤ env.now := hok
            omega
          · exact hin
        have hrest_perm := List.perm_cons_erase hmem_rest
        have hev_task : ev.task = top := by rw [← hev]
        have hev_resched : ev.rescheduled = top.withNextRun nextRun := by rw [← hev]; rfl
        have hev_outcome : ev.outcome = sending.2 := by rw [← hev]
        refine ⟨s2, ev :: evs2, ?_, hl, hj, hc, hheapf,
          ⟨rest2.erase (top.withNextRun nextRun), ?_, ?_, ?_⟩, ?_, ?_⟩
        · rw [hrun, List.append_assoc, List.singleton_append]
        · -- the popped tasks and the untouched ones make up the heap before
          have h1 : (top.withNextRun nextRun :: heap1).Perm
              (top.withNextRun nextRun ::
                (evs2.map TickEvent.task ++ rest2.erase (top.withNextRun nextRun))) :=
            (hperm2.symm.trans hpa).trans
              ((List.Perm.append_left _ hrest_perm).trans List.perm_middle)
          have h2 := (List.perm_cons _).mp h1
          rw [List.map_cons, hev_task, List.cons_append]
          exact hperm1.symm.trans (List.Perm.cons _ h2)
        · rw [List.map_cons, hev_resched, List.cons_append]
          exact hpb.trans ((List.Perm.append_left _ hrest_perm).trans List.perm_middle)
        · intro t ht
          exact hrest t (List.mem_of_mem_erase ht)
        · intro i e he
          cases i with
          | zero =>
            simp only [List.getElem?_cons_zero, Option.some.injEq] at he
            subst he
            refine ⟨?_, by rw [← hev]; exact hnr_gt⟩
            rw [← hev, Nat.add_zero]
            unfold EventOK
            have htopdue : top.NextRun ≤ env.now := not_lt.mp hdue
            exact ⟨htopdue, hnr.symm, hlim.symm, rfl, hd.1, hd.2.1, hd.2.2.1, hd.2.2.2⟩
          | succ i =>
            simp only [List.getElem?_cons_succ] at he
            obtain ⟨hok, hgt⟩ := hevs i e he
            refine ⟨?_, hgt⟩
            have hidx : k + (i + 1) = k + 1 + i := by omega
            rw [hidx]
            exact EventOK_congr env s _ _ e rfl rfl rfl hok

        · rw [hR2, hdc, sentTasks_cons, hev_outcome, hev_task, ← hchan]
          by_cases hsent : sending.2 = Outcome.sent
          · rw [if_pos hsent, if_pos hsent, List.map_cons, List.append_assoc,
              List.singleton_append]
            exact drop_append_drop _ _ _ _
          · rw [if_neg hsent, if_neg hsent]
            exact drop_append_drop _ _ _ _

/-- The loop of `processNextTasks` on any scheduler, when it ends within the rounds given: the
limiters, the jitter fraction and the capacity are kept; the heap holds the same payers,
endpoints and intervals; a task of the heap is a task of the heap before or a task put back;
a task taken is a task of the heap before or a task put back in an earlier round; every event
is the record of its round; and the channel holds an end of its content before followed by
the tasks sent. -/
theorem processLoop_frame (env : TickEnv) (fuel k : Nat) (s : Scheduler) (log : List TickEvent)
    (s2 : Scheduler) (log2 : List TickEvent)
    (hrun : processLoop env fuel k s log = some (s2, log2)) :
    ∃ evs, log2 = log ++ evs ∧
      s2.limiters = s.limiters ∧ s2.jitterPct = s.jitterPct ∧
      s2.taskChanCap = s.taskChanCap ∧
      (s2.heap.map Task.identity).Perm (s.heap.map Task.identity) ∧
      (∀ t ∈ s2.heap, t ∈ s.heap ∨ ∃ e ∈ evs, t = e.rescheduled) ∧
      (∀ e ∈ evs, e.task ∈ s.heap ∨ ∃ e2 ∈ evs, e.task = e2.rescheduled) ∧
      (∀ i e, evs[i]? = some e → EventOK env s (k + i) e) ∧
      (∃ R, s2.taskChan = (s.taskChan ++ (sentTasks evs).map Task.identity).drop R) := by
  induction fuel generalizing k s log with
  | zero => simp [processLoop] at hrun
  | succ fuel ih =>
    unfold processLoop at hrun
    have hstop : (s, log) = (s2, log2) →
        ∃ evs, log2 = log ++ evs ∧
          s2.limiters = s.limiters ∧ s2.jitterPct = s.jitterPct ∧
          s2.taskChanCap = s.taskChanCap ∧
          (s2.heap.map Task.identity).Perm (s.heap.map Task.identity) ∧
          (∀ t ∈ s2.heap, t ∈ s.heap ∨ ∃ e ∈ evs, t = e.rescheduled) ∧
          (∀ e ∈ evs, e.task ∈ s.heap ∨ ∃ e2 ∈ evs, e.task = e2.rescheduled) ∧
          (∀ i e, evs[i]? = some e → EventOK env s (k + i) e) ∧
          (∃ R, s2.taskChan = (s.taskChan ++ (sentTasks evs).map Task.identity).drop R) := by
      intro heq
      obtain ⟨rfl, rfl⟩ := Prod.mk.inj heq
      refine ⟨[], by simp, rfl, rfl, rfl, List.Perm.refl _, fun t ht => Or.inl ht, ?_, ?_,
        ⟨0, by simp [sentTasks]⟩⟩
      · intro e he
        cases he
      · intro i e he
        simp at he
    cases hpeek : TaskHeap.PeekTask s.heap with
    | none =>
      rw [hpeek] at hrun
      exact hstop (Option.some.inj hrun)
    | some top =>
      rw [hpeek] at hrun
      simp only [] at hrun
      by_cases hdue : top.NextRun > env.now
      · rw [if_pos hdue] at hrun
        exact hstop (Option.some.inj hrun)
      · rw [if_neg hdue] at hrun
        have hfst : (TaskHeap.PopTask s.heap).1 = some top := by
          rw [PopTask_fst]; exact hpeek
        have hperm1 := PopTask_perm s.heap top hfst
        rcases hpop : TaskHeap.PopTask s.heap with ⟨o, heap1⟩
        rw [hpop] at hfst hperm1 hrun
        simp only [] at hfst hperm1
        subst hfst
        simp only [] at hrun
        have htop_mem : top ∈ s.heap := hperm1.subset (List.mem_cons_self _ _)
        generalize hnr : env.now + s.addJitter (env.sample k) top.Interval = nextRun at hrun
        generalize hlim :
          mapGet s.limiters (getLimiterKey top.Payer top.Endpoint.Type_) = lim at hrun
        generalize hchan : List.drop (env.received k) s.taskChan = chan at hrun
        have hd := dispatch_outcome lim (env.allow k) chan s.taskChanCap top
        have hdc := dispatch_chan lim (env.allow k) chan s.taskChanCap top
        generalize dispatch lim (env.allow k) chan s.taskChanCap top = sending at hd hdc hrun
        generalize hev :
          (⟨top, lim, env.allow k, chan.length, sending.2, nextRun⟩ : TickEvent) = ev at hrun
        have hperm2 := PushTask_perm heap1 (top.withNextRun nextRun)
        obtain ⟨evs2, hlog, hl, hj, hc, hids, hmem, htasks, hevs, ⟨R2, hR2⟩⟩ :=
          ih (k + 1) { s with heap := TaskHeap.PushTask heap1 (top.withNextRun nextRun),
                              taskChan := sending.1 }
            (log ++ [ev]) hrun
        simp only [] at hl hj hc hids hmem htasks hR2
        have hev_task : ev.task = top := by rw [← hev]
        have hev_resched : ev.rescheduled = top.withNextRun nextRun := by rw [← hev]; rfl
        have hev_outcome : ev.outcome = sending.2 := by rw [← hev]
        have hheap2 : ∀ t ∈ TaskHeap.PushTask heap1 (top.withNextRun nextRun),
            t = ev.rescheduled ∨ t ∈ s.heap := by
          intro t ht
          rcases (mem_PushTask _ _ _).mp ht with rfl | ht
          · exact Or.inl hev_resched.symm
          · exact Or.inr (hperm1.subset (List.mem_cons_of_mem _ ht))
        refine ⟨ev :: evs2, ?_, hl, hj, hc, ?_, ?_, ?_, ?_, ?_⟩
        · rw [hlog, List.append_assoc, List.singleton_append]
        · refine hids.trans ?_
          refine (hperm2.map Task.identity).trans ?_
          show ((top :: heap1).map Task.identity).Perm (s.heap.map Task.identity)
          exact hperm1.map Task.identity
        · intro t ht
          rcases hmem t ht with h1 | ⟨e, he, hte⟩
          · rcases hheap2 t h1 with h2 | h2
            · exact Or.inr ⟨ev, List.mem_cons_self _ _, h2⟩
            · exact Or.inl h2
          · exact Or.inr ⟨e, List.mem_cons_of_mem _ he, hte⟩
        · intro e he
          rcases List.mem_cons.mp he with rfl | he
          · left
            rw [hev_task]
            exact htop_mem
          · rcases htasks e he with h1 | ⟨e2, he2, hte⟩
            · rcases hheap2 _ h1 with h2 | h2
              · exact Or.inr ⟨ev, List.mem_cons_self _ _, h2⟩
              · exact Or.inl h2
            · exact Or.inr ⟨e2, List.mem_cons_of_mem _ he2, hte⟩
        · intro i e he
          cases i with
          | zero =>
            simp only [List.getElem?_cons_zero, Option.some.injEq] at he
            subst he
            rw [← hev, Nat.add_zero]
            unfold EventOK
            have htopdue : top.NextRun ≤ env.now := not_lt.mp hdue
            exact ⟨htopdue, hnr.symm, hlim.symm, rfl, hd.1, hd.2.1, hd.2.2.1, hd.2.2.2⟩
          | succ i =>
            simp only [List.getElem?_cons_succ] at he
            have hok := hevs i e he
            have hidx : k + (i + 1) = k + 1 + i := by omega
            rw [hidx]
            exact EventOK_congr env s _ _ e rfl rfl rfl hok
        · rw [hR2, hdc, sentTasks_cons, hev_outcome, hev_task, ← hchan]
          by_cases hsent : sending.2 = Outcome.sent
          · rw [if_pos hsent, if_pos hsent, List.map_cons, List.append_assoc,
              List.singleton_append]
            exact drop_append_drop _ _ _ _
          · rw [if_neg hsent, if_neg hsent]
            exact drop_append_drop _ _ _ _

/-- A round more than needed does not change the result of the loop of `processNextTasks`. -/
theorem processLoop_fuel_succ (env : TickEnv) (fuel k : Nat) (s : Scheduler)
    (log : List TickEvent) (r : Scheduler × List TickEvent)
    (h : processLoop env fuel k s log = some r) : processLoop env (fuel + 1) k s log = some r := by
  induction fuel generalizing k s log with
  | zero => simp [processLoop] at h
  | succ fuel ih =>
    unfold processLoop at h ⊢
    cases hpeek : TaskHeap.PeekTask s.heap with
    | none =>
      rw [hpeek] at h
      exact h
    | some top =>
      rw [hpeek] at h
      simp only [] at h ⊢
      by_cases hdue : top.NextRun > env.now
      · rw [if_pos hdue] at h ⊢
        exact h
      · rw [if_neg hdue] at h ⊢
        rcases hpop : TaskHeap.PopTask s.heap with ⟨o, heap1⟩
        rw [hpop] at h
        cases o with
        | none => simp at h
        | some task =>
          simp only [] at h ⊢
          exact ih _ _ _ h

theorem processLoop_fuel_le (env : TickEnv) (f1 f2 k : Nat) (s : Scheduler)
    (log : List TickEvent) (r : Scheduler × List TickEvent) (hle : f1 ≤ f2)
    (h : processLoop env f1 k s log = some r) : processLoop env f2 k s log = some r := by
  induction hle with
  | refl => exact h
  | step _ ih => exact processLoop_fuel_succ env _ k s log r ih

theorem Minute_pos : 0 < Minute := by decide

theorem GetSchedule_ge_minute (e : Endpoint) : Minute ≤ e.GetSchedule := by
  unfold Endpoint.GetSchedule
  have hm : Minute = 60000000000 := by decide
  split_ifs with h0 hlt
  · omega
  · exact le_refl _
  · exact not_lt.mp hlt

theorem New_wellFormed (taskChanSize : Nat) : (New taskChanSize).WellFormed := by
  refine ⟨?_, ?_, rfl⟩
  · intro k _ hlt
    simp [New, NewTaskHeap_eq] at hlt
  · intro t ht
    simp [New, NewTaskHeap_eq] at ht

/-- The tasks in the heap after `LoadConfig`: the heap is in heap order and every task has the
schedule of its endpoint as interval and `now` plus a jittered interval as `NextRun`. -/
theorem LoadConfig_tasks (s : Scheduler) (cfg : Config) (now : Int) (sample : Nat → ℚ) :
    (s.LoadConfig cfg now sample).jitterPct = s.jitterPct ∧
      (s.LoadConfig cfg now sample).taskChan = s.taskChan ∧
      (s.LoadConfig cfg now sample).taskChanCap = s.taskChanCap ∧
      IsHeap (s.LoadConfig cfg now sample).heap ∧
      ∀ t ∈ (s.LoadConfig cfg now sample).heap,
        (∃ p ∈ cfg.Payers, t.Payer = p.Name ∧ t.Endpoint ∈ p.Endpoints) ∧
          t.Interval = t.Endpoint.GetSchedule ∧
          ∃ k, t.NextRun = now + s.addJitter (sample k) t.Interval := by
  obtain ⟨st, hst, heq⟩ := LoadConfig_induction s cfg now sample
    (fun st => st.sched.jitterPct = s.jitterPct ∧ st.sched.taskChan = s.taskChan ∧
      st.sched.taskChanCap = s.taskChanCap ∧ IsHeap st.sched.heap ∧
      ∀ t ∈ st.sched.heap,
        (∃ p ∈ cfg.Payers, t.Payer = p.Name ∧ t.Endpoint ∈ p.Endpoints) ∧
          t.Interval = t.Endpoint.GetSchedule ∧
          ∃ k, t.NextRun = now + s.addJitter (sample k) t.Interval)
    (by
      refine ⟨rfl, rfl, rfl, ?_, ?_⟩
      · intro k _ hlt
        simp [NewTaskHeap_eq] at hlt
      · intro t ht
        simp [NewTaskHeap_eq] at ht)
    (fun st p e hp he hI => by
      obtain ⟨hj, hc, hcap, hheap, hall⟩ := hI
      unfold loadEndpoint
      simp only []
      refine ⟨hj, hc, hcap, PushTask_isHeap _ _ hheap, ?_⟩
      intro t ht
      rcases (mem_PushTask _ _ _).mp ht with rfl | ht
      · exact ⟨⟨p, hp, rfl, he⟩, rfl, st.calls, by rw [addJitter_congr st.sched s hj]⟩
      · exact hall t ht)
  rw [heq]
  exact hst

/-- `LoadConfig` of a configuration with schedules of at most `safeDuration`, on a scheduler
with the jitter fraction of `New`, gives a well-formed scheduler. -/
theorem LoadConfig_wellFormed (s : Scheduler) (cfg : Config) (now : Int) (sample : Nat → ℚ)
    (hj : s.jitterPct = roundFloat64 (1 / 10)) (hb : cfg.SchedulesAtMost safeDuration) :
    (s.LoadConfig cfg now sample).WellFormed := by
  obtain ⟨h1, _, _, h2, h3⟩ := LoadConfig_tasks s cfg now sample
  refine ⟨h2, ?_, by rw [h1]; exact hj⟩
  intro t ht
  obtain ⟨⟨p, hp, _, he⟩, hint, _⟩ := h3 t ht
  rw [hint]
  exact ⟨lt_of_lt_of_le Minute_pos (GetSchedule_ge_minute _), hb p hp _ he⟩

/-- On a well-formed scheduler, with samples in range, every task of the heap gets a positive
jittered interval. -/
theorem WellFormed_addJitter_pos (s : Scheduler) (env : TickEnv) (hw : s.WellFormed)
    (hs : env.SamplesInRange) :
    ∀ t ∈ s.heap, ∀ i, 0 < s.addJitter (env.sample i) t.Interval := by
  intro t ht i
  exact addJitter_pos s (env.sample i) t.Interval hw.2.2 (hw.2.1 t ht).1 (hw.2.1 t ht).2
    (hs i).1 (hs i).2

/-- One call of `processNextTasks` on a well-formed scheduler, with samples in range: the call
returns when its loop is given one round more than there are tasks, or more; limiters, jitter
fraction and channel capacity are kept and the scheduler stays well-formed; the heap before is
made of the popped tasks and of tasks that are not due, the heap after of the popped tasks with
their new `NextRun` and of the same other tasks; every event is the record of its round; and
the channel holds an end of its content before followed by the tasks sent. -/
theorem processNextTasks_spec (s : Scheduler) (env : TickEnv) (hw : s.WellFormed)
    (hs : env.SamplesInRange) :
    ∃ s2 log,
      (∀ fuel, TaskHeap.Len s.heap + 1 ≤ fuel → s.processNextTasks env fuel = some (s2, log)) ∧
      s2.limiters = s.limiters ∧ s2.jitterPct = s.jitterPct ∧
      s2.taskChanCap = s.taskChanCap ∧ s2.WellFormed ∧
      (∃ rest, s.heap.Perm (log.map TickEvent.task ++ rest) ∧
        s2.heap.Perm (log.map TickEvent.rescheduled ++ rest) ∧
        ∀ t ∈ rest, env.now < t.NextRun) ∧
      (∀ i e, log[i]? = some e → EventOK env s i e ∧ env.now < e.nextRun) ∧
      (∃ R, s2.taskChan = (s.taskChan ++ (sentTasks log).map Task.identity).drop R) := by
  have hpos := WellFormed_addJitter_pos s env hw hs
  obtain ⟨hheap, hint, hp⟩ := hw
  have hfuel : (dueTasks env.now s.heap).length < TaskHeap.Len s.heap + 1 := by
    unfold dueTasks TaskHeap.Len
    exact Nat.lt_succ_of_le (List.length_filter_le _ _)
  obtain ⟨s2, evs, hrun, hl, hj, hc, hheap2, ⟨rest, hpa, hpb, hrest⟩, hevs, hchan⟩ :=
    processLoop_spec env (TaskHeap.Len s.heap + 1) 0 s [] hheap hpos hfuel
  rw [List.nil_append] at hrun
  refine ⟨s2, evs, ?_, hl, hj, hc,
    ⟨hheap2, ?_, by rw [hj]; exact hp⟩, ⟨rest, hpa, hpb, hrest⟩, ?_, hchan⟩
  · intro fuel hle
    unfold Scheduler.processNextTasks
    exact processLoop_fuel_le env _ fuel 0 s [] (s2, evs) hle hrun
  · intro t ht
    rcases List.mem_append.mp (hpb.subset ht) with hm | hm
    · obtain ⟨e, he, hte⟩ := List.mem_map.mp hm
      have hmem : e.task ∈ s.heap :=
        hpa.symm.subset (List.mem_append_left _ (List.mem_map_of_mem _ he))
      rw [← hte]
      exact hint e.task hmem
    · exact hint t (hpa.symm.subset (List.mem_append_right _ hm))
  · intro i e he
    have := hevs i e he
    rwa [Nat.zero_add] at this


theorem LoadConfig_heap_len (s : Scheduler) (cfg : Config) (now : Int)
    (sample : Nat → ℚ) :
    TaskHeap.Len (s.LoadConfig cfg now sample).heap = cfg.countEndpoints := by
  have hl := (LoadConfig_identities s cfg now sample).length_eq
  rw [List.length_map, taskIdentities_length] at hl
  exact hl

theorem processLoop_step (env : TickEnv) (fuel k : Nat) (s : Scheduler) (log : List TickEvent)
    (top : Task) (heap1 : TaskHeap) (hpeek : TaskHeap.PeekTask s.heap = some top)
    (hdue : ¬ top.NextRun > env.now) (hpop : TaskHeap.PopTask s.heap = (some top, heap1)) :
    processLoop env (fuel + 1) k s log =
      processLoop env fuel (k + 1)
        { s with
          heap := TaskHeap.PushTask heap1
            (top.withNextRun (env.now + s.addJitter (env.sample k) top.Interval))
          taskChan := (dispatch (mapGet s.limiters (getLimiterKey top.Payer top.Endpoint.Type_))
            (env.allow k) (s.taskChan.drop (env.received k)) s.taskChanCap top).1 }
        (log ++ [⟨top, mapGet s.limiters (getLimiterKey top.Payer top.Endpoint.Type_),
          env.allow k, (s.taskChan.drop (env.received k)).length,
          (dispatch (mapGet s.limiters (getLimiterKey top.Payer top.Endpoint.Type_))
            (env.allow k) (s.taskChan.drop (env.received k)) s.taskChanCap top).2,
          env.now + s.addJitter (env.sample k) top.Interval⟩]) := by
  conv => lhs; unfold processLoop
  rw [hpeek]
  simp only []
  rw [if_neg hdue, hpop]

theorem processLoop_stop (env : TickEnv) (fuel k : Nat) (s : Scheduler) (log : List TickEvent)
    (top : Task) (hpeek : TaskHeap.PeekTask s.heap = some top) (hdue : top.NextRun > env.now) :
    processLoop env (fuel + 1) k s log = some (s, log) := by
  unfold processLoop
  rw [hpeek]
  simp only []
  rw [if_pos hdue]

theorem lateTick_run :
    lateTickState.processNextTasks lateTickEnv 2 = some (lateTickStateAfter, [lateTickEvent]) := by
  unfold Scheduler.processNextTasks
  have h1 := processLoop_step lateTickEnv 1 0 lateTickState [] (exampleTask 0) []
    (by decide) (by decide) (by decide)
  have hs : lateTickEnv.sample 0 = 1023 / 1024 := rfl
  have hi : (exampleTask 0).Interval = Minute := rfl
  rw [hs, hi, addJitter_minute_late lateTickState rfl] at h1
  rw [h1]
  exact processLoop_stop lateTickEnv 0 1 _ _ (exampleTask 66038281250) (by decide) (by decide)

/-- The scheduler `lateTickState` is the one that `LoadConfig` builds, one minute before the
instant zero and with the sample one half, from the configuration of the single endpoint
`minuteEndpoint`. -/
theorem lateTickState_loaded :
    (New 1000).LoadConfig (Config.single "acme" minuteEndpoint) (-60000000000)
      (fun _ => 1 / 2) = lateTickState := by
  have hg : minuteEndpoint.GetSchedule = Minute := by decide
  unfold Scheduler.LoadConfig Config.single
  simp only [List.foldl_cons, List.foldl_nil, loadPayer, loadEndpoint]
  rw [hg, addJitter_minute_half _ rfl]
  rfl

/-- The scheduler `hugeState` with its task due 277 years before the instant zero is the one
that `LoadConfig` builds at the instant zero, with the sample 3/4, from the configuration of
the single endpoint `hugeEndpoint`. -/
theorem hugeState_loaded :
    (New 1000).LoadConfig (Config.single "acme" hugeEndpoint) 0 (fun _ => 3 / 4)
      = hugeState (-8762203435012036993) [] := by
  have hg : hugeEndpoint.GetSchedule = 9223372036854775807 := by decide
  unfold Scheduler.LoadConfig Config.single
  simp only [List.foldl_cons, List.foldl_nil, loadPayer, loadEndpoint]
  rw [hg, addJitter_maxDuration_late _ rfl]
  rfl

/-- The tick `overflowEnv` on the scheduler with the task of `hugeEndpoint`: the loop takes the
task twice and ends in its third round. -/
theorem overflow_run :
    (hugeState (-8762203435012036993) []).processNextTasks overflowEnv 3
      = some (hugeState 8762203435112036991 [("acme", hugeEndpoint, 9223372036854775807)],
          [overflowEvent0, overflowEvent1]) := by
  unfold Scheduler.processNextTasks
  have h1 := processLoop_step overflowEnv 2 0 (hugeState (-8762203435012036993) []) []
    (hugeTask (-8762203435012036993)) [] (by decide) (by decide) (by decide)
  have hs0 : overflowEnv.sample 0 = 3 / 4 := rfl
  have hi : ∀ n, (hugeTask n).Interval = 9223372036854775807 := fun _ => rfl
  rw [hs0, hi, addJitter_maxDuration_late _ rfl] at h1
  rw [h1]
  have h2 := processLoop_step overflowEnv 1 1
    (hugeState (-8762203434912036993) [("acme", hugeEndpoint, 9223372036854775807)])
    [overflowEvent0] (hugeTask (-8762203434912036993)) [] (by decide) (by decide) (by decide)
  have hs1 : overflowEnv.sample 1 = 1 / 4 := rfl
  rw [hs1, hi, addJitter_maxDuration_early _ rfl] at h2
  refine Eq.trans h2 ?_
  exact processLoop_stop overflowEnv 0 2 _ _ (hugeTask 8762203435112036991) (by decide)
    (by decide)

/-- With the sample 3/4 in every round, the loop of `processNextTasks` on the scheduler with the
task of `hugeEndpoint` takes the task in every round and ends within no number of rounds. -/
theorem stuck_loop (fuel : Nat) :
    ∀ (k : Nat) (n : Int) (chan : List (String × Endpoint × Int)) (log : List TickEvent),
      n ≤ 100000000 → processLoop stuckEnv fuel k (hugeState n chan) log = none := by
  induction fuel with
  | zero =>
    intro k n chan log _
    rfl
  | succ fuel ih =>
    intro k n chan log hn
    have h1 := processLoop_step stuckEnv fuel k (hugeState n chan) log (hugeTask n) [] rfl
      (by show ¬ n > 100000000; omega) rfl
    have hs : stuckEnv.sample k = 3 / 4 := rfl
    have hi : (hugeTask n).Interval = 9223372036854775807 := rfl
    rw [hs, hi, addJitter_maxDuration_late _ rfl] at h1
    rw [h1]
    exact ih (k + 1) (100000000 + -8762203435012036993) _ _ (by decide)
/-! ## Lemmas on the hub -/

theorem setClient_self (h : Hub) (p : Nat) : h.setClient p (h.mem p) = h := by
  unfold Hub.setClient
  rw [Function.update_eq_self]

theorem broadcastOne_eq (r : ProbeResult) (h : Hub) (p : Nat)
    (hopen : (h.mem p).send.closed = false) :
    h.broadcastOne r p = .ok
      { h.setClient p ((h.mem p).afterBroadcast r) with
        clients := if (h.mem p).evictedBy r = true then h.clients.erase p else h.clients } := by
  unfold Hub.broadcastOne Client.afterBroadcast Client.evictedBy SendChan.trySend SendChan.close
  simp only [hopen]
  by_cases hpred : (h.mem p).predicate r = true
  · by_cases hroom : (h.mem p).send.len < (h.mem p).send.cap
    · simp [hpred, hroom, Hub.setClient]
    · simp [hpred, hroom, Hub.setClient]
  · simp [hpred, setClient_self]

theorem broadcastLoop_spec (r : ProbeResult) (ps : List Nat) (h : Hub) (hnd : ps.Nodup)
    (hcl : h.clients.Nodup) (hopen : ∀ p ∈ ps, (h.mem p).send.closed = false) :
    ∃ h2, Hub.broadcastLoop r ps h = .ok h2 ∧
      (∀ q, h2.mem q = if q ∈ ps then (h.mem q).afterBroadcast r else h.mem q) ∧
      h2.clients = h.clients.filter (fun q => !(decide (q ∈ ps) && (h.mem q).evictedBy r)) ∧
      h2.next = h.next ∧ h2.running = h.running := by
  induction ps generalizing h with
  | nil =>
    refine ⟨h, rfl, fun q => by simp, ?_, rfl, rfl⟩
    simp
  | cons p rest ih =>
    obtain ⟨hp_notin, hnd_rest⟩ := List.nodup_cons.mp hnd
    have hone := broadcastOne_eq r h p (hopen p (List.mem_cons_self _ _))
    generalize hh1 : ({ h.setClient p ((h.mem p).afterBroadcast r) with
      clients := if (h.mem p).evictedBy r = true then h.clients.erase p else h.clients } : Hub)
      = h1 at hone
    have hmem1 : ∀ q, h1.mem q = if q = p then (h.mem p).afterBroadcast r else h.mem q := by
      intro q
      rw [← hh1]
      show Function.update h.mem p ((h.mem p).afterBroadcast r) q = _
      by_cases hq : q = p
      · subst hq
        simp
      · simp [hq]
    have hcl1 : h1.clients
        = h.clients.filter (fun q => !(decide (q = p) && (h.mem p).evictedBy r)) := by
      rw [← hh1]
      show (if (h.mem p).evictedBy r = true then h.clients.erase p else h.clients) = _
      by_cases hev : (h.mem p).evictedBy r = true
      · rw [if_pos hev, hcl.erase_eq_filter]
        apply List.filter_congr
        intro q _
        by_cases hq : q = p
        · simp [hev, hq]
        · simp [hev, hq]
      · rw [if_neg hev]
        have hev2 : (h.mem p).evictedBy r = false := by simpa using hev
        simp [hev2]
    have hnext1 : h1.next = h.next := by rw [← hh1]; rfl
    have hrun1 : h1.running = h.running := by rw [← hh1]; rfl
    have hcl1nd : h1.clients.Nodup := by
      rw [hcl1]
      exact hcl.filter _
    have hopen1 : ∀ q ∈ rest, (h1.mem q).send.closed = false := by
      intro q hq
      have hqp : q ≠ p := fun he => hp_notin (he ▸ hq)
      rw [hmem1, if_neg hqp]
      exact hopen q (List.mem_cons_of_mem _ hq)
    obtain ⟨h2, hrun, hmem2, hcl2, hnext2, hrun2⟩ := ih h1 hnd_rest hcl1nd hopen1
    refine ⟨h2, ?_, ?_, ?_, by rw [hnext2, hnext1], by rw [hrun2, hrun1]⟩
    · unfold Hub.broadcastLoop
      rw [hone]
      exact hrun
    · intro q
      rw [hmem2, hmem1]
      by_cases hq : q = p
      · subst hq
        simp [hp_notin]
      · simp [hq]
    · rw [hcl2, hcl1, List.filter_filter]
      apply List.filter_congr
      intro q _
      by_cases hq : q = p
      · subst hq
        simp [hp_notin]
      · rw [hmem1, if_neg hq]
        simp [hq]

theorem closeLoop_spec (ps : List Nat) (h : Hub) (hnd : ps.Nodup)
    (hopen : ∀ p ∈ ps, (h.mem p).send.closed = false) :
    ∃ h2, Hub.closeLoop ps h = .ok h2 ∧
      (∀ q, h2.mem q = if q ∈ ps then (h.mem q).closedQueue else h.mem q) ∧
      h2.clients = h.clients ∧ h2.next = h.next ∧ h2.running = h.running := by
  induction ps generalizing h with
  | nil => exact ⟨h, rfl, fun q => by simp, rfl, rfl, rfl⟩
  | cons p rest ih =>
    obtain ⟨hp_notin, hnd_rest⟩ := List.nodup_cons.mp hnd
    have hp_open := hopen p (List.mem_cons_self _ _)
    have hclose : (h.mem p).send.close = .ok (h.mem p).closedQueue.send := by
      unfold SendChan.close Client.closedQueue
      simp [hp_open]
    have hset : ∀ q, (h.setClient p (h.mem p).closedQueue).mem q
        = if q = p then (h.mem p).closedQueue else h.mem q := by
      intro q
      show Function.update h.mem p _ q = _
      by_cases hq : q = p
      · subst hq
        rw [Function.update_same, if_pos rfl]
      · rw [Function.update_noteq hq, if_neg hq]
    have hopen1 : ∀ q ∈ rest,
        ((h.setClient p (h.mem p).closedQueue).mem q).send.closed = false := by
      intro q hq
      have hqp : q ≠ p := fun he => hp_notin (he ▸ hq)
      rw [hset, if_neg hqp]
      exact hopen q (List.mem_cons_of_mem _ hq)
    obtain ⟨h2, hrun, hmem2, hcl2, hnext2, hrun2⟩ := ih _ hnd_rest hopen1
    refine ⟨h2, ?_, ?_, hcl2, hnext2, hrun2⟩
    · unfold Hub.closeLoop
      rw [hclose]
      exact hrun
    · intro q
      rw [hmem2, hset]
      by_cases hq : q = p
      · subst hq
        rw [if_neg hp_notin, if_pos rfl, if_pos (List.mem_cons_self _ _)]
      · rw [if_neg hq]
        by_cases hr : q ∈ rest
        · rw [if_pos hr, if_pos (List.mem_cons_of_mem _ hr)]
        · rw [if_neg hr, if_neg (fun hc => by
            rcases List.mem_cons.mp hc with h1 | h1
            · exact hq h1
            · exact hr h1)]

theorem broadcastsOf_single_sublist_nil (ev : HubEvent) :
    ([] : List ProbeResult).Sublist (broadcastsOf [ev]) :=
  List.nil_sublist _

theorem broadcastToClients_spec (h : Hub) (r : ProbeResult) (hnd : h.clients.Nodup)
    (hopen : ∀ p ∈ h.clients, (h.mem p).send.closed = false) :
    ∃ h2, h.broadcastToClients r = .ok h2 ∧
      (∀ q, h2.mem q = if q ∈ h.clients then (h.mem q).afterBroadcast r else h.mem q) ∧
      h2.clients = h.clients.filter (fun q => !(h.mem q).evictedBy r) ∧
      h2.next = h.next ∧ h2.running = h.running := by
  obtain ⟨h2, hrun, hmem2, hcl2, hnext2, hrun2⟩ :=
    broadcastLoop_spec r h.clients h hnd hnd hopen
  refine ⟨h2, hrun, hmem2, ?_, hnext2, hrun2⟩
  rw [hcl2]
  apply List.filter_congr
  intro q hq
  simp [hq]

theorem afterBroadcast_fields (c : Client) (r : ProbeResult) :
    (c.afterBroadcast r).predicate = c.predicate ∧ (c.afterBroadcast r).id = c.id ∧
      (c.afterBroadcast r).send.cap = c.send.cap ∧
      (c.afterBroadcast r).send.taken = c.send.taken ∧
      (c.afterBroadcast r).send.closed = (c.send.closed || c.evictedBy r) ∧
      (c.afterBroadcast r).send.enqueued = c.send.enqueued ++
        (if c.predicate r = true ∧ c.send.len < c.send.cap then [r] else []) := by
  unfold Client.afterBroadcast Client.evictedBy
  by_cases hpred : c.predicate r = true
  · by_cases hroom : c.send.len < c.send.cap
    · simp [hpred, hroom]
    · simp [hpred, hroom]
  · simp [hpred]


theorem stepFacts_refl (h : Hub) (ev : HubEvent) (hv : h.Valid)
    (hb : ∀ r, ev = HubEvent.broadcast r → h.clients = []) :
    StepFacts h ev h := by
  refine ⟨hv, le_refl _, ?_, fun _ _ hp => hp, ?_⟩
  · intro p h1 h2
    rw [h1] at h2
    cases h2
  · intro p
    refine ⟨[], by simp, List.nil_sublist _, ?_⟩
    intro hp _ _
    refine ⟨?_, rfl⟩
    cases ev with
    | broadcast r =>
      rw [hb r rfl] at hp
      cases hp
    | register id => rfl
    | unregister q => rfl
    | shutdown => rfl
    | writerTook q => rfl
    | subscribe q msg => rfl

theorem step_register (h : Hub) (id : String) (hv : h.Valid) :
    ∃ h2, h.step (HubEvent.register id) = .ok h2 ∧ StepFacts h (HubEvent.register id) h2 := by
  obtain ⟨hnd, hmem, hrun, hfresh⟩ := hv
  by_cases hr : h.running = true
  · have hnot : h.next ∉ h.clients := fun hc => lt_irrefl _ (hmem _ hc).1
    refine ⟨{ h with clients := h.next :: h.clients,
                     mem := Function.update h.mem h.next (newClient id),
                     next := h.next + 1 }, ?_, ?_⟩
    · unfold Hub.step
      simp only [hr, if_true, if_neg hnot]
    · refine ⟨⟨?_, ?_, ?_, ?_⟩, Nat.le_succ _, ?_, ?_, ?_⟩
      · exact List.nodup_cons.mpr ⟨hnot, hnd⟩
      · intro p hp
        show p < h.next + 1 ∧ (Function.update h.mem h.next (newClient id) p).send.closed = false
          ∧ (Function.update h.mem h.next (newClient id) p).send.cap = 256
        rcases List.mem_cons.mp hp with rfl | hp
        · rw [Function.update_same]
          exact ⟨Nat.lt_succ_self _, rfl, rfl⟩
        · have hne : p ≠ h.next := fun he => hnot (he ▸ hp)
          rw [Function.update_noteq hne]
          exact ⟨Nat.lt_succ_of_lt (hmem p hp).1, (hmem p hp).2⟩
      · intro hf
        have : h.running = false := hf
        rw [hr] at this
        cases this
      · intro p hp
        show (Function.update h.mem h.next (newClient id) p).send.enqueued = []
        have hp2 : h.next + 1 ≤ p := hp
        have hne : p ≠ h.next := by omega
        rw [Function.update_noteq hne]
        exact hfresh p (by omega)
      · intro p h1 h2
        exfalso
        have h2b : (Function.update h.mem h.next (newClient id) p).send.closed = true := h2
        by_cases hne : p = h.next
        · subst hne
          rw [Function.update_same] at h2b
          cases h2b
        · rw [Function.update_noteq hne, h1] at h2b
          cases h2b
      · intro p hlt hp hc
        rcases List.mem_cons.mp hc with he | hc
        · omega
        · exact hp hc
      · intro p
        refine ⟨[], ?_, List.nil_sublist _, ?_⟩
        · show (Function.update h.mem h.next (newClient id) p).send.enqueued = _
          by_cases hne : p = h.next
          · subst hne
            rw [Function.update_same, hfresh _ (le_refl _)]
            rfl
          · rw [Function.update_noteq hne, List.append_nil]
        · intro hp _ _
          have hne : p ≠ h.next := fun he => hnot (he ▸ hp)
          refine ⟨rfl, ?_⟩
          show (Function.update h.mem h.next (newClient id) p).predicate = _
          rw [Function.update_noteq hne]
  · refine ⟨h, ?_, stepFacts_refl h _ ⟨hnd, hmem, hrun, hfresh⟩ (fun r he => by cases he)⟩
    unfold Hub.step
    simp only [hr]
    rfl

theorem step_unregister (h : Hub) (q : Nat) (hv : h.Valid) :
    ∃ h2, h.step (HubEvent.unregister q) = .ok h2 ∧
      StepFacts h (HubEvent.unregister q) h2 ∧ (q ∉ h.clients → h2 = h) := by
  have hv0 := hv
  obtain ⟨hnd, hmem, hrun, hfresh⟩ := hv
  by_cases hr : h.running = true
  · by_cases hq : q ∈ h.clients
    · have hq_open := (hmem q hq).2.1
      have hclose : (h.mem q).send.close = .ok (h.mem q).closedQueue.send := by
        unfold SendChan.close Client.closedQueue
        simp [hq_open]
      have hset : ∀ p, Function.update h.mem q (h.mem q).closedQueue p
          = if p = q then (h.mem q).closedQueue else h.mem p := by
        intro p
        by_cases hp : p = q
        · subst hp
          rw [Function.update_same, if_pos rfl]
        · rw [Function.update_noteq hp, if_neg hp]
      refine ⟨{ h.setClient q (h.mem q).closedQueue with clients := h.clients.erase q },
        ?_, ?_, fun hn => absurd hq hn⟩
      · unfold Hub.step
        simp only [hr, if_true, if_pos hq]
        rw [hclose]
        rfl
      · refine ⟨⟨hnd.erase q, ?_, ?_, ?_⟩, le_refl _, ?_, ?_, ?_⟩
        · intro p hp
          have hp2 := (hnd.mem_erase_iff).mp hp
          show p < h.next ∧ (Function.update h.mem q _ p).send.closed = false
            ∧ (Function.update h.mem q _ p).send.cap = 256
          rw [hset, if_neg hp2.1]
          exact hmem p hp2.2
        · intro hf
          have : h.running = false := hf
          rw [hr] at this
          cases this
        · intro p hp
          show (Function.update h.mem q _ p).send.enqueued = []
          rw [hset]
          by_cases hpq : p = q
          · subst hpq
            rw [if_pos rfl]
            exact hfresh p hp
          · rw [if_neg hpq]
            exact hfresh p hp
        · intro p h1 h2
          have h2b : (Function.update h.mem q (h.mem q).closedQueue p).send.closed = true := h2
          rw [hset] at h2b
          by_cases hpq : p = q
          · subst hpq
            exact ⟨hq, fun hc => ((hnd.mem_erase_iff).mp hc).1 rfl⟩
          · rw [if_neg hpq, h1] at h2b
            cases h2b
        · intro p _ hp hc
          exact hp (List.mem_of_mem_erase hc)
        · intro p
          refine ⟨[], ?_, List.nil_sublist _, ?_⟩
          · show (Function.update h.mem q _ p).send.enqueued = _
            rw [hset, List.append_nil]
            by_cases hpq : p = q
            · subst hpq
              rw [if_pos rfl]
              rfl
            · rw [if_neg hpq]
          · intro _ hp2 _
            have hpq : p ≠ q := ((hnd.mem_erase_iff).mp hp2).1
            refine ⟨rfl, ?_⟩
            show (Function.update h.mem q _ p).predicate = _
            rw [hset, if_neg hpq]
    · refine ⟨h, ?_, stepFacts_refl h _ hv0 (fun r he => by cases he), fun _ => rfl⟩
      unfold Hub.step
      simp only [hr, if_true, if_neg hq]
  · refine ⟨h, ?_, stepFacts_refl h _ hv0 (fun r he => by cases he), fun _ => rfl⟩
    unfold Hub.step
    simp only [hr]
    rfl

theorem step_writerTook (h : Hub) (q : Nat) (hv : h.Valid) :
    ∃ h2, h.step (HubEvent.writerTook q) = .ok h2 ∧ StepFacts h (HubEvent.writerTook q) h2 := by
  obtain ⟨hnd, hmem, hrun, hfresh⟩ := hv
  have htake : ∀ c : Client, ({ c with send := c.send.take } : Client).send.closed
      = c.send.closed ∧ ({ c with send := c.send.take } : Client).send.cap = c.send.cap ∧
      ({ c with send := c.send.take } : Client).send.enqueued = c.send.enqueued ∧
      ({ c with send := c.send.take } : Client).predicate = c.predicate := by
    intro c
    unfold SendChan.take
    split_ifs <;> exact ⟨rfl, rfl, rfl, rfl⟩
  have hset : ∀ p, (h.setClient q { h.mem q with send := (h.mem q).send.take }).mem p
      = if p = q then { h.mem q with send := (h.mem q).send.take } else h.mem p := by
    intro p
    show Function.update h.mem q _ p = _
    by_cases hp : p = q
    · subst hp
      rw [Function.update_same, if_pos rfl]
    · rw [Function.update_noteq hp, if_neg hp]
  have hsame : ∀ p, ((h.setClient q { h.mem q with send := (h.mem q).send.take }).mem p).send.closed
      = (h.mem p).send.closed ∧
      ((h.setClient q { h.mem q with send := (h.mem q).send.take }).mem p).send.cap
        = (h.mem p).send.cap ∧
      ((h.setClient q { h.mem q with send := (h.mem q).send.take }).mem p).send.enqueued
        = (h.mem p).send.enqueued ∧
      ((h.setClient q { h.mem q with send := (h.mem q).send.take }).mem p).predicate
        = (h.mem p).predicate := by
    intro p
    rw [hset]
    by_cases hp : p = q
    · subst hp
      rw [if_pos rfl]
      exact htake _
    · rw [if_neg hp]
      exact ⟨rfl, rfl, rfl, rfl⟩
  refine ⟨_, rfl, ⟨hnd, ?_, hrun, ?_⟩, le_refl _, ?_, fun _ _ hp => hp, ?_⟩
  · intro p hp
    obtain ⟨e1, e2, _, _⟩ := hsame p
    exact ⟨(hmem p hp).1, e1.trans (hmem p hp).2.1, e2.trans (hmem p hp).2.2⟩
  · intro p hp
    exact (hsame p).2.2.1.trans (hfresh p hp)
  · intro p h1 h2
    rw [(hsame p).1, h1] at h2
    cases h2
  · intro p
    exact ⟨[], by rw [(hsame p).2.2.1, List.append_nil], List.nil_sublist _,
      fun _ _ _ => ⟨rfl, (hsame p).2.2.2⟩⟩

theorem handleSubscriptionUpdate_send (c : Client) (msg : Message) :
    (c.handleSubscriptionUpdate msg).send = c.send ∧ (c.handleSubscriptionUpdate msg).id = c.id := by
  unfold Client.handleSubscriptionUpdate
  split
  · split_ifs <;> exact ⟨rfl, rfl⟩
  · exact ⟨rfl, rfl⟩

theorem handleSubscriptionUpdate_other (c : Client) (msg : Message)
    (hact : msgGet msg "action" ≠ some (JsonValue.string "subscribe")) :
    c.handleSubscriptionUpdate msg = c := by
  unfold Client.handleSubscriptionUpdate
  split
  · rename_i action heq
    by_cases ha : action = "subscribe"
    · exact absurd (ha ▸ heq) hact
    · simp [ha]
  · rfl

theorem step_subscribe (h : Hub) (q : Nat) (msg : Message) (hv : h.Valid) :
    ∃ h2, h.step (HubEvent.subscribe q msg) = .ok h2 ∧
      StepFacts h (HubEvent.subscribe q msg) h2 := by
  obtain ⟨hnd, hmem, hrun, hfresh⟩ := hv
  have hset : ∀ p, (h.setClient q ((h.mem q).handleSubscriptionUpdate msg)).mem p
      = if p = q then (h.mem q).handleSubscriptionUpdate msg else h.mem p := by
    intro p
    show Function.update h.mem q _ p = _
    by_cases hp : p = q
    · subst hp
      rw [Function.update_same, if_pos rfl]
    · rw [Function.update_noteq hp, if_neg hp]
  have hsame : ∀ p, ((h.setClient q ((h.mem q).handleSubscriptionUpdate msg)).mem p).send
      = (h.mem p).send := by
    intro p
    rw [hset]
    by_cases hp : p = q
    · subst hp
      rw [if_pos rfl]
      exact (handleSubscriptionUpdate_send _ _).1
    · rw [if_neg hp]
  refine ⟨_, rfl, ⟨hnd, ?_, hrun, ?_⟩, le_refl _, ?_, fun _ _ hp => hp, ?_⟩
  · intro p hp
    rw [hsame p]
    exact hmem p hp
  · intro p hp
    rw [hsame p]
    exact hfresh p hp
  · intro p h1 h2
    rw [hsame p, h1] at h2
    cases h2
  · intro p
    refine ⟨[], by rw [hsame p, List.append_nil], List.nil_sublist _, ?_⟩
    intro _ _ hns
    refine ⟨rfl, ?_⟩
    rw [hset]
    by_cases hqp : p = q
    · rw [if_pos hqp]
      have hact : msgGet msg "action" ≠ some (JsonValue.string "subscribe") :=
        fun hc => hns (Or.inl ⟨hqp.symm, hc⟩)
      rw [handleSubscriptionUpdate_other _ _ hact, hqp]
    · rw [if_neg hqp]

theorem step_shutdown (h : Hub) (hv : h.Valid) :
    ∃ h2, h.step HubEvent.shutdown = .ok h2 ∧ StepFacts h HubEvent.shutdown h2 := by
  have hv0 := hv
  obtain ⟨hnd, hmem, hrun, hfresh⟩ := hv
  by_cases hr : h.running = true
  · obtain ⟨h1, hloop, hmem1, hcl1, hnext1, hrun1⟩ :=
      closeLoop_spec h.clients h hnd (fun p hp => (hmem p hp).2.1)
    refine ⟨{ h1 with clients := [], running := false }, ?_, ?_⟩
    · unfold Hub.step Hub.closeAllClients
      simp only [hr, if_true]
      rw [hloop]
    · have hm : ∀ p, ({ h1 with clients := [], running := false } : Hub).mem p
          = if p ∈ h.clients then (h.mem p).closedQueue else h.mem p := hmem1
      refine ⟨⟨List.nodup_nil, ?_, fun _ => rfl, ?_⟩, le_of_eq hnext1.symm, ?_, ?_, ?_⟩
      · intro p hp
        cases hp
      · intro p hp
        rw [hm]
        have hp2 : h.next ≤ p := by
          have : h1.next ≤ p := hp
          omega
        split_ifs
        · exact hfresh p hp2
        · exact hfresh p hp2
      · intro p h1c h2c
        rw [hm] at h2c
        by_cases hp : p ∈ h.clients
        · exact ⟨hp, fun hc => by cases hc⟩
        · rw [if_neg hp, h1c] at h2c
          cases h2c
      · intro p _ _ hc
        cases hc
      · intro p
        refine ⟨[], ?_, List.nil_sublist _, fun _ hc => by cases hc⟩
        rw [hm, List.append_nil]
        split_ifs <;> rfl
  · refine ⟨h, ?_, stepFacts_refl h _ hv0 (fun r he => by cases he)⟩
    unfold Hub.step
    simp only [hr]
    rfl

theorem step_broadcast (h : Hub) (r : ProbeResult) (hv : h.Valid) :
    ∃ h2, h.step (HubEvent.broadcast r) = .ok h2 ∧ StepFacts h (HubEvent.broadcast r) h2 := by
  have hv0 := hv
  obtain ⟨hnd, hmem, hrun, hfresh⟩ := hv
  by_cases hr : h.running = true
  · obtain ⟨h2, hb, hmem2, hcl2, hnext2, hrun2⟩ :=
      broadcastToClients_spec h r hnd (fun p hp => (hmem p hp).2.1)
    have hin : ∀ p, p ∈ h2.clients ↔ p ∈ h.clients ∧ (h.mem p).evictedBy r = false := by
      intro p
      rw [hcl2, List.mem_filter]
      simp
    refine ⟨h2, ?_, ⟨?_, ?_, ?_, ?_⟩, le_of_eq hnext2.symm, ?_, ?_, ?_⟩
    · unfold Hub.step
      simp only [hr, if_true]
      exact hb
    · rw [hcl2]
      exact hnd.filter _
    · intro p hp
      obtain ⟨hp1, hp2⟩ := (hin p).mp hp
      obtain ⟨_, _, ecap, _, eclosed, _⟩ := afterBroadcast_fields (h.mem p) r
      rw [hmem2, if_pos hp1, hnext2, ecap, eclosed, hp2, (hmem p hp1).2.1]
      exact ⟨(hmem p hp1).1, rfl, (hmem p hp1).2.2⟩
    · intro hf
      rw [hrun2, hr] at hf
      cases hf
    · intro p hp
      rw [hnext2] at hp
      have hnot : p ∉ h.clients := fun hc => absurd (hmem p hc).1 (by omega)
      rw [hmem2, if_neg hnot]
      exact hfresh p hp
    · intro p h1 h2c
      rw [hmem2] at h2c
      by_cases hp : p ∈ h.clients
      · rw [if_pos hp, (afterBroadcast_fields (h.mem p) r).2.2.2.2.1, h1] at h2c
        refine ⟨hp, fun hc => ?_⟩
        have := ((hin p).mp hc).2
        rw [this] at h2c
        cases h2c
      · rw [if_neg hp, h1] at h2c
        cases h2c
    · intro p _ hp hc
      exact hp ((hin p).mp hc).1
    · intro p
      by_cases hp : p ∈ h.clients
      · refine ⟨if (h.mem p).predicate r = true ∧ (h.mem p).send.len < (h.mem p).send.cap
          then [r] else [], ?_, ?_, ?_⟩
        · rw [hmem2, if_pos hp]
          exact (afterBroadcast_fields (h.mem p) r).2.2.2.2.2
        · show List.Sublist _ [r]
          split_ifs
          · exact List.Sublist.refl _
          · exact List.nil_sublist _
        · intro _ hp2 _
          have hev := ((hin p).mp hp2).2
          refine ⟨?_, ?_⟩
          · show _ = List.filter (h.mem p).predicate [r]
            unfold Client.evictedBy at hev
            by_cases hpred : (h.mem p).predicate r = true
            · have hroom : (h.mem p).send.len < (h.mem p).send.cap := by
                simpa [hpred] using hev
              simp [hpred, hroom]
            · simp [hpred]
          · rw [hmem2, if_pos hp]
            exact (afterBroadcast_fields (h.mem p) r).1
      · refine ⟨[], ?_, List.nil_sublist _, fun hc => absurd hc hp⟩
        rw [hmem2, if_neg hp, List.append_nil]
  · have hempty : h.clients = [] := hrun (by simpa using hr)
    refine ⟨h, ?_, stepFacts_refl h _ hv0 (fun _ _ => hempty)⟩
    unfold Hub.step
    simp only [hr]
    rfl

/-- Every event on a valid hub is handled without a panic, with the facts of `StepFacts`. -/
theorem step_facts (h : Hub) (ev : HubEvent) (hv : h.Valid) :
    ∃ h2, h.step ev = .ok h2 ∧ StepFacts h ev h2 := by
  cases ev with
  | register id => exact step_register h id hv
  | unregister q =>
    obtain ⟨h2, h1, h3, _⟩ := step_unregister h q hv
    exact ⟨h2, h1, h3⟩
  | broadcast r => exact step_broadcast h r hv
  | shutdown => exact step_shutdown h hv
  | writerTook q => exact step_writerTook h q hv
  | subscribe q msg => exact step_subscribe h q msg hv

theorem New_valid : Hub.New.Valid := by
  refine ⟨List.nodup_nil, ?_, ?_, ?_⟩
  · intro p hp
    cases hp
  · intro _
    rfl
  · intro p _
    rfl


theorem broadcastsOf_cons (ev : HubEvent) (rest : List HubEvent) :
    broadcastsOf (ev :: rest) = broadcastsOf [ev] ++ broadcastsOf rest := by
  cases ev <;> rfl

theorem subscribesTo_cons (p : Nat) (ev : HubEvent) (rest : List HubEvent) :
    subscribesTo p (ev :: rest) ↔ subscribesTo p [ev] ∨ subscribesTo p rest := by
  cases ev <;> simp [subscribesTo]

theorem run_cons (h : Hub) (ev : HubEvent) (rest : List HubEvent) (h1 : Hub)
    (hs : h.step ev = .ok h1) : Hub.run h (ev :: rest) = Hub.run h1 rest := by
  conv => lhs; unfold Hub.run
  rw [hs]

/-- A sequence of events on a valid hub runs without a panic and ends in a valid hub. -/
theorem run_valid (evs : List HubEvent) (h : Hub) (hv : h.Valid) :
    ∃ h2, Hub.run h evs = .ok h2 ∧ h2.Valid ∧ h.next ≤ h2.next := by
  induction evs generalizing h with
  | nil => exact ⟨h, rfl, hv, le_refl _⟩
  | cons ev rest ih =>
    obtain ⟨h1, hs, hv1, hn1, _⟩ := step_facts h ev hv
    obtain ⟨h2, hr, hv2, hn2⟩ := ih h1 hv1
    exact ⟨h2, by rw [run_cons h ev rest h1 hs]; exact hr, hv2, le_trans hn1 hn2⟩

/-- A client that was made and is not in the map is not in the map later. -/
theorem run_not_member (evs : List HubEvent) (h h2 : Hub) (hv : h.Valid) (p : Nat)
    (hp : p < h.next) (hnot : p ∉ h.clients) (hrun : Hub.run h evs = .ok h2) :
    p ∉ h2.clients := by
  induction evs generalizing h with
  | nil =>
    have : h2 = h := by
      unfold Hub.run at hrun
      exact (Except.ok.inj hrun).symm
    rw [this]
    exact hnot
  | cons ev rest ih =>
    obtain ⟨h1, hs, hv1, hn1, _, hperm, _⟩ := step_facts h ev hv
    rw [run_cons h ev rest h1 hs] at hrun
    exact ih h1 hv1 (lt_of_lt_of_le hp hn1) (hperm p hp hnot) hrun

/-- The results sent to a client over a sequence of events: a part, in order, of the results
broadcast; and for a client that is in the map at both ends and whose read loop handled no
`subscribe` message, exactly the results that its predicate accepts. -/
theorem run_enqueued (evs : List HubEvent) (h h2 : Hub) (hv : h.Valid)
    (hrun : Hub.run h evs = .ok h2) (p : Nat) :
    ∃ d, (h2.mem p).send.enqueued = (h.mem p).send.enqueued ++ d ∧
      d.Sublist (broadcastsOf evs) ∧
      (p ∈ h.clients → p ∈ h2.clients → ¬ subscribesTo p evs →
        d = (broadcastsOf evs).filter (h.mem p).predicate ∧
          (h2.mem p).predicate = (h.mem p).predicate) := by
  induction evs generalizing h with
  | nil =>
    have : h2 = h := by
      unfold Hub.run at hrun
      exact (Except.ok.inj hrun).symm
    rw [this]
    exact ⟨[], by simp, List.nil_sublist _, fun _ _ _ => ⟨rfl, rfl⟩⟩
  | cons ev rest ih =>
    obtain ⟨h1, hs, hv1, hn1, _, hperm, henq⟩ := step_facts h ev hv
    rw [run_cons h ev rest h1 hs] at hrun
    obtain ⟨d1, he1, hsub1, hex1⟩ := henq p
    obtain ⟨d2, he2, hsub2, hex2⟩ := ih h1 hv1 hrun
    refine ⟨d1 ++ d2, by rw [he2, he1, List.append_assoc], ?_, ?_⟩
    · rw [broadcastsOf_cons]
      exact hsub1.append hsub2
    · intro hp hp2 hns
      have hns1 : ¬ subscribesTo p [ev] := fun hc => hns ((subscribesTo_cons p ev rest).mpr (Or.inl hc))
      have hns2 : ¬ subscribesTo p rest := fun hc => hns ((subscribesTo_cons p ev rest).mpr (Or.inr hc))
      have hp1 : p ∈ h1.clients := by
        by_contra hc
        have hlt : p < h.next := (hv.2.1 p hp).1
        exact run_not_member rest h1 h2 hv1 p (lt_of_lt_of_le hlt hn1) hc hrun hp2
      obtain ⟨hd1, hpred1⟩ := hex1 hp hp1 hns1
      obtain ⟨hd2, hpred2⟩ := hex2 hp1 hp2 hns2
      refine ⟨?_, hpred2.trans hpred1⟩
      rw [broadcastsOf_cons, List.filter_append, hd1, hd2, hpred1]

/-! ## Lemmas on the probe -/

theorem append_ne_empty (a b : String) (ha : 0 < a.length) : a ++ b ≠ "" := by
  intro h
  have hl : (a ++ b).length = 0 := by rw [h]; rfl
  rw [String.length_append] at hl
  omega

theorem GetURL_empty (e : Endpoint) (h1 : e.URL = "") (h2 : e.Path = "") : e.GetURL = "" := by
  unfold Endpoint.GetURL
  rw [if_neg (by simp [h1]), h2]

theorem resolveURL_empty (env : ProbeEnv) (e : Endpoint) (h1 : e.URL = "") (h2 : e.Path = "") :
    resolveURL env e = "" := by
  unfold resolveURL
  simp only [GetURL_empty e h1 h2]
  have hc : stringsContains "" "$\x7b" = false := by decide
  rw [hc]
  simp

theorem createRequest_url (env : ProbeEnv) (e : Endpoint) (req : Request)
    (h : createRequest env e = .ok req) : req.URL = resolveURL env e := by
  unfold createRequest at h
  simp only [] at h
  cases hn : env.newRequest e.GetMethod (resolveURL env e) with
  | some err =>
    rw [hn] at h
    cases h
  | none =>
    rw [hn] at h
    simp only [] at h
    rw [← Except.ok.inj h]

theorem ProbeTask_cases (env : ProbeEnv) (task : Task) :
    (∀ err, createRequest env task.Endpoint = .error err →
      ProbeTask env task =
        { Timestamp := env.start, Payer := task.Payer, Type_ := task.Endpoint.Type_,
          URL := resolveURL env task.Endpoint, LatencyMS := env.sinceMS, StatusCode := 0,
          Err := "failed to create request: " ++ err }) ∧
      (∀ req err, createRequest env task.Endpoint = .ok req → env.clientDo req = .error err →
        ProbeTask env task =
          { Timestamp := env.start, Payer := task.Payer, Type_ := task.Endpoint.Type_,
            URL := resolveURL env task.Endpoint, LatencyMS := env.sinceMS, StatusCode := 0,
            Err := "request failed: " ++ err }) ∧
      (∀ req s, createRequest env task.Endpoint = .ok req → env.clientDo req = .ok s →
        ProbeTask env task =
          { Timestamp := env.start, Payer := task.Payer, Type_ := task.Endpoint.Type_,
            URL := resolveURL env task.Endpoint, LatencyMS := env.sinceMS, StatusCode := s,
            Err := "" }) := by
  refine ⟨?_, ?_, ?_⟩
  · intro err h
    unfold ProbeTask
    rw [h]
  · intro req err h hd
    unfold ProbeTask
    rw [h]
    simp only []
    rw [hd]
  · intro req s h hd
    unfold ProbeTask
    rw [h]
    simp only []
    rw [hd]

/-! ## Lemmas on the subscription message -/

theorem stringElements_eq_filterMap (items : List JsonValue) :
    stringElements items = items.filterMap JsonValue.asString := by
  induction items with
  | nil => rfl
  | cons v rest ih =>
    cases v <;> simp [stringElements, JsonValue.asString, ih]

theorem readStringList_array (msg : Message) (key : String) (items : List JsonValue)
    (h : msgGet msg key = some (JsonValue.array items)) :
    readStringList msg key = items.filterMap JsonValue.asString := by
  unfold readStringList
  rw [h]
  exact stringElements_eq_filterMap items

theorem readStringList_other (msg : Message) (key : String)
    (h : ∀ items, msgGet msg key ≠ some (JsonValue.array items)) :
    readStringList msg key = [] := by
  unfold readStringList
  split
  · rename_i items heq
    exact absurd heq (h items)
  · rfl


/-! ## The claims -/

/-- C1: `Loader.validate` returns an error exactly when the configuration has no payers, or
some payer has an empty name, or some payer has no endpoints, or some endpoint has an empty
type, or some endpoint has `url`, `path` and `url_contains` all empty, or some endpoint has a
non-zero schedule below one minute. A configuration holding an endpoint with a schedule of
59 s is rejected; a single otherwise valid endpoint with a schedule of one minute, or of zero,
is accepted. -/
theorem validate_error_iff_invalid (c : Config) :
    ((∃ err, validate c = Except.error err) ↔
      (c.Payers = [] ∨ (∃ p ∈ c.Payers, p.Name = "") ∨ (∃ p ∈ c.Payers, p.Endpoints = []) ∨
        (∃ p ∈ c.Payers, ∃ e ∈ p.Endpoints, e.Type_ = "") ∨
        (∃ p ∈ c.Payers, ∃ e ∈ p.Endpoints,
          e.URL = "" ∧ e.Path = "" ∧ e.URLContains = "") ∨
        (∃ p ∈ c.Payers, ∃ e ∈ p.Endpoints, e.Schedule ≠ 0 ∧ e.Schedule < Minute))) ∧
    ((∃ p ∈ c.Payers, ∃ e ∈ p.Endpoints, e.Schedule = 59 * Second) →
      ∃ err, validate c = Except.error err) ∧
    (∀ (name : String) (e : Endpoint), name ≠ "" → e.Type_ ≠ "" →
      ¬ (e.URL = "" ∧ e.Path = "" ∧ e.URLContains = "") →
      (∃ err, validate (Config.single name { e with Schedule := 59 * Second })
        = Except.error err) ∧
      validate (Config.single name { e with Schedule := Minute }) = Except.ok () ∧
      validate (Config.single name { e with Schedule := 0 }) = Except.ok ()) := by
  have hiff : (∃ err, validate c = Except.error err) ↔
      (c.Payers = [] ∨ (∃ p ∈ c.Payers, p.Name = "") ∨ (∃ p ∈ c.Payers, p.Endpoints = []) ∨
        (∃ p ∈ c.Payers, ∃ e ∈ p.Endpoints, e.Type_ = "") ∨
        (∃ p ∈ c.Payers, ∃ e ∈ p.Endpoints,
          e.URL = "" ∧ e.Path = "" ∧ e.URLContains = "") ∨
        (∃ p ∈ c.Payers, ∃ e ∈ p.Endpoints, e.Schedule ≠ 0 ∧ e.Schedule < Minute)) := by
    rw [validate_error_iff]
    unfold Config.Invalid Endpoint.Invalid
    constructor
    · rintro (h | ⟨p, hp, h | h | ⟨e, he, h | h | h⟩⟩)
      · exact Or.inl h
      · exact Or.inr (Or.inl ⟨p, hp, h⟩)
      · exact Or.inr (Or.inr (Or.inl ⟨p, hp, h⟩))
      · exact Or.inr (Or.inr (Or.inr (Or.inl ⟨p, hp, e, he, h⟩)))
      · exact Or.inr (Or.inr (Or.inr (Or.inr (Or.inl ⟨p, hp, e, he, h⟩))))
      · exact Or.inr (Or.inr (Or.inr (Or.inr (Or.inr ⟨p, hp, e, he, h⟩))))
    · rintro (h | ⟨p, hp, h⟩ | ⟨p, hp, h⟩ | ⟨p, hp, e, he, h⟩ | ⟨p, hp, e, he, h⟩ |
        ⟨p, hp, e, he, h⟩)
      · exact Or.inl h
      · exact Or.inr ⟨p, hp, Or.inl h⟩
      · exact Or.inr ⟨p, hp, Or.inr (Or.inl h)⟩
      · exact Or.inr ⟨p, hp, Or.inr (Or.inr ⟨e, he, Or.inl h⟩)⟩
      · exact Or.inr ⟨p, hp, Or.inr (Or.inr ⟨e, he, Or.inr (Or.inl h)⟩)⟩
      · exact Or.inr ⟨p, hp, Or.inr (Or.inr ⟨e, he, Or.inr (Or.inr h)⟩)⟩
  refine ⟨hiff, ?_, ?_⟩
  · rintro ⟨p, hp, e, he, hs⟩
    refine hiff.mpr (Or.inr (Or.inr (Or.inr (Or.inr (Or.inr ⟨p, hp, e, he, ?_⟩)))))
    rw [hs]
    decide
  · intro name e hname htype htarget
    refine ⟨?_, ?_, ?_⟩
    · rw [validate_error_iff]
      refine Or.inr ⟨_, List.mem_singleton_self _, Or.inr (Or.inr
        ⟨_, List.mem_singleton_self _, Or.inr (Or.inr ?_)⟩)⟩
      show (59 * Second ≠ 0 ∧ 59 * Second < Minute)
      decide
    · rw [validate_ok_iff]
      unfold Config.Invalid Config.single Endpoint.Invalid
      simp [hname, htype, htarget]
    · rw [validate_ok_iff]
      unfold Config.Invalid Config.single Endpoint.Invalid
      simp [hname, htype, htarget]

/-- Witness of C1: the endpoint `exampleEndpoint` of payer `acme` is rejected with a schedule
of 59 s and accepted with a schedule of one minute or none. -/
theorem validate_error_iff_invalid_witness :
    (∃ err, validate (Config.single "acme" { exampleEndpoint with Schedule := 59 * Second })
        = Except.error err) ∧
      validate (Config.single "acme" { exampleEndpoint with Schedule := Minute })
        = Except.ok () ∧
      validate (Config.single "acme" { exampleEndpoint with Schedule := 0 }) = Except.ok () :=
  (validate_error_iff_invalid (Config.single "acme" exampleEndpoint)).2.2 "acme" exampleEndpoint
    (by decide) (by decide) (by decide)

/-- C2: `Endpoint.GetSchedule` returns 15 minutes for a zero schedule, one minute for every
other schedule below one minute (negative ones included) and the schedule itself otherwise; the
result is never below one minute. -/
theorem GetSchedule_cases (e : Endpoint) :
    (e.Schedule = 0 → e.GetSchedule = 15 * Minute) ∧
      (e.Schedule ≠ 0 → e.Schedule < Minute → e.GetSchedule = Minute) ∧
      (e.Schedule ≠ 0 → Minute ≤ e.Schedule → e.GetSchedule = e.Schedule) ∧
      Minute ≤ e.GetSchedule := by
  unfold Endpoint.GetSchedule
  have hm : Minute = 60000000000 := by decide
  refine ⟨?_, ?_, ?_, ?_⟩
  · intro h0
    rw [if_pos h0]
  · intro h0 hlt
    rw [if_neg h0, if_pos hlt]
  · intro h0 hle
    rw [if_neg h0, if_neg (not_lt.mpr hle)]
  · split_ifs with h0 hlt
    · omega
    · exact le_refl _
    · exact not_lt.mp hlt

/-- Witness of C2: a schedule of minus five nanoseconds is raised to one minute. -/
theorem GetSchedule_cases_witness :
    ({ exampleEndpoint with Schedule := -5 } : Endpoint).GetSchedule = Minute :=
  (GetSchedule_cases { exampleEndpoint with Schedule := -5 }).2.1 (by decide) (by decide)

/-- C3: on every heap reachable from `NewTaskHeap()` by `PushTask` and `PopTask`, `PeekTask`
returns a task of the heap whose `NextRun` is not after that of any task in the heap; `PopTask`
returns the same task and leaves the tasks of the heap without the returned one, one fewer;
`PushTask` adds the pushed task and makes the heap one longer; on an empty heap `PeekTask` and
`PopTask` return nothing and leave the heap empty, and on a non-empty heap `PeekTask` returns a
task. -/
theorem TaskHeap_reachable_contract (h : TaskHeap) (hr : TaskHeap.Reachable h) :
    (∀ t, TaskHeap.PeekTask h = some t → t ∈ h ∧ ∀ u ∈ h, t.NextRun ≤ u.NextRun) ∧
      (TaskHeap.PopTask h).1 = TaskHeap.PeekTask h ∧
      (∀ t, (TaskHeap.PopTask h).1 = some t →
        (t :: (TaskHeap.PopTask h).2).Perm h ∧
          TaskHeap.Len (TaskHeap.PopTask h).2 + 1 = TaskHeap.Len h) ∧
      (∀ x, (TaskHeap.PushTask h x).Perm (x :: h) ∧
        TaskHeap.Len (TaskHeap.PushTask h x) = TaskHeap.Len h + 1) ∧
      (TaskHeap.Len h = 0 →
        TaskHeap.PeekTask h = none ∧ TaskHeap.PopTask h = (none, []) ∧ h = []) ∧
      (0 < TaskHeap.Len h → ∃ t, TaskHeap.PeekTask h = some t) := by
  have hh : IsHeap h := Reachable_isHeap h hr
  refine ⟨?_, PopTask_fst h, ?_, ?_, ?_, ?_⟩
  · intro t ht
    refine ⟨?_, isHeap_peek_le h hh t ht⟩
    rw [PeekTask_eq] at ht
    obtain ⟨h0, heq⟩ := List.getElem?_eq_some.mp ht
    exact heq ▸ List.getElem_mem h0
  · intro t ht
    have hp := PopTask_perm h t ht
    refine ⟨hp, ?_⟩
    have hl := hp.length_eq
    simp only [List.length_cons] at hl
    exact hl
  · intro x
    have hp := PushTask_perm h x
    refine ⟨hp, ?_⟩
    have hl := hp.length_eq
    simp only [List.length_cons] at hl
    exact hl
  · intro h0
    have hnil : h = [] := List.length_eq_zero.mp h0
    subst hnil
    exact ⟨rfl, rfl, rfl⟩
  · intro hpos
    rw [PeekTask_eq]
    exact ⟨h[0], List.getElem?_eq_getElem hpos⟩

theorem exampleHeap_reachable : TaskHeap.Reachable exampleHeap :=
  .pop _ (.push _ _ (.push _ _ (.push _ _ .new)))

/-- Witness of C3: on `exampleHeap` the task returned by `PopTask` is the one `PeekTask`
shows, the task due at 20. -/
theorem TaskHeap_reachable_contract_witness :
    TaskHeap.Reachable exampleHeap ∧
      (TaskHeap.PopTask exampleHeap).1 = TaskHeap.PeekTask exampleHeap ∧
      TaskHeap.PeekTask exampleHeap = some (exampleTask 20) :=
  ⟨exampleHeap_reachable,
    (TaskHeap_reachable_contract exampleHeap exampleHeap_reachable).2.1, by decide⟩

/-- C4: the predicate built by `createPredicate(payers, types)` accepts a result exactly when
(`payers` is empty or holds the result's payer) and (`types` is empty or holds the result's
type); with both lists empty it accepts every result, and with `payers = ["beta"]` it rejects
every result of payer `acme`. -/
theorem createPredicate_iff (payers types : List String) (r : ProbeResult) :
    (createPredicate payers types r = true ↔
        (payers = [] ∨ r.Payer ∈ payers) ∧ (types = [] ∨ r.Type_ ∈ types)) ∧
      createPredicate [] [] r = true ∧
      (r.Payer = "acme" → createPredicate ["beta"] types r = false) := by
  have hiff : ∀ ps ts : List String, createPredicate ps ts r = true ↔
      (ps = [] ∨ r.Payer ∈ ps) ∧ (ts = [] ∨ r.Type_ ∈ ts) := by
    intro ps ts
    unfold createPredicate
    rw [← matchAny_eq_true_iff, ← matchAny_eq_true_iff]
    cases ps <;> cases ts <;> cases matchAny r.Payer _ <;> cases matchAny r.Type_ _ <;> simp
  refine ⟨hiff payers types, (hiff [] []).mpr ⟨Or.inl rfl, Or.inl rfl⟩, ?_⟩
  intro hacme
  cases hc : createPredicate ["beta"] types r with
  | false => rfl
  | true =>
    have h1 := ((hiff ["beta"] types).mp hc).1
    rw [hacme] at h1
    simp at h1

/-- Witness of C4: the filter `payers = ["beta"]` rejects `exampleResult`. -/
theorem createPredicate_iff_witness : createPredicate ["beta"] [] exampleResult = false :=
  (createPredicate_iff [] [] exampleResult).2.2 (by decide)

/-- C5: after `LoadConfig(cfg)`, whatever the scheduler held before, the heap holds one task
per configured endpoint, so as many tasks as the payers have endpoints in total; the tasks
carry, endpoint by endpoint, the name of the payer, the endpoint and `GetSchedule()` of the
endpoint as interval; and the result does not depend on the heap and the limiters held
before, no task of which remains. -/
theorem LoadConfig_heap_contents (s : Scheduler) (cfg : Config) (now : Int)
    (sample : Nat → ℚ) :
    TaskHeap.Len (s.LoadConfig cfg now sample).heap
        = (cfg.Payers.map fun p => p.Endpoints.length).sum ∧
      ((s.LoadConfig cfg now sample).heap.map Task.identity).Perm
        (cfg.Payers.flatMap fun p => p.Endpoints.map fun e => (p.Name, e, e.GetSchedule)) ∧
      (∀ t ∈ (s.LoadConfig cfg now sample).heap,
        (∃ p ∈ cfg.Payers, t.Payer = p.Name ∧ t.Endpoint ∈ p.Endpoints) ∧
          t.Interval = t.Endpoint.GetSchedule) ∧
      (∀ (heap0 : TaskHeap) (limiters0 : List (String × Limiter)),
        ({ s with heap := heap0, limiters := limiters0 } : Scheduler).LoadConfig cfg now sample
          = s.LoadConfig cfg now sample) := by
  have hperm := LoadConfig_identities s cfg now sample
  refine ⟨?_, hperm, ?_, fun _ _ => rfl⟩
  · exact LoadConfig_heap_len s cfg now sample
  · intro t ht
    have h := (LoadConfig_tasks s cfg now sample).2.2.2.2 t ht
    exact ⟨h.1, h.2.1⟩

/-- C6, counterexample: the configuration `duplicateTypeConfig` passes validation and has two
endpoints, and after `LoadConfig` the limiter registry has one entry. -/
theorem LoadConfig_limiters_count_counterexample :
    validate duplicateTypeConfig = Except.ok () ∧
      duplicateTypeConfig.countEndpoints = 2 ∧
      ((New 1000).LoadConfig duplicateTypeConfig 0 (fun _ => 1 / 2)).limiters.length = 1 := by
  refine ⟨rfl, by decide, ?_⟩
  rw [LoadConfig_limiters_length]
  decide

/-- C6, amended: after `LoadConfig(cfg)` the limiter registry has one entry per distinct key
`payer:type` among the endpoints of `cfg`, and every endpoint finds a limiter under its key;
the number of entries is at most the total number of endpoints, and equal to it when the keys
of the endpoints are pairwise distinct. -/
theorem LoadConfig_limiters_distinct_keys (s : Scheduler) (cfg : Config) (now : Int)
    (sample : Nat → ℚ) :
    (s.LoadConfig cfg now sample).limiters.length = cfg.limiterKeys.toFinset.card ∧
      (∀ p ∈ cfg.Payers, ∀ e ∈ p.Endpoints,
        getLimiterKey p.Name e.Type_ ∈ (s.LoadConfig cfg now sample).limiters.map Prod.fst) ∧
      (s.LoadConfig cfg now sample).limiters.length ≤ cfg.countEndpoints ∧
      (cfg.limiterKeys.Nodup →
        (s.LoadConfig cfg now sample).limiters.length = cfg.countEndpoints) := by
  have hlen := LoadConfig_limiters_length s cfg now sample
  refine ⟨hlen, ?_, ?_, ?_⟩
  · intro p hp e he
    rw [LoadConfig_keys]
    unfold Config.limiterKeys
    exact List.mem_flatMap.mpr ⟨p, hp, List.mem_map_of_mem _ he⟩
  · rw [hlen, ← limiterKeys_length]
    exact List.toFinset_card_le _
  · intro hnd
    rw [hlen, List.toFinset_card_of_nodup hnd, limiterKeys_length]

/-- Witness of C6, amended: the two endpoints of `exampleConfig` have distinct keys and the
registry gets two entries. -/
theorem LoadConfig_limiters_distinct_keys_witness :
    exampleConfig.limiterKeys.Nodup ∧
      ((New 1000).LoadConfig exampleConfig 0 (fun _ => 1 / 2)).limiters.length
        = exampleConfig.countEndpoints :=
  ⟨by decide,
    (LoadConfig_limiters_distinct_keys (New 1000) exampleConfig 0 (fun _ => 1 / 2)).2.2.2
      (by decide)⟩

/-- C7, the code at the failing input. The configuration of the single endpoint
`hugeEndpoint`, whose schedule is the longest duration 2^63 - 1 ns, passes validation. With the
jitter fraction of `New` and the sample 3/4, `addJitter` of that duration computes the jitter
461168601842738816 ns in float64, the int64 sum `duration + time.Duration(jitter)` wraps, and
the result is -8762203435012036993 ns: negative, and away from the duration by more than the
jitter fraction of it. -/
theorem addJitter_wraps_at_longest_duration :
    validate (Config.single "acme" hugeEndpoint) = Except.ok () ∧
      hugeEndpoint.GetSchedule = 9223372036854775807 ∧
      (New 1000).addJitter (3 / 4) 9223372036854775807 = -8762203435012036993 ∧
      ¬ |(((New 1000).addJitter (3 / 4) 9223372036854775807 : Int) : ℚ) - 9223372036854775807|
          ≤ (New 1000).jitterPct * 9223372036854775807 := by
  refine ⟨rfl, by decide, addJitter_maxDuration_late _ rfl, ?_⟩
  rw [addJitter_maxDuration_late _ rfl]
  show ¬ |((-8762203435012036993 : Int) : ℚ) - 9223372036854775807|
      ≤ roundFloat64 (1 / 10) * 9223372036854775807
  rw [roundFloat64_tenth]
  norm_num [abs_of_neg]

/-- With the jitter fraction of `New`, a duration `d` between zero and `safeDuration` (2^50 ns)
and a sample `u` with `0 ≤ u < 1`, `addJitter(d)` lies between `0.9 * d` and `1.1 * d`; and
with a jitter fraction of zero `addJitter(d)` is `d` for every duration. -/
theorem addJitter_within_tenth (s : Scheduler) (u : ℚ) (d : Int) (hd : 0 ≤ d)
    (hds : d ≤ safeDuration) (hu0 : 0 ≤ u) (hu1 : u < 1) :
    (s.jitterPct = roundFloat64 (1 / 10) →
        (9 / 10 : ℚ) * d ≤ ((s.addJitter u d : Int) : ℚ) ∧
          ((s.addJitter u d : Int) : ℚ) ≤ (11 / 10 : ℚ) * d) ∧
      (s.jitterPct = 0 → s.addJitter u d = d) := by
  constructor
  · intro hj
    obtain ⟨h1, h2⟩ := addJitter_bounds s u d hj hd hds hu0 hu1
    have h1q : ((9 * d : Int) : ℚ) ≤ ((10 * s.addJitter u d : Int) : ℚ) := by exact_mod_cast h1
    have h2q : ((10 * s.addJitter u d : Int) : ℚ) ≤ ((11 * d : Int) : ℚ) := by exact_mod_cast h2
    push_cast at h1q h2q
    constructor <;> linarith
  · intro hj
    exact addJitter_of_nonpos s u d (le_of_eq hj)

/-- C8, the code at the failing input. The configuration of the single endpoint `hugeEndpoint`
passes validation; `LoadConfig` at the instant zero, with the sample 3/4, puts its task in the
heap with a `NextRun` about 277 years before the load instant, so the task is due at the load
instant; and the tick 100 ms after the load takes the task and sends it on the channel. -/
theorem LoadConfig_first_run_before_load :
    validate (Config.single "acme" hugeEndpoint) = Except.ok () ∧
      (New 1000).LoadConfig (Config.single "acme" hugeEndpoint) 0 (fun _ => 3 / 4)
        = hugeState (-8762203435012036993) [] ∧
      (∀ t ∈ ((New 1000).LoadConfig (Config.single "acme" hugeEndpoint) 0
          (fun _ => 3 / 4)).heap,
        t.NextRun < 0 ∧ t.Endpoint.GetSchedule = 9223372036854775807) ∧
      overflowEnv.now = 100000000 ∧
      (∃ s2, (hugeState (-8762203435012036993) []).processNextTasks overflowEnv 3
          = some (s2, [overflowEvent0, overflowEvent1])) ∧
      overflowEvent0.task ∈ (hugeState (-8762203435012036993) []).heap ∧
      overflowEvent0.outcome = Outcome.sent := by
  refine ⟨rfl, hugeState_loaded, ?_, rfl, ⟨_, overflow_run⟩, by decide, rfl⟩
  rw [hugeState_loaded]
  intro t ht
  have ht2 : t = hugeTask (-8762203435012036993) := by
    simpa [hugeState] using ht
  subst ht2
  exact ⟨by decide, by decide⟩

/-- With the jitter fraction of `New`, samples in range and schedules of at most `safeDuration`,
every task that `LoadConfig(cfg)` puts in the heap at the instant `now` has its `NextRun`
between `now + 0.9 * GetSchedule()` and `now + 1.1 * GetSchedule()` of its endpoint, so after
`now`; a tick on the loaded scheduler takes a task from the heap only at
`0.9 * GetSchedule()` after `now` or later, and a tick at the load instant or before takes
none. -/
theorem LoadConfig_first_run_bounds (s : Scheduler) (cfg : Config) (now : Int)
    (sample : Nat → ℚ) (hj : s.jitterPct = roundFloat64 (1 / 10))
    (hb : cfg.SchedulesAtMost safeDuration) (hs : ∀ k, 0 ≤ sample k ∧ sample k < 1) :
    (∀ t ∈ (s.LoadConfig cfg now sample).heap,
      (now : ℚ) + 9 / 10 * (t.Endpoint.GetSchedule : ℚ) ≤ (t.NextRun : ℚ) ∧
        (t.NextRun : ℚ) ≤ (now : ℚ) + 11 / 10 * (t.Endpoint.GetSchedule : ℚ) ∧
        now < t.NextRun) ∧
      (∀ env : TickEnv, env.SamplesInRange →
        ∃ s2 log,
          (∀ fuel, TaskHeap.Len (s.LoadConfig cfg now sample).heap + 1 ≤ fuel →
            (s.LoadConfig cfg now sample).processNextTasks env fuel = some (s2, log)) ∧
          (∀ e ∈ log,
            (now : ℚ) + 9 / 10 * (e.task.Endpoint.GetSchedule : ℚ) ≤ (env.now : ℚ)) ∧
          (env.now ≤ now → log = [])) := by
  have hbound : ∀ t ∈ (s.LoadConfig cfg now sample).heap,
      (now : ℚ) + 9 / 10 * (t.Endpoint.GetSchedule : ℚ) ≤ (t.NextRun : ℚ) ∧
        (t.NextRun : ℚ) ≤ (now : ℚ) + 11 / 10 * (t.Endpoint.GetSchedule : ℚ) ∧
        now < t.NextRun := by
    intro t ht
    obtain ⟨⟨p, hp, _, he⟩, hint, k, hnr⟩ := (LoadConfig_tasks s cfg now sample).2.2.2.2 t ht
    have hmin := GetSchedule_ge_minute t.Endpoint
    have hpos : (0 : Int) ≤ t.Endpoint.GetSchedule := le_trans (le_of_lt Minute_pos) hmin
    obtain ⟨h1, h2⟩ := (addJitter_within_tenth s (sample k) t.Endpoint.GetSchedule hpos
      (hb p hp _ he) (hs k).1 (hs k).2).1 hj
    have hnrq : (t.NextRun : ℚ)
        = (now : ℚ) + ((s.addJitter (sample k) t.Endpoint.GetSchedule : Int) : ℚ) := by
      rw [hnr, hint]
      push_cast
      rfl
    have hminq : (0 : ℚ) < (t.Endpoint.GetSchedule : ℚ) := by
      exact_mod_cast lt_of_lt_of_le Minute_pos hmin
    refine ⟨by linarith, by linarith, ?_⟩
    have hq : (now : ℚ) < (t.NextRun : ℚ) := by linarith
    exact_mod_cast hq
  refine ⟨hbound, ?_⟩
  intro env henv
  have hw := LoadConfig_wellFormed s cfg now sample hj hb
  obtain ⟨s2, log, hrun, _, _, _, _, ⟨rest, hpa, _, _⟩, hevs, _⟩ :=
    processNextTasks_spec (s.LoadConfig cfg now sample) env hw henv
  have hlog : ∀ e ∈ log,
      (now : ℚ) + 9 / 10 * (e.task.Endpoint.GetSchedule : ℚ) ≤ (env.now : ℚ) := by
    intro e he
    have hmem : e.task ∈ (s.LoadConfig cfg now sample).heap :=
      hpa.symm.subset (List.mem_append_left _ (List.mem_map_of_mem _ he))
    obtain ⟨i, hi, hie⟩ := List.getElem_of_mem he
    have hdue := (hevs i e (by rw [List.getElem?_eq_getElem hi, hie])).1.1
    have hdueq : (e.task.NextRun : ℚ) ≤ (env.now : ℚ) := by exact_mod_cast hdue
    exact le_trans (hbound e.task hmem).1 hdueq
  refine ⟨s2, log, hrun, hlog, ?_⟩
  intro hle
  cases hl : log with
  | nil => rfl
  | cons e rest2 =>
    exfalso
    have h1 := hlog e (by rw [hl]; exact List.mem_cons_self _ _)
    have hleq : (env.now : ℚ) ≤ (now : ℚ) := by exact_mod_cast hle
    have hminq : (0 : ℚ) < (e.task.Endpoint.GetSchedule : ℚ) := by
      exact_mod_cast lt_of_lt_of_le Minute_pos (GetSchedule_ge_minute e.task.Endpoint)
    linarith

theorem exampleConfig_schedules : exampleConfig.SchedulesAtMost safeDuration := by
  intro p hp e he
  simp only [exampleConfig, List.mem_singleton] at hp
  subst hp
  simp only [List.mem_cons, List.mem_singleton, List.not_mem_nil, or_false] at he
  rcases he with rfl | rfl <;> decide

/-- C9, counterexample: the task of `lateTickState`, probed every minute and due at the
instant zero, is taken by the tick `lateTickEnv` 50 ms later and put back with a `NextRun`
66.03828125 s after the previous one, more than 1.1 times the interval. The state is the one
that `LoadConfig` builds a minute earlier. -/
theorem reschedule_delta_counterexample :
    (New 1000).LoadConfig (Config.single "acme" minuteEndpoint) (-60000000000)
        (fun _ => 1 / 2) = lateTickState ∧
      lateTickState.processNextTasks lateTickEnv 2
        = some (lateTickStateAfter, [lateTickEvent]) ∧
      (11 / 10 : ℚ) * (lateTickEvent.task.Interval : ℚ)
        < (lateTickEvent.nextRun : ℚ) - (lateTickEvent.task.NextRun : ℚ) := by
  refine ⟨lateTickState_loaded, lateTick_run, ?_⟩
  norm_num [lateTickEvent, exampleTask, Minute, Second]

/-- C9, amended: on a scheduler with the jitter fraction of `New` whose tasks have intervals of
at most `safeDuration` (2^50 ns), every time the tick loop takes a task with interval `I` and
puts it back, the new `NextRun` minus the tick time `now` lies between `0.9 * I` and
`1.1 * I`; the task was due, so the new `NextRun` minus the previous one is at least
`0.9 * I`, and it is at most `1.1 * I` plus the time by which the tick came after the previous
`NextRun`. -/
theorem reschedule_delta_bounds (s : Scheduler) (env : TickEnv) (hw : s.WellFormed)
    (hs : env.SamplesInRange) :
    ∃ s2 log,
      (∀ fuel, TaskHeap.Len s.heap + 1 ≤ fuel → s.processNextTasks env fuel = some (s2, log)) ∧
      ∀ e ∈ log, e.task ∈ s.heap ∧ e.rescheduled ∈ s2.heap ∧ e.task.NextRun ≤ env.now ∧
        (9 / 10 : ℚ) * (e.task.Interval : ℚ) ≤ (e.nextRun : ℚ) - (env.now : ℚ) ∧
        (e.nextRun : ℚ) - (env.now : ℚ) ≤ (11 / 10 : ℚ) * (e.task.Interval : ℚ) ∧
        (9 / 10 : ℚ) * (e.task.Interval : ℚ) ≤ (e.nextRun : ℚ) - (e.task.NextRun : ℚ) ∧
        (e.nextRun : ℚ) - (e.task.NextRun : ℚ)
          ≤ (11 / 10 : ℚ) * (e.task.Interval : ℚ)
            + ((env.now : ℚ) - (e.task.NextRun : ℚ)) := by
  obtain ⟨s2, log, hrun, _, _, _, _, ⟨rest, hpa, hpb, _⟩, hevs, _⟩ :=
    processNextTasks_spec s env hw hs
  refine ⟨s2, log, hrun, ?_⟩
  intro e he
  have hmem : e.task ∈ s.heap :=
    hpa.symm.subset (List.mem_append_left _ (List.mem_map_of_mem _ he))
  have hmem2 : e.rescheduled ∈ s2.heap :=
    hpb.symm.subset (List.mem_append_left _ (List.mem_map_of_mem _ he))
  obtain ⟨i, hi, hie⟩ := List.getElem_of_mem he
  obtain ⟨hdue, hnr, _⟩ := (hevs i e (by rw [List.getElem?_eq_getElem hi, hie])).1
  obtain ⟨h1, h2⟩ := (addJitter_within_tenth s (env.sample i) e.task.Interval
    (le_of_lt (hw.2.1 e.task hmem).1) (hw.2.1 e.task hmem).2 (hs i).1 (hs i).2).1 hw.2.2
  have hnrq : (e.nextRun : ℚ)
      = (env.now : ℚ) + ((s.addJitter (env.sample i) e.task.Interval : Int) : ℚ) := by
    rw [hnr]
    push_cast
    rfl
  have hdueq : (e.task.NextRun : ℚ) ≤ (env.now : ℚ) := by exact_mod_cast hdue
  refine ⟨hmem, hmem2, hdue, by linarith, by linarith, by linarith, by linarith⟩

/-- Witness of C9, amended: the tick `exampleEnv` on the scheduler loaded with
`exampleConfig` returns within three rounds. -/
theorem reschedule_delta_bounds_witness :
    ∃ s2 log, ((New 1000).LoadConfig exampleConfig 0 (fun _ => 1 / 2)).processNextTasks
      exampleEnv 3 = some (s2, log) := by
  obtain ⟨s2, log, hrun, _⟩ :=
    reschedule_delta_bounds ((New 1000).LoadConfig exampleConfig 0 (fun _ => 1 / 2)) exampleEnv
      (LoadConfig_wellFormed _ _ _ _ rfl exampleConfig_schedules)
      (fun _ => by norm_num [exampleEnv])
  refine ⟨s2, log, hrun 3 ?_⟩
  rw [LoadConfig_heap_len (New 1000) exampleConfig 0 (fun _ => 1 / 2)]
  decide

/-- C10: a call of `processNextTasks` puts every task it takes from the heap back, whatever the
outcome of the dispatch. On every scheduler, when the call returns: the heap after has the size
of the heap before and the same payers, endpoints and intervals; a task of the heap after is a
task of the heap before or a task put back, which differs from the task taken in its `NextRun`
only; the limiters are untouched; an event is a send exactly when the limiter of the task
exists, `Allow()` returned true and the channel held fewer tasks than its capacity; and the
channel ends up with an end of its former content followed by the tasks sent. On a well-formed
scheduler, with samples in range, the call returns when its loop is given one round more than
there are tasks, and the heap is made of the popped tasks, changed in their `NextRun` only,
and of the other tasks unchanged. -/
theorem processNextTasks_reinserts (s : Scheduler) (env : TickEnv) :
    (∀ fuel s2 log, s.processNextTasks env fuel = some (s2, log) →
      TaskHeap.Len s2.heap = TaskHeap.Len s.heap ∧
        (s2.heap.map Task.identity).Perm (s.heap.map Task.identity) ∧
        (∀ t ∈ s2.heap, t ∈ s.heap ∨ ∃ e ∈ log, t = e.rescheduled) ∧
        (∀ e ∈ log, (e.task ∈ s.heap ∨ ∃ e2 ∈ log, e.task = e2.rescheduled) ∧
          e.rescheduled.identity = e.task.identity ∧ e.rescheduled.NextRun = e.nextRun) ∧
        s2.limiters = s.limiters ∧
        (∀ i e, log[i]? = some e →
          e.limiter = mapGet s.limiters (getLimiterKey e.task.Payer e.task.Endpoint.Type_) ∧
            e.allowed = env.allow i ∧
            (e.outcome = Outcome.sent ↔
              e.limiter.isSome = true ∧ e.allowed = true ∧ e.chanLen < s.taskChanCap)) ∧
        (∃ R, s2.taskChan = (s.taskChan ++ (sentTasks log).map Task.identity).drop R)) ∧
      (s.WellFormed → env.SamplesInRange →
        ∃ s2 log,
          (∀ fuel, TaskHeap.Len s.heap + 1 ≤ fuel →
            s.processNextTasks env fuel = some (s2, log)) ∧
          ∃ rest, s.heap.Perm (log.map TickEvent.task ++ rest) ∧
            s2.heap.Perm (log.map TickEvent.rescheduled ++ rest)) := by
  constructor
  · intro fuel s2 log hrun
    unfold Scheduler.processNextTasks at hrun
    obtain ⟨evs, hlog, hl, _, _, hids, hmem, htasks, hevs, hchan⟩ :=
      processLoop_frame env fuel 0 s [] s2 log hrun
    rw [List.nil_append] at hlog
    subst hlog
    refine ⟨?_, hids, hmem, fun e he => ⟨htasks e he, rfl, rfl⟩, hl, ?_, hchan⟩
    · have := hids.length_eq
      simpa [TaskHeap.Len] using this
    · intro i e he
      have h := hevs i e he
      rw [Nat.zero_add] at h
      obtain ⟨_, _, h3, h4, h5, _⟩ := h
      exact ⟨h3, h4, h5⟩
  · intro hw hs
    obtain ⟨s2, log, hrun, _, _, _, _, ⟨rest, hpa, hpb, _⟩, _, _⟩ :=
      processNextTasks_spec s env hw hs
    exact ⟨s2, log, hrun, rest, hpa, hpb⟩

/-- Witness of C10: the tick `exampleEnv` on the scheduler loaded with `exampleConfig` returns
within three rounds and leaves two tasks in the heap. -/
theorem processNextTasks_reinserts_witness :
    ∃ s2 log, ((New 1000).LoadConfig exampleConfig 0 (fun _ => 1 / 2)).processNextTasks
      exampleEnv 3 = some (s2, log) ∧ TaskHeap.Len s2.heap = 2 := by
  obtain ⟨s2, log, hrun, _⟩ :=
    (processNextTasks_reinserts ((New 1000).LoadConfig exampleConfig 0 (fun _ => 1 / 2))
      exampleEnv).2 (LoadConfig_wellFormed _ _ _ _ rfl exampleConfig_schedules)
      (fun _ => by norm_num [exampleEnv])
  have hlen : TaskHeap.Len ((New 1000).LoadConfig exampleConfig 0 (fun _ => 1 / 2)).heap = 2 := by
    rw [LoadConfig_heap_len (New 1000) exampleConfig 0 (fun _ => 1 / 2)]
    rfl
  have hrun3 := hrun 3 (by rw [hlen])
  refine ⟨s2, log, hrun3, ?_⟩
  rw [((processNextTasks_reinserts ((New 1000).LoadConfig exampleConfig 0 (fun _ => 1 / 2))
    exampleEnv).1 3 s2 log hrun3).1, hlen]
/-- C11: on a valid hub, `broadcastToClients(r)` returns and deals with each client on its
own: a client that is not in the map or whose predicate rejects `r` is left as it is, in the
map or out of it; a client in the map whose predicate accepts `r` and whose queue holds fewer
than 256 results gets `r` at the tail of its queue and stays in the map, its queue open; a
client in the map whose predicate accepts `r` and whose queue is full leaves the map with its
queue closed and without `r`. -/
theorem broadcastToClients_per_client (h : Hub) (r : ProbeResult) (hv : h.Valid) :
    ∃ h2, h.broadcastToClients r = .ok h2 ∧ ∀ p,
      ((p ∉ h.clients ∨ (h.mem p).predicate r = false) →
        h2.mem p = h.mem p ∧ (p ∈ h2.clients ↔ p ∈ h.clients)) ∧
      (p ∈ h.clients → (h.mem p).predicate r = true → (h.mem p).send.len < 256 →
        p ∈ h2.clients ∧ (h2.mem p).send.enqueued = (h.mem p).send.enqueued ++ [r] ∧
          (h2.mem p).send.taken = (h.mem p).send.taken ∧
          (h2.mem p).send.closed = false ∧ (h2.mem p).predicate = (h.mem p).predicate) ∧
      (p ∈ h.clients → (h.mem p).predicate r = true → ¬ (h.mem p).send.len < 256 →
        p ∉ h2.clients ∧ (h2.mem p).send.closed = true ∧
          (h2.mem p).send.enqueued = (h.mem p).send.enqueued) := by
  obtain ⟨hnd, hmem, _, _⟩ := hv
  obtain ⟨h2, hb, hmem2, hcl2, _, _⟩ :=
    broadcastToClients_spec h r hnd (fun p hp => (hmem p hp).2.1)
  have hin : ∀ p, p ∈ h2.clients ↔ p ∈ h.clients ∧ (h.mem p).evictedBy r = false := by
    intro p
    rw [hcl2, List.mem_filter]
    simp
  refine ⟨h2, hb, fun p => ⟨?_, ?_, ?_⟩⟩
  · intro hcase
    rcases hcase with hp | hpred
    · refine ⟨by rw [hmem2, if_neg hp], ?_⟩
      rw [hin]
      exact ⟨fun hc => hc.1, fun hc => absurd hc hp⟩
    · have hev : (h.mem p).evictedBy r = false := by
        unfold Client.evictedBy
        rw [hpred]
        rfl
      refine ⟨?_, ?_⟩
      · rw [hmem2]
        split_ifs
        · unfold Client.afterBroadcast
          simp [hpred]
        · rfl
      · rw [hin]
        exact ⟨fun hc => hc.1, fun hc => ⟨hc, hev⟩⟩
  · intro hp hpred hroom
    have hcap := (hmem p hp).2.2
    have hroom2 : (h.mem p).send.len < (h.mem p).send.cap := by rw [hcap]; exact hroom
    have hev : (h.mem p).evictedBy r = false := by
      unfold Client.evictedBy
      simp [hroom2]
    obtain ⟨e1, _, _, e4, e5, e6⟩ := afterBroadcast_fields (h.mem p) r
    rw [hmem2, if_pos hp, e4, e5, e6, e1, hev, (hmem p hp).2.1, if_pos ⟨hpred, hroom2⟩]
    exact ⟨(hin p).mpr ⟨hp, hev⟩, rfl, rfl, rfl, rfl⟩
  · intro hp hpred hfull
    have hcap := (hmem p hp).2.2
    have hfull2 : ¬ (h.mem p).send.len < (h.mem p).send.cap := by rw [hcap]; exact hfull
    have hev : (h.mem p).evictedBy r = true := by
      unfold Client.evictedBy
      simp [hpred, hfull2]
    obtain ⟨_, _, _, _, e5, e6⟩ := afterBroadcast_fields (h.mem p) r
    rw [hmem2, if_pos hp, e5, e6, hev, if_neg (fun hc => hfull2 hc.2)]
    refine ⟨fun hc => ?_, by simp, by simp⟩
    have := ((hin p).mp hc).2
    rw [hev] at this
    cases this

theorem exampleHub_valid : exampleHub.Valid := by
  refine ⟨?_, ?_, ?_, ?_⟩
  · exact List.nodup_singleton 0
  · intro p hp
    have hp0 : p = 0 := by simpa [exampleHub] using hp
    subst hp0
    exact ⟨by decide, rfl, rfl⟩
  · intro hf
    have hrun : exampleHub.running = true := rfl
    rw [hrun] at hf
    cases hf
  · intro p hp
    have hne : p ≠ 0 := by
      have : 1 ≤ p := hp
      omega
    show (Function.update Hub.New.mem 0 (newClient "c0") p).send.enqueued = []
    rw [Function.update_noteq hne]
    rfl

/-- Witness of C11: the client of `exampleHub` gets `exampleResult` at the tail of its empty
queue. -/
theorem broadcastToClients_per_client_witness :
    ∃ h2, exampleHub.broadcastToClients exampleResult = .ok h2 ∧
      (h2.mem 0).send.enqueued = [exampleResult] := by
  obtain ⟨h2, hb, hall⟩ := broadcastToClients_per_client exampleHub exampleResult exampleHub_valid
  exact ⟨h2, hb, ((hall 0).2.1 (by decide) rfl (by decide)).2.1⟩

/-- C12: every sequence of events on the hub of `New` runs without a panic, so without a
second `close` of a send queue and without a send on a closed one, and ends in a hub where
every client of the map has an open send queue; there every event is handled without a panic,
a send queue that the event closes belongs to a client that the event takes out of the map,
and an `unregister` of a client that is not in the map changes nothing. -/
theorem hub_closes_each_queue_once (evs : List HubEvent) :
    ∃ h, Hub.run Hub.New evs = .ok h ∧
      (∀ p ∈ h.clients, (h.mem p).send.closed = false) ∧
      ∀ ev, ∃ h2, h.step ev = .ok h2 ∧
        (∀ p ∈ h2.clients, (h2.mem p).send.closed = false) ∧
        (∀ p, (h.mem p).send.closed = false → (h2.mem p).send.closed = true →
          p ∈ h.clients ∧ p ∉ h2.clients) ∧
        (∀ p, ev = HubEvent.unregister p → p ∉ h.clients → h2 = h) := by
  obtain ⟨h, hrun, hv, _⟩ := run_valid evs Hub.New New_valid
  refine ⟨h, hrun, fun p hp => (hv.2.1 p hp).2.1, ?_⟩
  intro ev
  obtain ⟨h2, hs, hv2, _, hclose, _, _⟩ := step_facts h ev hv
  refine ⟨h2, hs, fun p hp => (hv2.2.1 p hp).2.1, hclose, ?_⟩
  intro p hev hp
  subst hev
  obtain ⟨h3, hs3, _, hsame⟩ := step_unregister h p hv
  rw [hs] at hs3
  rw [Except.ok.inj hs3]
  exact hsame hp

/-- C13: over a sequence of events on a valid hub, the results sent on the queue of a client
are a part, in the same order, of the results broadcast, and the results that its write loop
received are the first of those sent; for a client that is in the map at both ends and whose
read loop handled no `subscribe` message, the results sent are exactly the broadcast results
that its predicate accepts. -/
theorem enqueued_is_subsequence (evs : List HubEvent) (h h2 : Hub) (hv : h.Valid)
    (hrun : Hub.run h evs = .ok h2) (p : Nat) :
    ∃ d, (h2.mem p).send.enqueued = (h.mem p).send.enqueued ++ d ∧
      d.Sublist (broadcastsOf evs) ∧
      (h2.mem p).send.received <+: (h2.mem p).send.enqueued ∧
      (p ∈ h.clients → p ∈ h2.clients → ¬ subscribesTo p evs →
        d = (broadcastsOf evs).filter (h.mem p).predicate) := by
  obtain ⟨d, he, hsub, hex⟩ := run_enqueued evs h h2 hv hrun p
  exact ⟨d, he, hsub, List.take_prefix _ _, fun h1 h2m h3 => (hex h1 h2m h3).1⟩

/-- Witness of C13: after a broadcast of `exampleResult` on `exampleHub`, the queue of the
client, which accepts every result, was sent `exampleResult`. -/
theorem enqueued_is_subsequence_witness :
    ∃ h2, Hub.run exampleHub [HubEvent.broadcast exampleResult] = .ok h2 ∧
      ∃ d, (h2.mem 0).send.enqueued = (exampleHub.mem 0).send.enqueued ++ d ∧
        d.Sublist [exampleResult] := by
  obtain ⟨h2, hrun, _⟩ := run_valid [HubEvent.broadcast exampleResult] exampleHub
    exampleHub_valid
  obtain ⟨d, he, hsub, _⟩ := enqueued_is_subsequence [HubEvent.broadcast exampleResult]
    exampleHub h2 exampleHub_valid hrun 0
  exact ⟨h2, hrun, d, he, hsub⟩

/-- C14: whatever the HTTP layer does, the result of `ProbeTask` has the payer of the task
and the type of its endpoint; when building the request fails, or when the request fails,
`StatusCode` is 0 and `Err` is not empty; when a response with the status code `s` comes
back, `StatusCode` is `s`, for every `s`, and `Err` is empty. So `Err` is not empty exactly
when no response came back. -/
theorem ProbeTask_result (env : ProbeEnv) (task : Task) :
    (ProbeTask env task).Payer = task.Payer ∧
      (ProbeTask env task).Type_ = task.Endpoint.Type_ ∧
      (∀ err, createRequest env task.Endpoint = .error err →
        (ProbeTask env task).StatusCode = 0 ∧ (ProbeTask env task).Err ≠ "") ∧
      (∀ req err, createRequest env task.Endpoint = .ok req → env.clientDo req = .error err →
        (ProbeTask env task).StatusCode = 0 ∧ (ProbeTask env task).Err ≠ "") ∧
      (∀ req s, createRequest env task.Endpoint = .ok req → env.clientDo req = .ok s →
        (ProbeTask env task).StatusCode = s ∧ (ProbeTask env task).Err = "") ∧
      ((ProbeTask env task).Err ≠ "" ↔
        ¬ ∃ req s, createRequest env task.Endpoint = .ok req ∧ env.clientDo req = .ok s) := by
  obtain ⟨hbuild, hfail, hresp⟩ := ProbeTask_cases env task
  have h1 : ∀ err, createRequest env task.Endpoint = .error err →
      (ProbeTask env task).StatusCode = 0 ∧ (ProbeTask env task).Err ≠ "" := by
    intro err h
    rw [hbuild err h]
    exact ⟨rfl, append_ne_empty _ _ (by decide)⟩
  have h2 : ∀ req err, createRequest env task.Endpoint = .ok req →
      env.clientDo req = .error err →
      (ProbeTask env task).StatusCode = 0 ∧ (ProbeTask env task).Err ≠ "" := by
    intro req err h hd
    rw [hfail req err h hd]
    exact ⟨rfl, append_ne_empty _ _ (by decide)⟩
  have h3 : ∀ req s, createRequest env task.Endpoint = .ok req → env.clientDo req = .ok s →
      (ProbeTask env task).StatusCode = s ∧ (ProbeTask env task).Err = "" := by
    intro req s h hd
    rw [hresp req s h hd]
    exact ⟨rfl, rfl⟩
  refine ⟨?_, ?_, h1, h2, h3, ?_⟩
  · cases hc : createRequest env task.Endpoint with
    | error err => rw [hbuild err hc]
    | ok req =>
      cases hd : env.clientDo req with
      | error err => rw [hfail req err hc hd]
      | ok s => rw [hresp req s hc hd]
  · cases hc : createRequest env task.Endpoint with
    | error err => rw [hbuild err hc]
    | ok req =>
      cases hd : env.clientDo req with
      | error err => rw [hfail req err hc hd]
      | ok s => rw [hresp req s hc hd]
  · constructor
    · rintro hne ⟨req, s, hc, hd⟩
      exact hne (h3 req s hc hd).2
    · intro hno
      cases hc : createRequest env task.Endpoint with
      | error err => exact (h1 err hc).2
      | ok req =>
        cases hd : env.clientDo req with
        | error err => exact (h2 req err hc hd).2
        | ok s => exact absurd ⟨req, s, hc, hd⟩ hno

/-- Witness of C14: in `exampleProbeEnv` the probe of a task on `https://example.test` gets
the status 200 and no error. -/
theorem ProbeTask_result_witness :
    (ProbeTask exampleProbeEnv (exampleTask 0)).StatusCode = 200 ∧
      (ProbeTask exampleProbeEnv (exampleTask 0)).Err = "" :=
  (ProbeTask_result exampleProbeEnv (exampleTask 0)).2.2.2.2.1
    { Method := "GET", URL := "https://example.test",
      Header := [("User-Agent", "Payer-Status-Monitor/1.0"),
                 ("Accept", "text/html,application/json,*/*"),
                 ("Cache-Control", "no-cache")] } 200 rfl rfl

/-- C15, the code at the failing input: before the fifth redirect, with the five requests
made so far in `via`, `CheckRedirect` returns the error `too many redirects`; before the
fourth, with four requests, it returns no error. -/
theorem CheckRedirect_fifth_redirect_refused :
    CheckRedirect (List.replicate 5 exampleRequest) = some "too many redirects" ∧
      CheckRedirect (List.replicate 4 exampleRequest) = none ∧
      ∀ via : List Request, CheckRedirect via = none ↔ via.length < 5 := by
  refine ⟨by decide, by decide, ?_⟩
  intro via
  unfold CheckRedirect
  by_cases h : via.length ≥ 5
  · simp [h]
  · simp [h]
    omega

/-- C16, counterexample: the configuration `duplicatePayerConfig` passes validation and has
two payers of the name `acme`. -/
theorem validate_payer_names_counterexample :
    validate duplicatePayerConfig = Except.ok () ∧
      ¬ (duplicatePayerConfig.Payers.map Payer.Name).Nodup :=
  ⟨rfl, by decide⟩

/-- C16, amended: in every configuration that `validate` accepts, the names of the payers are
not empty. -/
theorem validate_payer_names_nonempty (c : Config) (h : validate c = Except.ok ()) :
    ∀ p ∈ c.Payers, p.Name ≠ "" := by
  intro p hp hname
  exact (validate_ok_iff c).mp h (Or.inr ⟨p, hp, Or.inl hname⟩)

/-- Witness of C16, amended: the configuration of the single payer `acme` is accepted and its
payer has a name. -/
theorem validate_payer_names_nonempty_witness :
    validate (Config.single "acme" exampleEndpoint) = Except.ok () ∧
      (Payer.mk "acme" [exampleEndpoint]).Name ≠ "" :=
  ⟨rfl, validate_payer_names_nonempty (Config.single "acme" exampleEndpoint) rfl _
    (List.mem_singleton_self _)⟩

/-- C17, the code at the failing input: after the message
`{"action":"subscribe","payer":["beta"]}` the predicate of a new client accepts the result
`exampleResult` of payer `acme`, the key `payer` being ignored; after the same message with
the key `payers` it rejects the result. -/
theorem handleSubscriptionUpdate_payer_key_ignored :
    ((newClient "c0").handleSubscriptionUpdate payerKeyMessage).predicate exampleResult = true ∧
      ((newClient "c0").handleSubscriptionUpdate payersKeyMessage).predicate exampleResult
        = false ∧
      readStringList payerKeyMessage "payers" = [] :=
  ⟨by decide, by decide, by decide⟩

/-- C18: when the message has no `action`, or an `action` that is not the string `subscribe`,
`handleSubscriptionUpdate` leaves the client as it is; when the `action` is `subscribe`, the
predicate becomes `createPredicate(P, T)` for the string elements `P` and `T` under `payers`
and `types`, whatever the predicate was, and nothing else changes. -/
theorem handleSubscriptionUpdate_cases (c : Client) (msg : Message) :
    (msgGet msg "action" ≠ some (JsonValue.string "subscribe") →
        c.handleSubscriptionUpdate msg = c) ∧
      (msgGet msg "action" = some (JsonValue.string "subscribe") →
        c.handleSubscriptionUpdate msg =
          { c with predicate :=
              createPredicate (readStringList msg "payers") (readStringList msg "types") }) ∧
      (msgGet msg "action" = some (JsonValue.string "subscribe") →
        ∀ c2 : Client,
          (c.handleSubscriptionUpdate msg).predicate
            = (c2.handleSubscriptionUpdate msg).predicate) ∧
      (c.handleSubscriptionUpdate msg).send = c.send ∧
      (c.handleSubscriptionUpdate msg).id = c.id := by
  have hsub : ∀ c1 : Client, msgGet msg "action" = some (JsonValue.string "subscribe") →
      c1.handleSubscriptionUpdate msg =
        { c1 with predicate :=
            createPredicate (readStringList msg "payers") (readStringList msg "types") } := by
    intro c1 hact
    unfold Client.handleSubscriptionUpdate
    rw [hact]
    simp
  refine ⟨handleSubscriptionUpdate_other c msg, hsub c, ?_,
    (handleSubscriptionUpdate_send c msg).1, (handleSubscriptionUpdate_send c msg).2⟩
  intro hact c2
  rw [hsub c hact, hsub c2 hact]

/-- Witness of C18: the message `payersKeyMessage` gives a new client the predicate of the
payer list `["beta"]`. -/
theorem handleSubscriptionUpdate_cases_witness :
    (newClient "c0").handleSubscriptionUpdate payersKeyMessage =
      { newClient "c0" with
        predicate := createPredicate (readStringList payersKeyMessage "payers")
          (readStringList payersKeyMessage "types") } :=
  (handleSubscriptionUpdate_cases (newClient "c0") payersKeyMessage).2.1 (by rfl)

/-- C19: for an endpoint with neither URL nor path, `GetURL` and `resolveURL` give the empty
string, whatever `url_contains` is, and the request that `createRequest` builds has the empty
URL; when the HTTP client fails on a request with an empty URL, as the one of `net/http` does
for want of a protocol scheme, `ProbeTask` gives a result with an empty URL, the status code 0
and a non-empty `Err`. The result does not depend on `url_contains`. -/
theorem urlContainsOnly_probe_fails (env : ProbeEnv) (task : Task)
    (h1 : task.Endpoint.URL = "") (h2 : task.Endpoint.Path = "")
    (hhttp : ∀ req : Request, req.URL = "" → ∃ err, env.clientDo req = .error err) :
    task.Endpoint.GetURL = "" ∧ resolveURL env task.Endpoint = "" ∧
      (∀ req, createRequest env task.Endpoint = .ok req → req.URL = "") ∧
      (ProbeTask env task).URL = "" ∧ (ProbeTask env task).StatusCode = 0 ∧
      (ProbeTask env task).Err ≠ "" ∧
      (∀ x : String,
        ProbeTask env { task with Endpoint := { task.Endpoint with URLContains := x } }
          = ProbeTask env task) := by
  have hres := resolveURL_empty env task.Endpoint h1 h2
  have hreq : ∀ req, createRequest env task.Endpoint = .ok req → req.URL = "" := by
    intro req h
    rw [createRequest_url env task.Endpoint req h, hres]
  obtain ⟨hbuild, hfail, _⟩ := ProbeTask_cases env task
  refine ⟨GetURL_empty _ h1 h2, hres, hreq, ?_, ?_, ?_, fun _ => rfl⟩
  · cases hc : createRequest env task.Endpoint with
    | error err => rw [hbuild err hc]; exact hres
    | ok req =>
      obtain ⟨err, hd⟩ := hhttp req (hreq req hc)
      rw [hfail req err hc hd]
      exact hres
  · cases hc : createRequest env task.Endpoint with
    | error err => rw [hbuild err hc]
    | ok req =>
      obtain ⟨err, hd⟩ := hhttp req (hreq req hc)
      rw [hfail req err hc hd]
  · cases hc : createRequest env task.Endpoint with
    | error err =>
      rw [hbuild err hc]
      exact append_ne_empty _ _ (by decide)
    | ok req =>
      obtain ⟨err, hd⟩ := hhttp req (hreq req hc)
      rw [hfail req err hc hd]
      exact append_ne_empty _ _ (by decide)

/-- Witness of C19: in `exampleProbeEnv` the probe of `urlContainsTask` has the status code 0
and an error. -/
theorem urlContainsOnly_probe_fails_witness :
    (ProbeTask exampleProbeEnv urlContainsTask).StatusCode = 0 ∧
      (ProbeTask exampleProbeEnv urlContainsTask).Err ≠ "" :=
  let h := urlContainsOnly_probe_fails exampleProbeEnv urlContainsTask rfl rfl
    (fun req hreq => ⟨"unsupported protocol scheme", by
      show (if req.URL = "" then _ else _) = _
      rw [if_pos hreq]⟩)
  ⟨h.2.2.2.2.1, h.2.2.2.2.2.1⟩

/-- C20, the code at the failing input. The scheduler that `LoadConfig` builds from the
configuration of the single endpoint `hugeEndpoint` has its heap in heap order, an interval of
more than a minute and the jitter fraction of `New`. In the tick `overflowEnv`, with samples in
range, `processNextTasks` takes its one task twice: the first round puts the task back with a
`NextRun` before `now`, and the second round takes it again. In the tick `stuckEnv`, where
every sample is 3/4, every round puts the task back with a `NextRun` before `now`, and the loop
ends within no number of rounds. -/
theorem processNextTasks_takes_task_twice :
    (New 1000).LoadConfig (Config.single "acme" hugeEndpoint) 0 (fun _ => 3 / 4)
        = hugeState (-8762203435012036993) [] ∧
      IsHeap (hugeState (-8762203435012036993) []).heap ∧
      (∀ t ∈ (hugeState (-8762203435012036993) []).heap, Minute ≤ t.Interval) ∧
      (hugeState (-8762203435012036993) []).jitterPct = (New 1000).jitterPct ∧
      TaskHeap.Len (hugeState (-8762203435012036993) []).heap = 1 ∧
      overflowEnv.SamplesInRange ∧
      (∃ s2, (hugeState (-8762203435012036993) []).processNextTasks overflowEnv 3
          = some (s2, [overflowEvent0, overflowEvent1])) ∧
      overflowEvent0.nextRun < overflowEnv.now ∧
      overflowEvent1.task = overflowEvent0.rescheduled ∧
      overflowEvent1.task.identity = overflowEvent0.task.identity ∧
      stuckEnv.SamplesInRange ∧
      ∀ fuel, (hugeState (-8762203435012036993) []).processNextTasks stuckEnv fuel = none := by
  refine ⟨hugeState_loaded, ?_, ?_, rfl, rfl, ?_, ⟨_, overflow_run⟩, by decide, rfl, rfl, ?_, ?_⟩
  · intro k _ hlt
    simp [hugeState] at hlt
    omega
  · intro t ht
    have ht2 : t = hugeTask (-8762203435012036993) := by
      simpa [hugeState] using ht
    subst ht2
    decide
  · intro i
    show (0 : ℚ) ≤ (if i = 0 then 3 / 4 else 1 / 4) ∧ (if i = 0 then 3 / 4 else 1 / 4 : ℚ) < 1
    split_ifs <;> norm_num
  · intro i
    show (0 : ℚ) ≤ 3 / 4 ∧ (3 / 4 : ℚ) < 1
    norm_num
  · intro fuel
    exact stuck_loop fuel 0 _ [] [] (by decide)

/-- On a well-formed scheduler, whose intervals are positive and at most `safeDuration`, with
samples in range, a call of `processNextTasks` at `now` returns when its loop is given one
round more than there are tasks, or more; the tasks it takes are tasks of the heap, each
taken once, so there are at most as many rounds as tasks and the tasks sent are among the
tasks taken; every task taken was due and is put back with a `NextRun` after `now`; and on
return no task of the heap has a `NextRun` at `now` or before. -/
theorem processNextTasks_terminates (s : Scheduler) (env : TickEnv) (hw : s.WellFormed)
    (hs : env.SamplesInRange) :
    ∃ s2 log,
      (∀ fuel, TaskHeap.Len s.heap + 1 ≤ fuel → s.processNextTasks env fuel = some (s2, log)) ∧
      (∃ rest, s.heap.Perm (log.map TickEvent.task ++ rest)) ∧
      log.length ≤ TaskHeap.Len s.heap ∧
      (sentTasks log).Sublist (log.map TickEvent.task) ∧
      (∀ e ∈ log, e.task.NextRun ≤ env.now ∧ env.now < e.nextRun) ∧
      ∀ t ∈ s2.heap, env.now < t.NextRun := by
  obtain ⟨s2, log, hrun, _, _, _, _, ⟨rest, hpa, hpb, hrest⟩, hevs, _⟩ :=
    processNextTasks_spec s env hw hs
  have hev : ∀ e ∈ log, e.task.NextRun ≤ env.now ∧ env.now < e.nextRun := by
    intro e he
    obtain ⟨i, hi, hie⟩ := List.getElem_of_mem he
    obtain ⟨hok, hgt⟩ := hevs i e (by rw [List.getElem?_eq_getElem hi, hie])
    exact ⟨hok.1, hgt⟩
  refine ⟨s2, log, hrun, ⟨rest, hpa⟩, ?_, ?_, hev, ?_⟩
  · have hl := hpa.length_eq
    rw [List.length_append, List.length_map] at hl
    unfold TaskHeap.Len
    omega
  · unfold sentTasks
    exact (List.filter_sublist _).map _
  · intro t ht
    rcases List.mem_append.mp (hpb.subset ht) with hm | hm
    · obtain ⟨e, he, hte⟩ := List.mem_map.mp hm
      rw [← hte]
      exact (hev e he).2
    · exact hrest t hm
/-- C21: for a message with the action `subscribe`, the lists that `handleSubscriptionUpdate`
builds are the string elements, in order, of the arrays under `payers` and `types`, the other
elements being dropped, and the empty list for a key that is missing or whose value is not an
array; the predicate installed is `createPredicate` of the two lists, so it accepts every
result when neither list has a string element. -/
theorem handleSubscriptionUpdate_string_elements (c : Client) (msg : Message)
    (hact : msgGet msg "action" = some (JsonValue.string "subscribe")) :
    (∀ key items, msgGet msg key = some (JsonValue.array items) →
        readStringList msg key = items.filterMap JsonValue.asString ∧
          ∀ s, s ∈ readStringList msg key ↔ JsonValue.string s ∈ items) ∧
      (∀ key, (∀ items, msgGet msg key ≠ some (JsonValue.array items)) →
        readStringList msg key = []) ∧
      (c.handleSubscriptionUpdate msg).predicate
        = createPredicate (readStringList msg "payers") (readStringList msg "types") ∧
      (readStringList msg "payers" = [] → readStringList msg "types" = [] →
        ∀ r, (c.handleSubscriptionUpdate msg).predicate r = true) := by
  have hpred : (c.handleSubscriptionUpdate msg).predicate
      = createPredicate (readStringList msg "payers") (readStringList msg "types") := by
    unfold Client.handleSubscriptionUpdate
    rw [hact]
    simp
  refine ⟨?_, readStringList_other msg, hpred, ?_⟩
  · intro key items h
    have hl := readStringList_array msg key items h
    refine ⟨hl, ?_⟩
    intro s
    rw [hl, List.mem_filterMap]
    constructor
    · rintro ⟨v, hv, hs⟩
      cases v with
      | string t =>
        have : t = s := by simpa [JsonValue.asString] using hs
        rw [← this]
        exact hv
      | null => simp [JsonValue.asString] at hs
      | bool b => simp [JsonValue.asString] at hs
      | number x => simp [JsonValue.asString] at hs
      | array xs => simp [JsonValue.asString] at hs
      | object fs => simp [JsonValue.asString] at hs
    · intro hs
      exact ⟨JsonValue.string s, hs, rfl⟩
  · intro hp ht r
    rw [hpred, hp, ht]
    rfl

/-- Witness of C21: after the message `{"action":"subscribe","payers":[42]}` the predicate of
a new client accepts `exampleResult`. -/
theorem handleSubscriptionUpdate_string_elements_witness :
    readStringList numberPayersMessage "payers" = [] ∧
      ((newClient "c0").handleSubscriptionUpdate numberPayersMessage).predicate exampleResult
        = true :=
  ⟨rfl, (handleSubscriptionUpdate_string_elements (newClient "c0") numberPayersMessage rfl).2.2.2
    rfl rfl exampleResult⟩


end PayerStatus
